import Mathlib

/-!
# MazeBot: the grid search engine of `MazeBot.cpp`

A shallow embedding of the classes `Coord` and `Search` of `MazeBot.cpp`
(constructor, `SearchTemplate`, `SearchImplementation`, `AStarSort`, `Print`,
`CleanUp`, `SwitchSearch`) and theorems about the search it performs.

Modelling conventions.

* `int` cell values are `Int`; row and column indices, depths, counters and
  sizes are `Nat` (they are never negative in a run, and stay far below the
  `int` range).  The source guard `col - 1 > -1` is evaluated over `Int`.
* The two `int[BOARDSIZE][BOARDSIZE]` arrays are functions on
  `Fin BOARDSIZE × Fin BOARDSIZE`.  An access outside the array is undefined
  behaviour in C++; here such a read gives `0` and such a write does nothing.
  The invariant `Core` below shows that in a run from a reset state every node
  is on the board, so that no such access happens.
* A `Coord*` is modelled by the node it points to: nodes are never modified
  after construction, so the parent pointer is the embedded parent node and the
  null pointer is `none`.
* `std::deque` is `List`, front of the deque = head of the list.
* The `while` loop of `SearchTemplate` is run with fuel; the theorems show that
  `BOARDSIZE * BOARDSIZE + 1` units always suffice from a reset state.
* The three global flags `BFS`, `DFS`, `AS` are a record `Flags` passed
  explicitly.
-/

namespace MazeBot

/-! ## Constants -/

def BOARDSIZE : Nat := 25

def FREE : Int := 1
def START : Int := 4
def BLOCK : Int := 5
def OPEN : Int := 6
def CLOSED : Int := 7
def E1 : Int := 8
def E2 : Int := 9
def CORNER : Int := 0

/-- The flags `BFS`, `DFS`, `AS` that select the search technique. -/
structure Flags where
  BFS : Bool
  DFS : Bool
  AS : Bool

/-- Initial values of the global flags: breadth first search. -/
def Flags.initial : Flags := { BFS := true, DFS := false, AS := false }

/-- Method `Search::SwitchSearch`. -/
def SwitchSearch (fl : Flags) : Flags :=
  if fl.BFS then { fl with BFS := false, DFS := true }
  else if fl.DFS then { fl with DFS := false, AS := true }
  else fl

/-- Flags during the breadth first runs of `main`. -/
def bfsFlags : Flags := Flags.initial
/-- Flags during the depth first runs of `main`. -/
def dfsFlags : Flags := SwitchSearch Flags.initial
/-- Flags during the A* runs of `main`. -/
def asFlags : Flags := SwitchSearch (SwitchSearch Flags.initial)

/-- The three flag settings that occur in `main`. -/
def Flags.Strategy (fl : Flags) : Prop := fl = bfsFlags ∨ fl = dfsFlags ∨ fl = asFlags

/-! ## Coord -/

/-- Class `Coord`: a position with depth, `functionF` and parent node.
The four-argument constructor of the source leaves `functionF` unset; the
model stores `0` there (the field is only ever read by `AStarSort`). -/
inductive Coord where
  | mk (row col depth functionF : Nat) (parent : Option Coord) : Coord

namespace Coord

def getRow : Coord → Nat | mk r _ _ _ _ => r
def getCol : Coord → Nat | mk _ c _ _ _ => c
def getDepth : Coord → Nat | mk _ _ d _ _ => d
def getFunctionF : Coord → Nat | mk _ _ _ f _ => f
def getParent : Coord → Option Coord | mk _ _ _ _ p => p

/-- Position of a node. -/
def pos (n : Coord) : Nat × Nat := (n.getRow, n.getCol)

end Coord

/-! ## The arrays -/

/-- An `int[BOARDSIZE][BOARDSIZE]` array. -/
def Grid : Type := Fin BOARDSIZE → Fin BOARDSIZE → Int

/-- Read `g[r][c]`. -/
def Grid.get (g : Grid) (r c : Nat) : Int :=
  if h : r < BOARDSIZE then
    if h2 : c < BOARDSIZE then g ⟨r, h⟩ ⟨c, h2⟩ else 0
  else 0

/-- Write `g[r][c] = v`. -/
def Grid.set (g : Grid) (r c : Nat) (v : Int) : Grid :=
  fun i j => if i.val = r ∧ j.val = c then v else g i j

/-! ## Search -/

/-- Class `Search`. -/
structure Search where
  mazeMap : Grid
  mazeRoute : Grid
  startRow : Nat
  startCol : Nat
  startE1E2Row : Nat
  startE1E2Col : Nat
  exitRow : Nat
  exitCol : Nat
  exitE1Row : Nat
  exitE1Col : Nat
  exitE2Row : Nat
  exitE2Col : Nat
  cost : Nat
  maxOpenQSize : Nat
  openDeque : List Coord
  closedDeque : List Coord

/-- Body of the two `for` loops of the constructor for the cell `(i, j)`, where
`file i j` is the number just read into `mazeMap[i][j]`: record the position of
a `START`, `E1` or `E2` cell. -/
def Search.scanCell (file : Grid) (s : Search) (i j : Fin BOARDSIZE) : Search :=
  if file i j = START then { s with startE1E2Row := i.val, startE1E2Col := j.val }
  else if file i j = E1 then { s with exitE1Row := i.val, exitE1Col := j.val }
  else if file i j = E2 then { s with exitE2Row := i.val, exitE2Col := j.val }
  else s

/-- The constructor `Search::Search()` on a map file that was opened and holds
the numbers `file`; both arrays receive every number of the file.  The
coordinate members are not initialised by the constructor: `mem` gives what
the object's memory holds before. -/
def Search.new (mem : Search) (file : Grid) : Search :=
  let s0 : Search := { mem with
    cost := 0, maxOpenQSize := 0, openDeque := [], closedDeque := [],
    mazeMap := file, mazeRoute := file }
  (List.finRange BOARDSIZE).foldl
    (fun s i => (List.finRange BOARDSIZE).foldl (fun s j => Search.scanCell file s i j) s) s0

/-- Value of `abs(a - b)` on `int`s that hold the naturals `a` and `b`. -/
def absDiff (a b : Nat) : Nat := Int.natAbs ((a : Int) - (b : Int))

/-- The loop of `AStarSort`: walk the deque from the front and insert `node`
before the first element whose `functionF` is greater than `functionF`.
The flag is `insertSuccess`. -/
def AStarSort.loop (functionF : Nat) (node : Coord) : List Coord → List Coord × Bool
  | [] => ([], false)
  | x :: xs =>
    if functionF < x.getFunctionF then (node :: x :: xs, true)
    else
      let r := AStarSort.loop functionF node xs
      (x :: r.1, r.2)

/-- Method `Search::AStarSort`. -/
def Search.AStarSort (s : Search) (row col depth : Nat) (parent : Option Coord) : Search :=
  let gN := depth
  let hN := absDiff s.exitRow row + absDiff s.exitCol col
  let functionF := gN + hN
  if s.openDeque.length = 0 then
    { s with openDeque := s.openDeque ++ [Coord.mk row col depth functionF parent] }
  else
    let r := AStarSort.loop functionF (Coord.mk row col depth functionF parent) s.openDeque
    if !r.2 then
      { s with openDeque := r.1 ++ [Coord.mk row col depth functionF parent] }
    else
      { s with openDeque := r.1 }

/-- The three-way branch on the flags that adds a new node to `openDeque`;
it occurs four times in `SearchImplementation`. -/
def Search.pushNode (fl : Flags) (s : Search) (row col depth : Nat)
    (parent : Option Coord) : Search :=
  if fl.BFS then { s with openDeque := s.openDeque ++ [Coord.mk row col depth 0 parent] }
  else if fl.DFS then { s with openDeque := Coord.mk row col depth 0 parent :: s.openDeque }
  else if fl.AS then s.AStarSort row col depth parent
  else s

/-- The test `mazeRoute[r][c] != BLOCK && mazeRoute[r][c] != CLOSED &&
mazeRoute[r][c] != OPEN` and the body it guards: mark the cell `OPEN` and add a
node for it. -/
def Search.tryCell (fl : Flags) (s : Search) (r c depth : Nat)
    (parent : Option Coord) : Search :=
  if s.mazeRoute.get r c ≠ BLOCK ∧ s.mazeRoute.get r c ≠ CLOSED ∧ s.mazeRoute.get r c ≠ OPEN then
    Search.pushNode fl { s with mazeRoute := s.mazeRoute.set r c OPEN } r c depth parent
  else s

/-- Depth of `closedDeque.back()`. -/
def Search.backDepth (s : Search) : Nat :=
  match s.closedDeque.getLast? with
  | some n => n.getDepth
  | none => 0

/-- Method `Search::SearchImplementation`: the neighbours left, above, right and
below the position `(row, col)`, in this order. -/
def Search.SearchImplementation (fl : Flags) (s : Search) (row col : Nat) : Search :=
  let depth := s.backDepth + 1
  let parent := s.closedDeque.getLast?
  let s1 := if (col : Int) - 1 > -1 then s.tryCell fl row (col - 1) depth parent else s
  let s2 := if (row : Int) - 1 > -1 then s1.tryCell fl (row - 1) col depth parent else s1
  let s3 := if col + 1 < BOARDSIZE then s2.tryCell fl row (col + 1) depth parent else s2
  let s4 := if row + 1 < BOARDSIZE then s3.tryCell fl (row + 1) col depth parent else s3
  { s4 with maxOpenQSize :=
      if s4.openDeque.length > s4.maxOpenQSize then s4.openDeque.length else s4.maxOpenQSize }

/-- The first statements of `SearchTemplate`: choose start and exit coordinates
for the requested exit. -/
def Search.selectExit (exit : Int) (s : Search) : Search :=
  if exit = E1 then
    { s with startRow := s.startE1E2Row, startCol := s.startE1E2Col,
             exitRow := s.exitE1Row, exitCol := s.exitE1Col }
  else if exit = E2 then
    { s with startRow := s.startE1E2Row, startCol := s.startE1E2Col,
             exitRow := s.exitE2Row, exitCol := s.exitE2Col }
  else if exit = CORNER then
    { s with startRow := BOARDSIZE - 1, startCol := 0,
             exitRow := 0, exitCol := BOARDSIZE - 1 }
  else s

/-- The part of `SearchTemplate` before the loop: choose start and exit
coordinates, put the start node into `openDeque`, set `maxOpenQSize` and mark
the start cell `OPEN`. -/
def Search.seed (fl : Flags) (exit : Int) (s : Search) : Search :=
  let s1 : Search := s.selectExit exit
  let s2 : Search :=
    if fl.BFS then
      { s1 with openDeque := s1.openDeque ++ [Coord.mk s1.startRow s1.startCol 0 0 none] }
    else if fl.DFS then
      { s1 with openDeque := Coord.mk s1.startRow s1.startCol 0 0 none :: s1.openDeque }
    else if fl.AS then
      let functionF := absDiff s1.startRow s1.exitRow + absDiff s1.startCol s1.exitCol
      { s1 with openDeque := s1.openDeque ++ [Coord.mk s1.startRow s1.startCol 0 functionF none] }
    else s1
  { s2 with maxOpenQSize := 1, mazeRoute := s2.mazeRoute.set s2.startRow s2.startCol OPEN }

/-- The statements of the loop body that both branches share: mark the
position of `openDeque.front()` as `CLOSED`, count it in `cost`, append the
front node to `closedDeque` and remove it from `openDeque`.  The deque is
`front :: rest`. -/
def Search.pop (s : Search) (front : Coord) (rest : List Coord) : Search :=
  { s with mazeRoute := s.mazeRoute.set front.getRow front.getCol CLOSED,
           cost := s.cost + 1,
           closedDeque := s.closedDeque ++ [front],
           openDeque := rest }

/-- One pass through the body of the `while` loop of `SearchTemplate`, for a
deque whose front is `front` and whose other elements are `rest`.  The flag
says whether the loop was left through `break`, with `win = true`. -/
def Search.loopBody (fl : Flags) (exit : Int) (s : Search) (front : Coord)
    (rest : List Coord) : Search × Bool :=
  let row := front.getRow
  let col := front.getCol
  if s.mazeMap.get row col = exit then
    (s.pop front rest, true)
  else
    (Search.SearchImplementation fl (s.pop front rest) row col, false)

/-- The `while (openDeque.size() != 0)` loop of `SearchTemplate`, with fuel.
The result is the state when the loop is left and the value of `win`. -/
def Search.whileLoop (fl : Flags) (exit : Int) : Nat → Search → Option (Search × Bool)
  | 0, _ => none
  | fuel + 1, s =>
    match s.openDeque with
    | [] => some (s, false)
    | front :: rest =>
      let r := Search.loopBody fl exit s front rest
      if r.2 then some r else Search.whileLoop fl exit fuel r.1

/-- The loop of `Print` that climbs from a node to the root, pushing every
node to the front of `path`. -/
def Coord.climb : Coord → List Coord → List Coord
  | Coord.mk r c d f none, path => Coord.mk r c d f none :: path
  | Coord.mk r c d f (some p), path => Coord.climb p (Coord.mk r c d f (some p) :: path)

/-- What `Print` reports. -/
structure Report where
  path : List Coord
  pathCost : Nat
  totalCost : Int
  maxOpenQSize : Nat
  finalOpen : Nat
  finalClosed : Nat
  totalExplored : Nat

/-- Method `Search::Print`: the path from `closedDeque.back()` up to the root and the
figures printed after it.  There is no report when `closedDeque` is empty
(`back()` of an empty deque). -/
def Search.Print (s : Search) : Option Report :=
  match s.closedDeque.getLast? with
  | none => none
  | some last =>
    let path := Coord.climb last []
    some { path := path
           pathCost := path.length
           totalCost := (s.cost : Int) - 1
           maxOpenQSize := s.maxOpenQSize
           finalOpen := s.openDeque.length
           finalClosed := s.closedDeque.length
           totalExplored := s.openDeque.length + s.closedDeque.length }

/-- Outcome of `SearchTemplate`: the object afterwards, the value of `win`, and
the report of `Print`. -/
structure Outcome where
  state : Search
  win : Bool
  report : Report

/-- Method `Search::SearchTemplate`. -/
def Search.SearchTemplate (fl : Flags) (exit : Int) (fuel : Nat) (s : Search) : Option Outcome :=
  match Search.whileLoop fl exit fuel (Search.seed fl exit s) with
  | none => none
  | some (s1, win) =>
    match s1.Print with
    | none => none
    | some rep => some { state := s1, win := win, report := rep }

/-- Method `Search::CleanUp`. -/
def Search.CleanUp (s : Search) : Search :=
  { s with mazeRoute := fun i j => s.mazeMap i j,
           openDeque := [], closedDeque := [], cost := 0, maxOpenQSize := 0 }

/-! ## Specification vocabulary -/

/-- Two positions differ by exactly one step in exactly one of the four
directions. -/
def Adjacent (a b : Nat × Nat) : Prop :=
  (a.1 = b.1 ∧ (a.2 + 1 = b.2 ∨ b.2 + 1 = a.2)) ∨
  (a.2 = b.2 ∧ (a.1 + 1 = b.1 ∨ b.1 + 1 = a.1))

instance (a b : Nat × Nat) : Decidable (Adjacent a b) := by
  unfold Adjacent; infer_instance

/-- Predicate `Reach M start k p`: the position `p` is reached from `start` by `k`
orthogonal unit moves, each of them into a cell inside the board whose layout
value is not `BLOCK`. -/
inductive Reach (M : Grid) (start : Nat × Nat) : Nat → Nat × Nat → Prop
  | zero : Reach M start 0 start
  | step {k : Nat} {a b : Nat × Nat} : Reach M start k a → Adjacent a b →
      b.1 < BOARDSIZE → b.2 < BOARDSIZE → M.get b.1 b.2 ≠ BLOCK → Reach M start (k + 1) b

/-- All cells of the layout are `FREE`, `START`, `BLOCK`, `E1` or `E2`. -/
def LayoutOK (M : Grid) : Prop :=
  ∀ i j, M i j = FREE ∨ M i j = START ∨ M i j = BLOCK ∨ M i j = E1 ∨ M i j = E2

instance (M : Grid) : Decidable (LayoutOK M) := by
  unfold LayoutOK; infer_instance

/-- A reset state: what the constructor and `CleanUp` leave behind, with the
recorded start cell on the board. -/
structure ResetState (s : Search) : Prop where
  openEmpty : s.openDeque = []
  closedEmpty : s.closedDeque = []
  cost0 : s.cost = 0
  route : s.mazeRoute = s.mazeMap
  startRow_lt : s.startE1E2Row < BOARDSIZE
  startCol_lt : s.startE1E2Col < BOARDSIZE

/-- The nodes of both deques, `closedDeque` first. -/
def Search.nodes (s : Search) : List Coord := s.closedDeque ++ s.openDeque

/-- The states of a `SearchTemplate` run on `s0` at the points where the loop
condition is evaluated or the loop is left: the state after the start node was
put into `openDeque`, and the state after every pass through the loop body.
The flag is `win`. -/
inductive Search.Reached (fl : Flags) (exit : Int) (s0 : Search) : Search → Bool → Prop
  | seed : Search.Reached fl exit s0 (Search.seed fl exit s0) false
  | step {s : Search} {front : Coord} {rest : List Coord} :
      Search.Reached fl exit s0 s false → s.openDeque = front :: rest →
      Search.Reached fl exit s0 (Search.loopBody fl exit s front rest).1
        (Search.loopBody fl exit s front rest).2

/-- Invariant of the deques and of the marks in `mazeRoute` that holds
throughout a run, for every layout: all nodes are on the board, no position
has two nodes, the cells of `openDeque` nodes are marked `OPEN`, those of
`closedDeque` nodes `CLOSED`, and `cost` counts the nodes of `closedDeque`. -/
structure Core (s : Search) : Prop where
  inb : ∀ n ∈ s.nodes, n.getRow < BOARDSIZE ∧ n.getCol < BOARDSIZE
  nodup : (s.nodes.map Coord.pos).Nodup
  openMark : ∀ n ∈ s.openDeque, s.mazeRoute.get n.getRow n.getCol = OPEN
  closedMark : ∀ n ∈ s.closedDeque, s.mazeRoute.get n.getRow n.getCol = CLOSED
  costEq : s.cost = s.closedDeque.length

/-- The members that the search loop never writes: `t` has the same layout and
the same coordinate members as `s`. -/
structure Fixed (s t : Search) : Prop where
  mazeMap : t.mazeMap = s.mazeMap
  startRow : t.startRow = s.startRow
  startCol : t.startCol = s.startCol
  exitRow : t.exitRow = s.exitRow
  exitCol : t.exitCol = s.exitCol
  startE1E2Row : t.startE1E2Row = s.startE1E2Row
  startE1E2Col : t.startE1E2Col = s.startE1E2Col
  exitE1Row : t.exitE1Row = s.exitE1Row
  exitE1Col : t.exitE1Col = s.exitE1Col
  exitE2Row : t.exitE2Row = s.exitE2Row
  exitE2Col : t.exitE2Col = s.exitE2Col

/-- Predicate `GoodChain M start n`: the chain of parents of `n` ends in a node at
`start` with depth `0` and no parent, and every other node of the chain is on
the board, on a cell whose layout value is not `BLOCK`, one step away from its
parent and one deeper than its parent. -/
def GoodChain (M : Grid) (start : Nat × Nat) : Coord → Prop
  | Coord.mk r c d _ none => (r, c) = start ∧ d = 0
  | Coord.mk r c d _ (some p) =>
    GoodChain M start p ∧ Adjacent p.pos (r, c) ∧ r < BOARDSIZE ∧ c < BOARDSIZE ∧
      M.get r c ≠ BLOCK ∧ d = p.getDepth + 1

/-- The nodes from the root down to `n`, the root first. -/
def Coord.chainList : Coord → List Coord
  | Coord.mk r c d f none => [Coord.mk r c d f none]
  | Coord.mk r c d f (some p) => Coord.chainList p ++ [Coord.mk r c d f (some p)]

/-- A list of positions is a walk on the board: consecutive positions are one
step apart, and every position is on the board and not a `BLOCK` cell of the
layout. -/
def ValidPath (M : Grid) (ps : List (Nat × Nat)) : Prop :=
  List.Chain' Adjacent ps ∧
  ∀ p ∈ ps, p.1 < BOARDSIZE ∧ p.2 < BOARDSIZE ∧ M.get p.1 p.2 ≠ BLOCK

instance (M : Grid) (ps : List (Nat × Nat)) : Decidable (ValidPath M ps) := by
  unfold ValidPath; infer_instance

/-- Invariant of a run on the layout `M` from the position `start`: unvisited
cells still carry their layout value in `mazeRoute`, every node has a good
chain of parents, and the start position has a node of depth `0`. -/
structure Track (M : Grid) (start : Nat × Nat) (s : Search) : Prop where
  map : s.mazeMap = M
  fresh : ∀ r c, r < BOARDSIZE → c < BOARDSIZE → (∀ n ∈ s.nodes, n.pos ≠ (r, c)) →
    s.mazeRoute.get r c = M.get r c
  chain : ∀ n ∈ s.nodes, GoodChain M start n
  startIn : ∃ n ∈ s.nodes, n.pos = start ∧ n.getDepth = 0

/-- Invariant at the head of the search loop: `Core`, `Track`, no node of
`closedDeque` is on a cell with the requested exit value, and every neighbour
of a `closedDeque` node that is on the board and not a `BLOCK` cell has a
node. -/
structure Inv (M : Grid) (start : Nat × Nat) (exit : Int) (s : Search) : Prop where
  core : Core s
  track : Track M start s
  noGoal : ∀ n ∈ s.closedDeque, M.get n.getRow n.getCol ≠ exit
  expanded : ∀ n ∈ s.closedDeque, ∀ q, Adjacent n.pos q → q.1 < BOARDSIZE →
    q.2 < BOARDSIZE → M.get q.1 q.2 ≠ BLOCK → ∃ m ∈ s.nodes, m.pos = q

/-- Predicate `MinSteps M start exit d`: `d` is the least number of moves in which a cell
with layout value `exit` is reached from `start`. -/
def MinSteps (M : Grid) (start : Nat × Nat) (exit : Int) (d : Nat) : Prop :=
  (∃ p, Reach M start d p ∧ M.get p.1 p.2 = exit) ∧
  ∀ k p, Reach M start k p → M.get p.1 p.2 = exit → d ≤ k

/-- Invariant of a breadth first run at the head of the loop: `openDeque` is
ordered by depth and spans at most two consecutive depths, no node of
`closedDeque` is deeper than a node of `openDeque`, and every neighbour of a
`closedDeque` node `n` that is on the board and not a `BLOCK` cell has a node
of depth at most `n.getDepth + 1`. -/
structure BfsInv (M : Grid) (s : Search) : Prop where
  sorted : s.openDeque.Pairwise (fun a b => a.getDepth ≤ b.getDepth)
  closedLe : ∀ x ∈ s.closedDeque, ∀ y ∈ s.openDeque, x.getDepth ≤ y.getDepth
  span : ∀ x ∈ s.openDeque, ∀ y ∈ s.openDeque, y.getDepth ≤ x.getDepth + 1
  disc : ∀ n ∈ s.closedDeque, ∀ q, Adjacent n.pos q → q.1 < BOARDSIZE →
    q.2 < BOARDSIZE → M.get q.1 q.2 ≠ BLOCK →
    ∃ m ∈ s.nodes, m.pos = q ∧ m.getDepth ≤ n.getDepth + 1

/-! ## Concrete layouts -/

/-- Memory of a `Search` object before its constructor has run (all zero). -/
def blankMemory : Search :=
  { mazeMap := fun _ _ => 0, mazeRoute := fun _ _ => 0, startRow := 0, startCol := 0,
    startE1E2Row := 0, startE1E2Col := 0, exitRow := 0, exitCol := 0, exitE1Row := 0,
    exitE1Col := 0, exitE2Row := 0, exitE2Col := 0, cost := 0, maxOpenQSize := 0,
    openDeque := [], closedDeque := [] }

/-- A map whose open cells lie in rows 0 to 5 of columns 0 to 2; everything
else is `BLOCK`.
```
1 1 9
8 1 1
5 5 1
1 1 1
1 5 1
1 4 1
```
-/
def detourMap : Grid := fun i j =>
  if 3 ≤ j.val then 5
  else if i.val = 0 then (if j.val = 2 then 9 else 1)
  else if i.val = 1 then (if j.val = 0 then 8 else 1)
  else if i.val = 2 then (if j.val = 2 then 1 else 5)
  else if i.val = 3 then 1
  else if i.val = 4 then (if j.val = 1 then 5 else 1)
  else if i.val = 5 then (if j.val = 1 then 4 else 1)
  else 5

/-- A map with one corridor, up the left column and along the top row, from
the bottom left corner (`START`) to the top right corner (`E1`, with `E2` next
to it); everything else is `BLOCK`. -/
def cornerMap : Grid := fun i j =>
  if i.val = 24 ∧ j.val = 0 then 4
  else if i.val = 0 ∧ j.val = 24 then 8
  else if i.val = 0 ∧ j.val = 23 then 9
  else if i.val = 0 ∨ j.val = 0 then 1
  else 5

/-- A state whose frontier holds four nodes with `functionF` 5, 7, 7, 9, and
whose targeted exit is the cell `(0, 0)`. -/
def tieFrontier : Search :=
  { blankMemory with
      exitRow := 0, exitCol := 0,
      openDeque := [Coord.mk 2 3 0 5 none, Coord.mk 3 3 1 7 none, Coord.mk 1 5 1 7 none,
                    Coord.mk 4 4 1 9 none] }

/-- A map with `CORNER` cells (value 0) in the bottom left and the top right
corner, joined by a corridor up the left column and along the top row that
holds the `START`, `E1` and `E2` cells; everything else is `BLOCK`. -/
def zeroCornerMap : Grid := fun i j =>
  if i.val = 24 ∧ j.val = 0 then 0
  else if i.val = 0 ∧ j.val = 24 then 0
  else if i.val = 23 ∧ j.val = 0 then 4
  else if i.val = 0 ∧ j.val = 22 then 8
  else if i.val = 0 ∧ j.val = 23 then 9
  else if i.val = 0 ∨ j.val = 0 then 1
  else 5

/-! ## Vocabulary for single expansions -/

/-- The neighbours of `(row, col)` on the board, in the order left (column
`col - 1`), up (row `row - 1`), right (column `col + 1`), down (row
`row + 1`). -/
def neighbours (row col : Nat) : List (Nat × Nat) :=
  (if 1 ≤ col then [(row, col - 1)] else []) ++
  ((if 1 ≤ row then [(row - 1, col)] else []) ++
  ((if col + 1 < BOARDSIZE then [(row, col + 1)] else []) ++
   (if row + 1 < BOARDSIZE then [(row + 1, col)] else [])))

/-- The overlay status of the cell `q` is none of `BLOCK`, `CLOSED`, `OPEN`. -/
def Search.Eligible (s : Search) (q : Nat × Nat) : Prop :=
  s.mazeRoute.get q.1 q.2 ≠ BLOCK ∧ s.mazeRoute.get q.1 q.2 ≠ CLOSED ∧
    s.mazeRoute.get q.1 q.2 ≠ OPEN

instance (s : Search) (q : Nat × Nat) : Decidable (s.Eligible q) := by
  unfold Search.Eligible; infer_instance

/-- The list `E` of an expansion at `(row, col)`: the neighbours on the board,
in the order left, up, right, down, whose overlay status is none of `BLOCK`,
`CLOSED`, `OPEN`. -/
def Search.expansion (s : Search) (row col : Nat) : List (Nat × Nat) :=
  (neighbours row col).filter (fun q => decide (s.Eligible q))

/-- Function `tryCell` on the cells of a list, one after the other. -/
def Search.tryCells (fl : Flags) (s : Search) (depth : Nat) (parent : Option Coord)
    (cells : List (Nat × Nat)) : Search :=
  cells.foldl (fun t q => t.tryCell fl q.1 q.2 depth parent) s

/-- The state in which the loop condition is first evaluated in the depth first
run for `E1` on `detourMap`. -/
def detourSeed : Search := Search.seed dfsFlags E1 (Search.new blankMemory detourMap)

/-- The start node of the depth first run for `E1` on `detourMap`. -/
def detourRoot : Coord := Coord.mk 5 1 0 0 none

/-! ## The sequence of states of a run -/

/-- The states in which the loop condition of `SearchTemplate` is evaluated,
from the state `s` on, followed by the state after a pass that left the loop
through `break`; with fuel, like `whileLoop`. -/
def Search.trace (fl : Flags) (exit : Int) : Nat → Search → List Search
  | 0, s => [s]
  | fuel + 1, s =>
    match s.openDeque with
    | [] => [s]
    | front :: rest =>
      let r := Search.loopBody fl exit s front rest
      if r.2 then [s, r.1] else s :: Search.trace fl exit fuel r.1

/-- The overlay of `b` differs from that of `a` only in cells that went from a
status that is neither `OPEN` nor `CLOSED` to `OPEN`, or from `OPEN` to
`CLOSED`. -/
def StatusStep (a b : Search) : Prop :=
  ∀ r c, b.mazeRoute.get r c = a.mazeRoute.get r c ∨
    (a.mazeRoute.get r c ≠ OPEN ∧ a.mazeRoute.get r c ≠ CLOSED ∧ b.mazeRoute.get r c = OPEN) ∨
    (a.mazeRoute.get r c = OPEN ∧ b.mazeRoute.get r c = CLOSED)

/-- A cell that is `CLOSED` in `a` is `CLOSED` in `b`, and a cell that is `OPEN`
in `a` is `OPEN` or `CLOSED` in `b`. -/
def StatusLater (a b : Search) : Prop :=
  ∀ r c, (a.mazeRoute.get r c = CLOSED → b.mazeRoute.get r c = CLOSED) ∧
    (a.mazeRoute.get r c = OPEN →
      b.mazeRoute.get r c = OPEN ∨ b.mazeRoute.get r c = CLOSED)

/-- Invariant of an A* run: every node of `openDeque` carries
`functionF = depth + |exitRow - row| + |exitCol - col|`, and `openDeque` is
ordered by `functionF`, least first. -/
structure AsInv (s : Search) : Prop where
  fval : ∀ n ∈ s.openDeque, n.getFunctionF =
    n.getDepth + (absDiff s.exitRow n.getRow + absDiff s.exitCol n.getCol)
  sorted : s.openDeque.Pairwise (fun a b => a.getFunctionF ≤ b.getFunctionF)

/-- Predicate `DepthChain start n`: the chain of parents of `n` ends in a node
at `start` with depth `0` and no parent, and every other node of the chain is
one deeper than its parent. -/
def DepthChain (start : Nat × Nat) : Coord → Prop
  | Coord.mk r c d _ none => (r, c) = start ∧ d = 0
  | Coord.mk _ _ d _ (some p) => DepthChain start p ∧ d = p.getDepth + 1

/-- A map whose `E1` cell cannot be reached: the open cells are `START` at
`(0, 0)`, a `FREE` cell at `(0, 1)` and `E2` at `(1, 0)`; `E1` at `(0, 3)` lies
behind the `BLOCK` cell `(0, 2)`; everything else is `BLOCK`.
```
4 1 5 8
9 5 5 5
```
-/
def sealedMap : Grid := fun i j =>
  if i.val = 0 ∧ j.val = 0 then 4
  else if i.val = 0 ∧ j.val = 1 then 1
  else if i.val = 0 ∧ j.val = 3 then 8
  else if i.val = 1 ∧ j.val = 0 then 9
  else 5

/-! ## States in the middle of a run -/

/-- Proof apparatus: the state in which the loop condition is evaluated for the
`k + 1`-st time in the run from `s0`, the last state of the sequence
`Search.trace` with fuel `k`; it is the final state when the run ends within
`k` passes. -/
def Search.afterPasses (fl : Flags) (exit : Int) (k : Nat) (s0 : Search) : Search :=
  ((Search.trace fl exit k (Search.seed fl exit s0)).getLast?).getD s0

/-- The A* run for `E1` on `detourMap` after eleven passes of the loop. -/
def detourAsFrontier : Search :=
  Search.afterPasses asFlags E1 11 (Search.new blankMemory detourMap)

/-- The depth first run for `E1` on `detourMap` after six passes of the loop. -/
def detourDfsDeep : Search :=
  Search.afterPasses dfsFlags E1 6 (Search.new blankMemory detourMap)

/-! ## Basic facts -/

theorem Grid.get_set_same (g : Grid) {r c : Nat} (v : Int) (hr : r < BOARDSIZE)
    (hc : c < BOARDSIZE) : (g.set r c v).get r c = v := by
  simp [Grid.get, Grid.set, hr, hc]

theorem Grid.get_set_ne (g : Grid) {r c r2 c2 : Nat} (v : Int) (h : (r2, c2) ≠ (r, c)) :
    (g.set r c v).get r2 c2 = g.get r2 c2 := by
  have h2 : ¬ (r2 = r ∧ c2 = c) := fun ⟨a, b⟩ => h (by rw [a, b])
  unfold Grid.get Grid.set
  split
  · split
    · simp [h2]
    · rfl
  · rfl

theorem Grid.get_of_lt (g : Grid) {r c : Nat} (hr : r < BOARDSIZE) (hc : c < BOARDSIZE) :
    g.get r c = g ⟨r, hr⟩ ⟨c, hc⟩ := by
  simp [Grid.get, hr, hc]

theorem Flags.Strategy.cases {fl : Flags} (h : fl.Strategy) :
    (fl.BFS = true ∧ fl.DFS = false ∧ fl.AS = false) ∨
    (fl.BFS = false ∧ fl.DFS = true ∧ fl.AS = false) ∨
    (fl.BFS = false ∧ fl.DFS = false ∧ fl.AS = true) := by
  rcases h with h | h | h <;> subst h <;> simp [bfsFlags, dfsFlags, asFlags, Flags.initial, SwitchSearch]

theorem AStarSort.loop_split (f : Nat) (node : Coord) (l : List Coord) :
    ((AStarSort.loop f node l).2 = false ∧ (AStarSort.loop f node l).1 = l) ∨
    ((AStarSort.loop f node l).2 = true ∧
      ∃ l1 l2, l = l1 ++ l2 ∧ (AStarSort.loop f node l).1 = l1 ++ node :: l2) := by
  induction l with
  | nil => left; simp [AStarSort.loop]
  | cons x xs ih =>
    unfold AStarSort.loop
    by_cases hx : f < x.getFunctionF
    · right
      simp only [hx, if_true, true_and]
      exact ⟨[], x :: xs, rfl, rfl⟩
    · simp only [hx, if_false]
      rcases ih with ⟨h1, h2⟩ | ⟨h1, l1, l2, h2, h3⟩
      · left; exact ⟨h1, by rw [h2]⟩
      · right
        refine ⟨h1, x :: l1, l2, by rw [h2]; rfl, by rw [h3]; rfl⟩

/-- Whatever the strategy, `pushNode` puts one new node with the given
position, depth and parent somewhere into `openDeque` and changes nothing
else. -/
theorem Search.pushNode_eq {fl : Flags} (hfl : fl.Strategy) (s : Search) (r c d : Nat)
    (p : Option Coord) :
    ∃ f l1 l2, s.openDeque = l1 ++ l2 ∧
      Search.pushNode fl s r c d p = { s with openDeque := l1 ++ Coord.mk r c d f p :: l2 } := by
  rcases hfl.cases with ⟨h, _, _⟩ | ⟨h1, h2, _⟩ | ⟨h1, h2, h3⟩
  · exact ⟨0, s.openDeque, [], by simp, by simp [Search.pushNode, h]⟩
  · exact ⟨0, [], s.openDeque, by simp, by simp [Search.pushNode, h1, h2]⟩
  · simp only [Search.pushNode, h1, h2, h3, if_true, Bool.false_eq_true, if_false]
    unfold Search.AStarSort
    by_cases h0 : s.openDeque.length = 0
    · simp only [h0, if_true]
      exact ⟨d + (absDiff s.exitRow r + absDiff s.exitCol c), s.openDeque, [], by simp, by simp⟩
    · simp only [h0, if_false]
      rcases AStarSort.loop_split (d + (absDiff s.exitRow r + absDiff s.exitCol c))
        (Coord.mk r c d (d + (absDiff s.exitRow r + absDiff s.exitCol c)) p) s.openDeque with
        ⟨h4, h5⟩ | ⟨h4, l1, l2, h5, h6⟩
      · refine ⟨d + (absDiff s.exitRow r + absDiff s.exitCol c), s.openDeque, [], by simp, ?_⟩
        simp [h4, h5]
      · refine ⟨d + (absDiff s.exitRow r + absDiff s.exitCol c), l1, l2, h5, ?_⟩
        simp [h4, h6]
/-! ## The invariant `Core` -/

theorem OPEN_ne_CLOSED : OPEN ≠ CLOSED := by decide

/-- The two ways `tryCell` can go. -/
theorem Search.tryCell_cases {fl : Flags} (hfl : fl.Strategy) (s : Search) (r c d : Nat)
    (p : Option Coord) :
    (¬ (s.mazeRoute.get r c ≠ BLOCK ∧ s.mazeRoute.get r c ≠ CLOSED ∧ s.mazeRoute.get r c ≠ OPEN) ∧
      s.tryCell fl r c d p = s) ∨
    ((s.mazeRoute.get r c ≠ BLOCK ∧ s.mazeRoute.get r c ≠ CLOSED ∧ s.mazeRoute.get r c ≠ OPEN) ∧
      ∃ f l1 l2, s.openDeque = l1 ++ l2 ∧
        s.tryCell fl r c d p =
          { s with mazeRoute := s.mazeRoute.set r c OPEN,
                   openDeque := l1 ++ Coord.mk r c d f p :: l2 }) := by
  by_cases h : s.mazeRoute.get r c ≠ BLOCK ∧ s.mazeRoute.get r c ≠ CLOSED ∧ s.mazeRoute.get r c ≠ OPEN
  · right
    refine ⟨h, ?_⟩
    obtain ⟨f, l1, l2, h1, h2⟩ :=
      Search.pushNode_eq hfl { s with mazeRoute := s.mazeRoute.set r c OPEN } r c d p
    refine ⟨f, l1, l2, h1, ?_⟩
    unfold Search.tryCell
    rw [if_pos h, h2]
  · left
    refine ⟨h, ?_⟩
    unfold Search.tryCell
    rw [if_neg h]

theorem Search.mem_nodes {s : Search} {n : Coord} :
    n ∈ s.nodes ↔ n ∈ s.closedDeque ∨ n ∈ s.openDeque := by
  simp [Search.nodes]

/-- A position whose mark is neither `OPEN` nor `CLOSED` has no node. -/
theorem Core.not_mem_pos {s : Search} (hc : Core s) {r c : Nat}
    (h1 : s.mazeRoute.get r c ≠ CLOSED) (h2 : s.mazeRoute.get r c ≠ OPEN) :
    ∀ n ∈ s.nodes, n.pos ≠ (r, c) := by
  intro n hn hp
  have hr : n.getRow = r := congrArg Prod.fst hp
  have hcc : n.getCol = c := congrArg Prod.snd hp
  rcases Search.mem_nodes.1 hn with h | h
  · have := hc.closedMark n h
    rw [hr, hcc] at this
    exact h1 this
  · have := hc.openMark n h
    rw [hr, hcc] at this
    exact h2 this

/-- Invariant `Core` is kept when a node for an unmarked cell of the board is inserted
anywhere into `openDeque` and the cell is marked `OPEN`. -/
theorem Core.insert {s : Search} (hc : Core s) {l1 l2 : List Coord}
    (hl : s.openDeque = l1 ++ l2) {r c : Nat} (hr : r < BOARDSIZE) (hcb : c < BOARDSIZE)
    (h1 : s.mazeRoute.get r c ≠ CLOSED) (h2 : s.mazeRoute.get r c ≠ OPEN)
    (d f : Nat) (p : Option Coord) :
    Core { s with mazeRoute := s.mazeRoute.set r c OPEN,
                  openDeque := l1 ++ Coord.mk r c d f p :: l2 } := by
  have hnew := hc.not_mem_pos h1 h2
  have hmem : ∀ n, n ∈ l1 ++ Coord.mk r c d f p :: l2 ↔ n = Coord.mk r c d f p ∨ n ∈ s.openDeque := by
    intro n
    rw [hl]
    simp only [List.mem_append, List.mem_cons]
    tauto
  constructor
  · intro n hn
    rcases Search.mem_nodes.1 hn with h | h
    · exact hc.inb n (Search.mem_nodes.2 (Or.inl h))
    · rcases (hmem n).1 h with h | h
      · subst h; exact ⟨hr, hcb⟩
      · exact hc.inb n (Search.mem_nodes.2 (Or.inr h))
  · have hperm : (s.closedDeque ++ (l1 ++ Coord.mk r c d f p :: l2)).Perm
        (Coord.mk r c d f p :: s.nodes) := by
      unfold Search.nodes
      rw [hl, ← List.append_assoc, ← List.append_assoc]
      exact List.perm_middle
    have h3 := (hperm.map Coord.pos).nodup_iff
    show ((s.closedDeque ++ (l1 ++ Coord.mk r c d f p :: l2)).map Coord.pos).Nodup
    rw [h3, List.map_cons, List.nodup_cons]
    refine ⟨?_, hc.nodup⟩
    intro hm
    obtain ⟨n, hn, hp⟩ := List.mem_map.1 hm
    exact hnew n hn hp
  · intro n hn
    rcases (hmem n).1 hn with h | h
    · subst h
      exact Grid.get_set_same _ _ hr hcb
    · have hp := hnew n (Search.mem_nodes.2 (Or.inr h))
      show (s.mazeRoute.set r c OPEN).get n.getRow n.getCol = OPEN
      rw [Grid.get_set_ne _ _ hp]
      exact hc.openMark n h
  · intro n hn
    have hp := hnew n (Search.mem_nodes.2 (Or.inl hn))
    show (s.mazeRoute.set r c OPEN).get n.getRow n.getCol = CLOSED
    rw [Grid.get_set_ne _ _ hp]
    exact hc.closedMark n hn
  · exact hc.costEq

theorem Core.tryCell_core {fl : Flags} (hfl : fl.Strategy) {s : Search} (hc : Core s) {r c : Nat}
    (hr : r < BOARDSIZE) (hcb : c < BOARDSIZE) (d : Nat) (p : Option Coord) :
    Core (s.tryCell fl r c d p) := by
  rcases Search.tryCell_cases hfl s r c d p with ⟨_, h⟩ | ⟨⟨_, h1, h2⟩, f, l1, l2, hl, h⟩
  · rw [h]; exact hc
  · rw [h]; exact hc.insert hl hr hcb h1 h2 d f p

theorem Core.pop_core {s : Search} (hc : Core s) {front : Coord} {rest : List Coord}
    (ho : s.openDeque = front :: rest) : Core (s.pop front rest) := by
  have hfin := hc.inb front (Search.mem_nodes.2 (Or.inr (by rw [ho]; simp)))
  have hnd : ((s.closedDeque ++ front :: rest).map Coord.pos).Nodup := by
    have := hc.nodup
    unfold Search.nodes at this
    rwa [ho] at this
  constructor
  · intro n hn
    apply hc.inb n
    unfold Search.nodes Search.pop at hn
    unfold Search.nodes
    rw [ho]
    simpa using hn
  · show (((s.closedDeque ++ [front]) ++ rest).map Coord.pos).Nodup
    simpa using hnd
  · intro n hn
    have hn2 : n ∈ rest := hn
    have hne : n.pos ≠ front.pos := by
      intro he
      rw [List.map_append, List.map_cons, List.nodup_append] at hnd
      have h4 := (List.nodup_cons.1 hnd.2.1).1
      apply h4
      rw [← he]
      exact List.mem_map_of_mem _ hn2
    show (s.mazeRoute.set front.getRow front.getCol CLOSED).get n.getRow n.getCol = OPEN
    rw [Grid.get_set_ne _ _ hne]
    exact hc.openMark n (by rw [ho]; exact List.mem_cons_of_mem _ hn2)
  · intro n hn
    have hn2 : n ∈ s.closedDeque ++ [front] := hn
    show (s.mazeRoute.set front.getRow front.getCol CLOSED).get n.getRow n.getCol = CLOSED
    by_cases he : n.pos = front.pos
    · have hr : n.getRow = front.getRow := congrArg Prod.fst he
      have hcc : n.getCol = front.getCol := congrArg Prod.snd he
      rw [hr, hcc]
      exact Grid.get_set_same _ _ hfin.1 hfin.2
    · rw [Grid.get_set_ne _ _ he]
      rcases List.mem_append.1 hn2 with h | h
      · exact hc.closedMark n h
      · exact absurd (by rw [List.mem_singleton.1 h]) he
  · show s.cost + 1 = (s.closedDeque ++ [front]).length
    rw [hc.costEq]; simp

/-- Induction principle for `SearchImplementation`: a property `P` of the state
that every `tryCell` on a neighbouring cell of the board keeps, and a property
`Q q` of the state that `tryCell` on `q` establishes and the other steps keep,
give `P` for the result and `Q q` for every neighbour `q` on the board. -/
theorem Search.SearchImplementation_ind (fl : Flags) (P : Search → Prop)
    (Q : Nat × Nat → Search → Prop) (s : Search) (row col : Nat)
    (h0 : P s)
    (htry : ∀ t r c, P t → Adjacent (row, col) (r, c) → r < BOARDSIZE → c < BOARDSIZE →
      P (t.tryCell fl r c (s.backDepth + 1) s.closedDeque.getLast?) ∧
      Q (r, c) (t.tryCell fl r c (s.backDepth + 1) s.closedDeque.getLast?))
    (hmono : ∀ t r c q, P t → Q q t →
      Q q (t.tryCell fl r c (s.backDepth + 1) s.closedDeque.getLast?))
    (hmax : ∀ t m, P t → P { t with maxOpenQSize := m } ∧
      ∀ q, Q q t → Q q { t with maxOpenQSize := m })
    (hrow : row < BOARDSIZE) (hcol : col < BOARDSIZE) :
    P (Search.SearchImplementation fl s row col) ∧
    ∀ q, Adjacent (row, col) q → q.1 < BOARDSIZE → q.2 < BOARDSIZE →
      Q q (Search.SearchImplementation fl s row col) := by
  -- the four intermediate states
  obtain ⟨s1, hs1⟩ : ∃ s1, s1 = (if (col : Int) - 1 > -1 then
      s.tryCell fl row (col - 1) (s.backDepth + 1) s.closedDeque.getLast? else s) := ⟨_, rfl⟩
  obtain ⟨s2, hs2⟩ : ∃ s2, s2 = (if (row : Int) - 1 > -1 then
      s1.tryCell fl (row - 1) col (s.backDepth + 1) s.closedDeque.getLast? else s1) := ⟨_, rfl⟩
  obtain ⟨s3, hs3⟩ : ∃ s3, s3 = (if col + 1 < BOARDSIZE then
      s2.tryCell fl row (col + 1) (s.backDepth + 1) s.closedDeque.getLast? else s2) := ⟨_, rfl⟩
  obtain ⟨s4, hs4⟩ : ∃ s4, s4 = (if row + 1 < BOARDSIZE then
      s3.tryCell fl (row + 1) col (s.backDepth + 1) s.closedDeque.getLast? else s3) := ⟨_, rfl⟩
  have hres : Search.SearchImplementation fl s row col =
      { s4 with maxOpenQSize :=
          if s4.openDeque.length > s4.maxOpenQSize then s4.openDeque.length
          else s4.maxOpenQSize } := by
    rw [hs4, hs3, hs2, hs1]; rfl
  have gl : (col : Int) - 1 > -1 ↔ 1 ≤ col := by omega
  have gu : (row : Int) - 1 > -1 ↔ 1 ≤ row := by omega
  -- left
  have p1 : P s1 ∧ (1 ≤ col → Q (row, col - 1) s1) := by
    by_cases g : (col : Int) - 1 > -1
    · rw [hs1, if_pos g]
      have hc1 := gl.1 g
      have := htry s row (col - 1) h0 (Or.inl ⟨rfl, Or.inr (by simp; omega)⟩) hrow (by omega)
      exact ⟨this.1, fun _ => this.2⟩
    · rw [hs1, if_neg g]
      exact ⟨h0, fun h => absurd (gl.2 h) g⟩
  -- above
  have p2 : P s2 ∧ (1 ≤ col → Q (row, col - 1) s2) ∧ (1 ≤ row → Q (row - 1, col) s2) := by
    by_cases g : (row : Int) - 1 > -1
    · rw [hs2, if_pos g]
      have hc1 := gu.1 g
      have := htry s1 (row - 1) col p1.1 (Or.inr ⟨rfl, Or.inr (by simp; omega)⟩) (by omega) hcol
      exact ⟨this.1, fun h => hmono _ _ _ _ p1.1 (p1.2 h), fun _ => this.2⟩
    · rw [hs2, if_neg g]
      exact ⟨p1.1, p1.2, fun h => absurd (gu.2 h) g⟩
  -- right
  have p3 : P s3 ∧ (1 ≤ col → Q (row, col - 1) s3) ∧ (1 ≤ row → Q (row - 1, col) s3) ∧
      (col + 1 < BOARDSIZE → Q (row, col + 1) s3) := by
    by_cases g : col + 1 < BOARDSIZE
    · rw [hs3, if_pos g]
      have := htry s2 row (col + 1) p2.1 (Or.inl ⟨rfl, Or.inl rfl⟩) hrow g
      exact ⟨this.1, fun h => hmono _ _ _ _ p2.1 (p2.2.1 h),
        fun h => hmono _ _ _ _ p2.1 (p2.2.2 h), fun _ => this.2⟩
    · rw [hs3, if_neg g]
      exact ⟨p2.1, p2.2.1, p2.2.2, fun h => absurd h g⟩
  -- below
  have p4 : P s4 ∧ (1 ≤ col → Q (row, col - 1) s4) ∧ (1 ≤ row → Q (row - 1, col) s4) ∧
      (col + 1 < BOARDSIZE → Q (row, col + 1) s4) ∧
      (row + 1 < BOARDSIZE → Q (row + 1, col) s4) := by
    by_cases g : row + 1 < BOARDSIZE
    · rw [hs4, if_pos g]
      have := htry s3 (row + 1) col p3.1 (Or.inr ⟨rfl, Or.inl rfl⟩) g hcol
      exact ⟨this.1, fun h => hmono _ _ _ _ p3.1 (p3.2.1 h),
        fun h => hmono _ _ _ _ p3.1 (p3.2.2.1 h),
        fun h => hmono _ _ _ _ p3.1 (p3.2.2.2 h), fun _ => this.2⟩
    · rw [hs4, if_neg g]
      exact ⟨p3.1, p3.2.1, p3.2.2.1, p3.2.2.2, fun h => absurd h g⟩
  rw [hres]
  refine ⟨(hmax s4 _ p4.1).1, ?_⟩
  rintro ⟨qr, qc⟩ hadj hqr hqc
  apply (hmax s4 _ p4.1).2
  simp only [Adjacent] at hadj
  simp only at hqr hqc
  rcases hadj with ⟨h1, h2 | h2⟩ | ⟨h1, h2 | h2⟩
  · subst h1; subst h2; exact p4.2.2.2.1 hqc
  · subst h1
    have : qc = col - 1 := by omega
    subst this
    exact p4.2.1 (by omega)
  · subst h1; subst h2; exact p4.2.2.2.2 hqr
  · subst h1
    have : qr = row - 1 := by omega
    subst this
    exact p4.2.2.1 (by omega)

theorem Core.searchImplementation_core {fl : Flags} (hfl : fl.Strategy) {s : Search} (hc : Core s)
    {row col : Nat} (hrow : row < BOARDSIZE) (hcol : col < BOARDSIZE) :
    Core (Search.SearchImplementation fl s row col) := by
  refine (Search.SearchImplementation_ind fl Core (fun _ _ => True) s row col hc ?_ ?_ ?_
    hrow hcol).1
  · intro t r c ht _ hr hcb
    exact ⟨ht.tryCell_core hfl hr hcb _ _, trivial⟩
  · intros; trivial
  · intro t m ht
    exact ⟨⟨ht.inb, ht.nodup, ht.openMark, ht.closedMark, ht.costEq⟩, fun _ _ => trivial⟩

theorem Core.loopBody_core {fl : Flags} (hfl : fl.Strategy) (exit : Int) {s : Search} (hc : Core s)
    {front : Coord} {rest : List Coord} (ho : s.openDeque = front :: rest) :
    Core (Search.loopBody fl exit s front rest).1 := by
  have hfin := hc.inb front (Search.mem_nodes.2 (Or.inr (by rw [ho]; simp)))
  unfold Search.loopBody
  simp only
  split
  · exact hc.pop_core ho
  · exact (hc.pop_core ho).searchImplementation_core hfl hfin.1 hfin.2

theorem BOARDSIZE_pos : 0 < BOARDSIZE := by decide

/-- Function `selectExit` only changes the four coordinate members. -/
theorem Search.selectExit_frame (exit : Int) (s : Search) :
    (s.selectExit exit).mazeMap = s.mazeMap ∧ (s.selectExit exit).mazeRoute = s.mazeRoute ∧
    (s.selectExit exit).openDeque = s.openDeque ∧
    (s.selectExit exit).closedDeque = s.closedDeque ∧
    (s.selectExit exit).cost = s.cost ∧
    (s.selectExit exit).startE1E2Row = s.startE1E2Row ∧
    (s.selectExit exit).startE1E2Col = s.startE1E2Col ∧
    (s.selectExit exit).exitE1Row = s.exitE1Row ∧
    (s.selectExit exit).exitE1Col = s.exitE1Col ∧
    (s.selectExit exit).exitE2Row = s.exitE2Row ∧
    (s.selectExit exit).exitE2Col = s.exitE2Col := by
  unfold Search.selectExit
  split_ifs <;> simp

/-- The start position chosen for `E1`, `E2` and `CORNER`. -/
theorem Search.selectExit_start (exit : Int) (s : Search) :
    (exit = E1 ∨ exit = E2 → (s.selectExit exit).startRow = s.startE1E2Row ∧
      (s.selectExit exit).startCol = s.startE1E2Col) ∧
    (exit = CORNER → (s.selectExit exit).startRow = BOARDSIZE - 1 ∧
      (s.selectExit exit).startCol = 0) := by
  have e1c : E1 ≠ CORNER := by decide
  have e2c : E2 ≠ CORNER := by decide
  unfold Search.selectExit
  constructor
  · rintro (h | h) <;> subst h <;> simp [show E2 ≠ E1 by decide]
  · intro h; subst h
    rw [if_neg (Ne.symm e1c), if_neg (Ne.symm e2c)]
    simp

/-- The state at the first evaluation of the loop condition. -/
theorem Search.seed_eq {fl : Flags} (hfl : fl.Strategy) (exit : Int) (s : Search)
    (ho : s.openDeque = []) :
    ∃ f, Search.seed fl exit s =
      { s.selectExit exit with
          openDeque := [Coord.mk (s.selectExit exit).startRow (s.selectExit exit).startCol 0 f none],
          maxOpenQSize := 1,
          mazeRoute := s.mazeRoute.set (s.selectExit exit).startRow
            (s.selectExit exit).startCol OPEN } ∧
      (fl.AS = true → f = absDiff (s.selectExit exit).startRow (s.selectExit exit).exitRow +
        absDiff (s.selectExit exit).startCol (s.selectExit exit).exitCol) := by
  have hf := Search.selectExit_frame exit s
  have ho2 : (s.selectExit exit).openDeque = [] := by rw [hf.2.2.1, ho]
  rcases hfl.cases with ⟨h1, h2, h3⟩ | ⟨h1, h2, h3⟩ | ⟨h1, h2, h3⟩
  · refine ⟨0, ?_, fun h => absurd h (by simp [h3])⟩
    simp [Search.seed, h1, ho2, hf.2.1]
  · refine ⟨0, ?_, fun h => absurd h (by simp [h3])⟩
    simp [Search.seed, h1, h2, ho2, hf.2.1]
  · refine ⟨_, ?_, fun _ => rfl⟩
    simp [Search.seed, h1, h2, h3, ho2, hf.2.1]

theorem Core.seed_core {fl : Flags} (hfl : fl.Strategy) {exit : Int}
    (hexit : exit = E1 ∨ exit = E2 ∨ exit = CORNER) {s : Search} (hs : ResetState s) :
    Core (Search.seed fl exit s) := by
  obtain ⟨f, h, _⟩ := Search.seed_eq hfl exit s hs.openEmpty
  have hf := Search.selectExit_frame exit s
  have hst := Search.selectExit_start exit s
  have hin : (s.selectExit exit).startRow < BOARDSIZE ∧ (s.selectExit exit).startCol < BOARDSIZE := by
    rcases hexit with h1 | h1 | h1
    · rw [(hst.1 (Or.inl h1)).1, (hst.1 (Or.inl h1)).2]; exact ⟨hs.startRow_lt, hs.startCol_lt⟩
    · rw [(hst.1 (Or.inr h1)).1, (hst.1 (Or.inr h1)).2]; exact ⟨hs.startRow_lt, hs.startCol_lt⟩
    · rw [(hst.2 h1).1, (hst.2 h1).2]; decide
  rw [h]
  constructor
  · intro n hn
    have : n = Coord.mk (s.selectExit exit).startRow (s.selectExit exit).startCol 0 f none := by
      simpa [Search.nodes, hf.2.2.2.1, hs.closedEmpty] using hn
    subst this
    exact hin
  · simp [Search.nodes, hf.2.2.2.1, hs.closedEmpty]
  · intro n hn
    have : n = Coord.mk (s.selectExit exit).startRow (s.selectExit exit).startCol 0 f none := by
      simpa using hn
    subst this
    exact Grid.get_set_same _ _ hin.1 hin.2
  · intro n hn
    have : n ∈ (s.selectExit exit).closedDeque := hn
    rw [hf.2.2.2.1, hs.closedEmpty] at this
    exact absurd this (List.not_mem_nil _)
  · show (s.selectExit exit).cost = (s.selectExit exit).closedDeque.length
    rw [hf.2.2.2.1, hf.2.2.2.2.1, hs.closedEmpty, hs.cost0]; rfl

/-- Invariant `Core` holds in every state of a run from a reset state. -/
theorem Core.reached_core {fl : Flags} (hfl : fl.Strategy) {exit : Int}
    (hexit : exit = E1 ∨ exit = E2 ∨ exit = CORNER) {s0 : Search} (hs : ResetState s0)
    {s : Search} {w : Bool} (h : Search.Reached fl exit s0 s w) : Core s := by
  induction h with
  | seed => exact Core.seed_core hfl hexit hs
  | step _ ho ih => exact ih.loopBody_core hfl exit ho

/-! ## Frame facts -/

theorem Fixed.refl (s : Search) : Fixed s s := by constructor <;> rfl

theorem Fixed.trans {s t u : Search} (h1 : Fixed s t) (h2 : Fixed t u) : Fixed s u := by
  constructor
  · rw [h2.mazeMap, h1.mazeMap]
  · rw [h2.startRow, h1.startRow]
  · rw [h2.startCol, h1.startCol]
  · rw [h2.exitRow, h1.exitRow]
  · rw [h2.exitCol, h1.exitCol]
  · rw [h2.startE1E2Row, h1.startE1E2Row]
  · rw [h2.startE1E2Col, h1.startE1E2Col]
  · rw [h2.exitE1Row, h1.exitE1Row]
  · rw [h2.exitE1Col, h1.exitE1Col]
  · rw [h2.exitE2Row, h1.exitE2Row]
  · rw [h2.exitE2Col, h1.exitE2Col]

/-- Function `tryCell` writes `mazeRoute` and `openDeque` only. -/
theorem Search.tryCell_frame {fl : Flags} (hfl : fl.Strategy) (s : Search) (r c d : Nat)
    (p : Option Coord) :
    Fixed s (s.tryCell fl r c d p) ∧ (s.tryCell fl r c d p).closedDeque = s.closedDeque ∧
    (s.tryCell fl r c d p).cost = s.cost ∧
    (s.tryCell fl r c d p).maxOpenQSize = s.maxOpenQSize := by
  rcases Search.tryCell_cases hfl s r c d p with ⟨_, h⟩ | ⟨_, f, l1, l2, _, h⟩
  · rw [h]; exact ⟨Fixed.refl s, rfl, rfl, rfl⟩
  · rw [h]; exact ⟨by constructor <;> rfl, rfl, rfl, rfl⟩

/-- Function `SearchImplementation` writes `mazeRoute`, `openDeque` and `maxOpenQSize`
only. -/
theorem Search.searchImplementation_frame {fl : Flags} (hfl : fl.Strategy) (s : Search)
    {row col : Nat} (hrow : row < BOARDSIZE) (hcol : col < BOARDSIZE) :
    Fixed s (Search.SearchImplementation fl s row col) ∧
    (Search.SearchImplementation fl s row col).closedDeque = s.closedDeque ∧
    (Search.SearchImplementation fl s row col).cost = s.cost := by
  refine (Search.SearchImplementation_ind fl
    (fun t => Fixed s t ∧ t.closedDeque = s.closedDeque ∧ t.cost = s.cost)
    (fun _ _ => True) s row col ⟨Fixed.refl s, rfl, rfl⟩ ?_ ?_ ?_ hrow hcol).1
  · intro t r c ht _ _ _
    have h := Search.tryCell_frame hfl t r c (s.backDepth + 1) s.closedDeque.getLast?
    exact ⟨⟨ht.1.trans h.1, by rw [h.2.1, ht.2.1], by rw [h.2.2.1, ht.2.2]⟩, trivial⟩
  · intros; trivial
  · intro t m ht
    exact ⟨⟨ht.1.trans (by constructor <;> rfl), ht.2.1, ht.2.2⟩, fun _ _ => trivial⟩

theorem Search.pop_frame (s : Search) (front : Coord) (rest : List Coord) :
    Fixed s (s.pop front rest) := by constructor <;> rfl

/-- One pass through the loop body appends the popped node to `closedDeque`
and keeps the layout and the coordinates. -/
theorem Search.loopBody_frame {fl : Flags} (hfl : fl.Strategy) (exit : Int) (s : Search)
    (front : Coord) (rest : List Coord) (hrow : front.getRow < BOARDSIZE)
    (hcol : front.getCol < BOARDSIZE) :
    Fixed s (Search.loopBody fl exit s front rest).1 ∧
    (Search.loopBody fl exit s front rest).1.closedDeque = s.closedDeque ++ [front] ∧
    (Search.loopBody fl exit s front rest).1.cost = s.cost + 1 := by
  unfold Search.loopBody
  simp only
  split
  · exact ⟨Search.pop_frame s front rest, rfl, rfl⟩
  · have h := Search.searchImplementation_frame hfl (s.pop front rest) hrow hcol
    exact ⟨(Search.pop_frame s front rest).trans h.1, by rw [h.2.1]; rfl, by rw [h.2.2]; rfl⟩

/-- The flag returned by `loopBody` is the outcome of the goal test. -/
theorem Search.loopBody_win (fl : Flags) (exit : Int) (s : Search) (front : Coord)
    (rest : List Coord) :
    ((Search.loopBody fl exit s front rest).2 = true ↔
      s.mazeMap.get front.getRow front.getCol = exit) ∧
    ((Search.loopBody fl exit s front rest).2 = true →
      (Search.loopBody fl exit s front rest).1 = s.pop front rest) := by
  unfold Search.loopBody
  simp only
  split <;> simp_all

/-! ## Termination -/

/-- A list of distinct positions of the board has at most `BOARDSIZE * BOARDSIZE`
elements. -/
theorem length_le_of_nodup_board (l : List (Nat × Nat)) (hnd : l.Nodup)
    (hin : ∀ p ∈ l, p.1 < BOARDSIZE ∧ p.2 < BOARDSIZE) :
    l.length ≤ BOARDSIZE * BOARDSIZE := by
  have h1 : l.toFinset ⊆ Finset.range BOARDSIZE ×ˢ Finset.range BOARDSIZE := by
    intro p hp
    have := hin p (List.mem_toFinset.1 hp)
    simp [Finset.mem_product, this.1, this.2]
  have h2 := Finset.card_le_card h1
  rw [List.toFinset_card_of_nodup hnd, Finset.card_product, Finset.card_range] at h2
  exact h2

/-- Under `Core` the two deques together hold at most `BOARDSIZE * BOARDSIZE`
nodes. -/
theorem Core.length_le {s : Search} (hc : Core s) :
    s.closedDeque.length + s.openDeque.length ≤ BOARDSIZE * BOARDSIZE := by
  have h := length_le_of_nodup_board (s.nodes.map Coord.pos) hc.nodup (by
    intro p hp
    obtain ⟨n, hn, rfl⟩ := List.mem_map.1 hp
    exact hc.inb n hn)
  simpa [Search.nodes] using h

/-- The loop is left as soon as the fuel exceeds the number of cells that are
not yet in `closedDeque`. -/
theorem Search.whileLoop_total {fl : Flags} (hfl : fl.Strategy) (exit : Int) :
    ∀ (fuel : Nat) (s : Search), Core s →
      BOARDSIZE * BOARDSIZE < s.closedDeque.length + fuel →
      ∃ r, Search.whileLoop fl exit fuel s = some r := by
  intro fuel
  induction fuel with
  | zero =>
    intro s hc hlt
    have := hc.length_le
    omega
  | succ k ih =>
    intro s hc hlt
    unfold Search.whileLoop
    cases ho : s.openDeque with
    | nil => exact ⟨_, rfl⟩
    | cons front rest =>
      simp only
      by_cases hw : (Search.loopBody fl exit s front rest).2 = true
      · rw [if_pos hw]; exact ⟨_, rfl⟩
      · rw [if_neg hw]
        have hfin := hc.inb front (Search.mem_nodes.2 (Or.inr (by rw [ho]; simp)))
        have hfr := Search.loopBody_frame hfl exit s front rest hfin.1 hfin.2
        apply ih _ (hc.loopBody_core hfl exit ho)
        rw [hfr.2.1, List.length_append]
        simp only [List.length_singleton]
        omega

/-- The state in which the loop is left is a state of the run; the loop is
left either with an empty `openDeque` and `win = false`, or through the goal
test on the front node of a state of the run. -/
theorem Search.whileLoop_reached {fl : Flags} {exit : Int} {s0 : Search} :
    ∀ (fuel : Nat) (s : Search) (r : Search × Bool),
      Search.Reached fl exit s0 s false → Search.whileLoop fl exit fuel s = some r →
      Search.Reached fl exit s0 r.1 r.2 ∧
      ((r.2 = false ∧ r.1.openDeque = []) ∨
       (r.2 = true ∧ ∃ sp front rest, Search.Reached fl exit s0 sp false ∧
          sp.openDeque = front :: rest ∧ sp.mazeMap.get front.getRow front.getCol = exit ∧
          r.1 = sp.pop front rest)) := by
  intro fuel
  induction fuel with
  | zero => intro s r _ h; simp [Search.whileLoop] at h
  | succ k ih =>
    intro s r hr h
    unfold Search.whileLoop at h
    cases ho : s.openDeque with
    | nil =>
      rw [ho] at h
      simp only [Option.some.injEq] at h
      subst h
      exact ⟨hr, Or.inl ⟨rfl, ho⟩⟩
    | cons front rest =>
      rw [ho] at h
      simp only at h
      have hstep := Search.Reached.step hr ho
      by_cases hw : (Search.loopBody fl exit s front rest).2 = true
      · rw [if_pos hw] at h
        simp only [Option.some.injEq] at h
        subst h
        refine ⟨hstep, Or.inr ⟨hw, s, front, rest, hr, ho, ?_, ?_⟩⟩
        · exact (Search.loopBody_win fl exit s front rest).1.1 hw
        · exact (Search.loopBody_win fl exit s front rest).2 hw
      · rw [if_neg hw] at h
        have hw2 : (Search.loopBody fl exit s front rest).2 = false := by simpa using hw
        rw [hw2] at hstep
        exact ih _ r hstep h

/-! ## The invariants `Track` and `Inv` -/

theorem LayoutOK.get_ne {M : Grid} (hl : LayoutOK M) (r c : Nat) :
    M.get r c ≠ OPEN ∧ M.get r c ≠ CLOSED := by
  unfold Grid.get
  split
  · split
    · rcases hl ⟨r, by assumption⟩ ⟨c, by assumption⟩ with h | h | h | h | h <;> rw [h] <;> decide
    · decide
  · decide

theorem Search.tryCell_nodes_mono {fl : Flags} (hfl : fl.Strategy) (s : Search) (r c d : Nat)
    (p : Option Coord) {n : Coord} (hn : n ∈ s.nodes) : n ∈ (s.tryCell fl r c d p).nodes := by
  rcases Search.tryCell_cases hfl s r c d p with ⟨_, h⟩ | ⟨_, f, l1, l2, hl, h⟩
  · rw [h]; exact hn
  · rw [h]
    rcases Search.mem_nodes.1 hn with h1 | h1
    · exact Search.mem_nodes.2 (Or.inl h1)
    · apply Search.mem_nodes.2
      right
      show n ∈ l1 ++ Coord.mk r c d f p :: l2
      rw [hl] at h1
      simp only [List.mem_append, List.mem_cons] at h1 ⊢
      tauto

/-- Function `tryCell` on a neighbour of the node `back` of `closedDeque` keeps `Track`,
and afterwards the neighbour has a node unless it is a `BLOCK` cell. -/
theorem Track.tryCell_track {fl : Flags} (hfl : fl.Strategy) {M : Grid} (hl : LayoutOK M)
    {start : Nat × Nat} {s : Search} (hc : Core s) (ht : Track M start s) {back : Coord}
    (hb : back ∈ s.closedDeque) {r c : Nat} (hadj : Adjacent back.pos (r, c))
    (hr : r < BOARDSIZE) (hcb : c < BOARDSIZE) :
    Track M start (s.tryCell fl r c (back.getDepth + 1) (some back)) ∧
    (M.get r c ≠ BLOCK →
      ∃ m ∈ (s.tryCell fl r c (back.getDepth + 1) (some back)).nodes, m.pos = (r, c)) := by
  rcases Search.tryCell_cases hfl s r c (back.getDepth + 1) (some back) with
    ⟨hne, h⟩ | ⟨⟨e1, e2, e3⟩, f, l1, l2, hl2, h⟩
  · rw [h]
    refine ⟨ht, fun hM => ?_⟩
    by_contra hcon
    have hno : ∀ n ∈ s.nodes, n.pos ≠ (r, c) := fun n hn hp => hcon ⟨n, hn, hp⟩
    have hfr := ht.fresh r c hr hcb hno
    rw [hfr] at hne
    exact hne ⟨hM, (hl.get_ne r c).2, (hl.get_ne r c).1⟩
  · have hno := hc.not_mem_pos e2 e3
    have hfr := ht.fresh r c hr hcb hno
    have hmem : ∀ n, n ∈ s.closedDeque ++
        (l1 ++ Coord.mk r c (back.getDepth + 1) f (some back) :: l2) ↔
        n = Coord.mk r c (back.getDepth + 1) f (some back) ∨ n ∈ s.nodes := by
      intro n
      simp only [Search.nodes, hl2, List.mem_append, List.mem_cons]
      tauto
    rw [h]
    refine ⟨⟨ht.map, ?_, ?_, ?_⟩, fun _ => ⟨_, (hmem _).2 (Or.inl rfl), rfl⟩⟩
    · intro r2 c2 hr2 hc2 hn2
      have hne : (r2, c2) ≠ (r, c) := by
        intro he
        exact hn2 _ ((hmem _).2 (Or.inl rfl)) he.symm
      show (s.mazeRoute.set r c OPEN).get r2 c2 = M.get r2 c2
      rw [Grid.get_set_ne _ _ hne]
      exact ht.fresh r2 c2 hr2 hc2 (fun n hn => hn2 n ((hmem n).2 (Or.inr hn)))
    · intro n hn
      rcases (hmem n).1 hn with h1 | h1
      · subst h1
        refine ⟨ht.chain back (Search.mem_nodes.2 (Or.inl hb)), hadj, hr, hcb, ?_, rfl⟩
        rw [← hfr]; exact e1
      · exact ht.chain n h1
    · obtain ⟨n, hn, hp⟩ := ht.startIn
      exact ⟨n, (hmem n).2 (Or.inr hn), hp⟩

theorem Search.pop_nodes {s : Search} {front : Coord} {rest : List Coord}
    (ho : s.openDeque = front :: rest) (n : Coord) :
    n ∈ (s.pop front rest).nodes ↔ n ∈ s.nodes := by
  simp only [Search.nodes, Search.pop, ho, List.mem_append, List.mem_cons, List.mem_singleton]
  tauto

theorem Track.pop_track {M : Grid} {start : Nat × Nat} {s : Search} (ht : Track M start s)
    {front : Coord} {rest : List Coord} (ho : s.openDeque = front :: rest) :
    Track M start (s.pop front rest) := by
  refine ⟨ht.map, ?_, ?_, ?_⟩
  · intro r c hr hcb hn
    have hne : (r, c) ≠ (front.getRow, front.getCol) := by
      intro he
      exact hn front ((Search.pop_nodes ho front).2
        (Search.mem_nodes.2 (Or.inr (by rw [ho]; simp)))) he.symm
    show (s.mazeRoute.set front.getRow front.getCol CLOSED).get r c = M.get r c
    rw [Grid.get_set_ne _ _ hne]
    exact ht.fresh r c hr hcb (fun n h => hn n ((Search.pop_nodes ho n).2 h))
  · intro n hn
    exact ht.chain n ((Search.pop_nodes ho n).1 hn)
  · obtain ⟨n, hn, hp⟩ := ht.startIn
    exact ⟨n, (Search.pop_nodes ho n).2 hn, hp⟩

theorem Search.backDepth_append (s : Search) (front : Coord) (rest : List Coord) :
    (s.pop front rest).backDepth = front.getDepth ∧
    (s.pop front rest).closedDeque.getLast? = some front := by
  simp [Search.backDepth, Search.pop]

/-- One pass through the loop body that does not find the goal keeps `Inv`. -/
theorem Inv.loopBody_inv {fl : Flags} (hfl : fl.Strategy) {M : Grid} (hl : LayoutOK M)
    {start : Nat × Nat} {exit : Int} {s : Search} (hi : Inv M start exit s)
    {front : Coord} {rest : List Coord} (ho : s.openDeque = front :: rest)
    (hw : (Search.loopBody fl exit s front rest).2 = false) :
    Inv M start exit (Search.loopBody fl exit s front rest).1 := by
  have hfin := hi.core.inb front (Search.mem_nodes.2 (Or.inr (by rw [ho]; simp)))
  have hcore := hi.core.loopBody_core hfl exit ho
  have hng : ¬ s.mazeMap.get front.getRow front.getCol = exit := by
    intro h
    have := (Search.loopBody_win fl exit s front rest).1.2 h
    rw [hw] at this
    exact absurd this (by decide)
  have hfr := Search.loopBody_frame hfl exit s front rest hfin.1 hfin.2
  have hbody : (Search.loopBody fl exit s front rest).1 =
      Search.SearchImplementation fl (s.pop front rest) front.getRow front.getCol := by
    unfold Search.loopBody
    simp only
    rw [if_neg hng]
  have hback := Search.backDepth_append s front rest
  have hind := Search.SearchImplementation_ind fl
    (fun t => Core t ∧ Track M start t ∧ t.closedDeque = s.closedDeque ++ [front] ∧
      ∀ n ∈ (s.pop front rest).nodes, n ∈ t.nodes)
    (fun q t => M.get q.1 q.2 ≠ BLOCK → ∃ m ∈ t.nodes, m.pos = q)
    (s.pop front rest) front.getRow front.getCol
    ⟨hi.core.pop_core ho, hi.track.pop_track ho, rfl, fun _ h => h⟩ ?_ ?_ ?_ hfin.1 hfin.2
  · rw [← hbody] at hind
    obtain ⟨⟨_, htr, hcl, hmono⟩, hq⟩ := hind
    refine ⟨hcore, htr, ?_, ?_⟩
    · intro n hn
      rw [hcl] at hn
      rcases List.mem_append.1 hn with h | h
      · exact hi.noGoal n h
      · rw [List.mem_singleton.1 h, ← hi.track.map]; exact hng
    · intro n hn q hadj hq1 hq2 hqM
      rw [hcl] at hn
      rcases List.mem_append.1 hn with h | h
      · obtain ⟨m, hm, hp⟩ := hi.expanded n h q hadj hq1 hq2 hqM
        exact ⟨m, hmono m ((Search.pop_nodes ho m).2 hm), hp⟩
      · rw [List.mem_singleton.1 h] at hadj
        exact hq q hadj hq1 hq2 hqM
  · intro t r c ⟨htc, htt, hcl, hmono⟩ hadj hr hcb
    rw [hback.1, hback.2]
    have hb : front ∈ t.closedDeque := by rw [hcl]; simp
    have h := Track.tryCell_track hfl hl htc htt hb hadj hr hcb
    exact ⟨⟨htc.tryCell_core hfl hr hcb _ _, h.1,
      by rw [(Search.tryCell_frame hfl t r c _ _).2.1, hcl],
      fun n hn => Search.tryCell_nodes_mono hfl t r c _ _ (hmono n hn)⟩, h.2⟩
  · intro t r c q _ hq hM
    obtain ⟨m, hm, hp⟩ := hq hM
    exact ⟨m, Search.tryCell_nodes_mono hfl t r c _ _ hm, hp⟩
  · intro t m ⟨htc, htt, hcl, hmono⟩
    exact ⟨⟨⟨htc.inb, htc.nodup, htc.openMark, htc.closedMark, htc.costEq⟩,
      ⟨htt.map, htt.fresh, htt.chain, htt.startIn⟩, hcl, hmono⟩, fun _ h => h⟩

/-- The start position of a run on `s` for the requested exit. -/
theorem Search.seed_start (fl : Flags) (exit : Int) (s : Search) :
    (Search.seed fl exit s).startRow = (s.selectExit exit).startRow ∧
    (Search.seed fl exit s).startCol = (s.selectExit exit).startCol := by
  unfold Search.seed
  simp only
  split_ifs <;> exact ⟨rfl, rfl⟩

theorem Search.start_lt {exit : Int} (hexit : exit = E1 ∨ exit = E2 ∨ exit = CORNER)
    {s : Search} (hs : ResetState s) :
    (s.selectExit exit).startRow < BOARDSIZE ∧ (s.selectExit exit).startCol < BOARDSIZE := by
  have hst := Search.selectExit_start exit s
  rcases hexit with h1 | h1 | h1
  · rw [(hst.1 (Or.inl h1)).1, (hst.1 (Or.inl h1)).2]; exact ⟨hs.startRow_lt, hs.startCol_lt⟩
  · rw [(hst.1 (Or.inr h1)).1, (hst.1 (Or.inr h1)).2]; exact ⟨hs.startRow_lt, hs.startCol_lt⟩
  · rw [(hst.2 h1).1, (hst.2 h1).2]; decide

theorem Inv.seed_inv {fl : Flags} (hfl : fl.Strategy) {exit : Int}
    (hexit : exit = E1 ∨ exit = E2 ∨ exit = CORNER) {s : Search} (hs : ResetState s) :
    Inv s.mazeMap ((s.selectExit exit).startRow, (s.selectExit exit).startCol) exit
      (Search.seed fl exit s) := by
  have hcore := Core.seed_core hfl hexit hs
  obtain ⟨f, h, _⟩ := Search.seed_eq hfl exit s hs.openEmpty
  have hf := Search.selectExit_frame exit s
  have hnodes : (Search.seed fl exit s).nodes =
      [Coord.mk (s.selectExit exit).startRow (s.selectExit exit).startCol 0 f none] := by
    rw [h]; simp [Search.nodes, hf.2.2.2.1, hs.closedEmpty]
  have hclosed : (Search.seed fl exit s).closedDeque = [] := by
    rw [h]; show (s.selectExit exit).closedDeque = []; rw [hf.2.2.2.1, hs.closedEmpty]
  refine ⟨hcore, ⟨?_, ?_, ?_, ?_⟩, ?_, ?_⟩
  · rw [h]; exact hf.1
  · intro r c hr hcb hn
    rw [hnodes] at hn
    have hne : (r, c) ≠ ((s.selectExit exit).startRow, (s.selectExit exit).startCol) := by
      intro he
      exact hn _ (List.mem_singleton.2 rfl) he.symm
    rw [h]
    show (s.mazeRoute.set _ _ OPEN).get r c = s.mazeMap.get r c
    rw [Grid.get_set_ne _ _ hne, hs.route]
  · intro n hn
    rw [hnodes] at hn
    rw [List.mem_singleton.1 hn]
    exact ⟨rfl, rfl⟩
  · rw [hnodes]
    exact ⟨_, List.mem_singleton.2 rfl, rfl, rfl⟩
  · intro n hn; rw [hclosed] at hn; exact absurd hn (List.not_mem_nil _)
  · intro n hn; rw [hclosed] at hn; exact absurd hn (List.not_mem_nil _)

/-- Invariant `Inv` holds whenever the loop condition is evaluated in a run from a
reset state on a layout of `FREE`, `START`, `BLOCK`, `E1`, `E2` cells. -/
theorem Inv.reached_inv {fl : Flags} (hfl : fl.Strategy) {exit : Int}
    (hexit : exit = E1 ∨ exit = E2 ∨ exit = CORNER) {s0 : Search} (hs : ResetState s0)
    (hl : LayoutOK s0.mazeMap) {s : Search} {w : Bool}
    (h : Search.Reached fl exit s0 s w) : w = false →
    Inv s0.mazeMap ((s0.selectExit exit).startRow, (s0.selectExit exit).startCol) exit s := by
  induction h with
  | seed => intro _; exact Inv.seed_inv hfl hexit hs
  | step _ ho ih => intro hw; exact (ih rfl).loopBody_inv hfl hl ho hw

/-- After the first pass through the loop body `closedDeque` is not empty. -/
theorem Search.Reached.closed_ne_nil {fl : Flags} (hfl : fl.Strategy) {exit : Int}
    (hexit : exit = E1 ∨ exit = E2 ∨ exit = CORNER) {s0 : Search} (hs : ResetState s0)
    {s : Search} {w : Bool} (h : Search.Reached fl exit s0 s w) :
    s.closedDeque ≠ [] ∨ (w = false ∧ s.openDeque ≠ []) := by
  cases h with
  | seed =>
    right
    obtain ⟨f, h, _⟩ := Search.seed_eq hfl exit s0 hs.openEmpty
    rw [h]
    exact ⟨rfl, List.cons_ne_nil _ _⟩
  | step hr ho =>
    left
    rename_i sp front rest
    have hc := Core.reached_core hfl hexit hs hr
    have hfin := hc.inb front (Search.mem_nodes.2 (Or.inr (by rw [ho]; simp)))
    rw [(Search.loopBody_frame hfl exit sp front rest hfin.1 hfin.2).2.1]
    simp

theorem Search.Print_eq (s : Search) {last : Coord} (h : s.closedDeque.getLast? = some last) :
    s.Print = some { path := Coord.climb last []
                     pathCost := (Coord.climb last []).length
                     totalCost := (s.cost : Int) - 1
                     maxOpenQSize := s.maxOpenQSize
                     finalOpen := s.openDeque.length
                     finalClosed := s.closedDeque.length
                     totalExplored := s.openDeque.length + s.closedDeque.length } := by
  unfold Search.Print
  rw [h]

/-- A run from a reset state ends, in a state of the run, and `Print` reports
on the last node of `closedDeque`. -/
theorem Search.SearchTemplate_some {fl : Flags} (hfl : fl.Strategy) {exit : Int}
    (hexit : exit = E1 ∨ exit = E2 ∨ exit = CORNER) {s : Search} (hs : ResetState s)
    {fuel : Nat} (hfuel : BOARDSIZE * BOARDSIZE < fuel) :
    ∃ o last, Search.SearchTemplate fl exit fuel s = some o ∧
      Search.whileLoop fl exit fuel (Search.seed fl exit s) = some (o.state, o.win) ∧
      Search.Reached fl exit s o.state o.win ∧
      o.state.closedDeque.getLast? = some last ∧
      o.state.Print = some o.report := by
  obtain ⟨r, hr⟩ := Search.whileLoop_total hfl exit fuel (Search.seed fl exit s)
    (Core.seed_core hfl hexit hs) (by omega)
  have hre := (Search.whileLoop_reached fuel _ r Search.Reached.seed hr)
  have hne : r.1.closedDeque ≠ [] := by
    rcases Search.Reached.closed_ne_nil hfl hexit hs hre.1 with h | ⟨h1, h2⟩
    · exact h
    · rcases hre.2 with ⟨_, h3⟩ | ⟨h3, _⟩
      · exact absurd h3 h2
      · rw [h1] at h3; exact absurd h3 (by decide)
  obtain ⟨last, hlast⟩ : ∃ last, r.1.closedDeque.getLast? = some last := by
    cases hx : r.1.closedDeque.getLast? with
    | none => exact absurd (List.getLast?_eq_none_iff.1 hx) hne
    | some x => exact ⟨x, rfl⟩
  have hp := Search.Print_eq r.1 hlast
  refine ⟨⟨r.1, r.2, _⟩, last, ?_, hr, hre.1, hlast, hp⟩
  unfold Search.SearchTemplate
  rw [hr]
  simp only
  rw [hp]

/-! ## Parent chains and the path of `Print` -/

/-- The loop of `Print` puts the nodes from the root down to `n` in front of
the path collected so far. -/
theorem Coord.climb_eq : ∀ (n : Coord) (acc : List Coord),
    Coord.climb n acc = Coord.chainList n ++ acc
  | Coord.mk r c d f none, acc => by simp [Coord.climb, Coord.chainList]
  | Coord.mk r c d f (some p), acc => by
    rw [Coord.climb, Coord.climb_eq p, Coord.chainList]
    simp

theorem Coord.chainList_getLast : ∀ (n : Coord), (Coord.chainList n).getLast? = some n
  | Coord.mk r c d f none => by simp [Coord.chainList]
  | Coord.mk r c d f (some p) => by simp [Coord.chainList]

theorem GoodChain.length {M : Grid} {start : Nat × Nat} : ∀ (n : Coord), GoodChain M start n →
    (Coord.chainList n).length = n.getDepth + 1
  | Coord.mk r c d f none, h => by
    simp only [GoodChain] at h
    simp [Coord.chainList, Coord.getDepth, h.2]
  | Coord.mk r c d f (some p), h => by
    simp only [GoodChain] at h
    simp [Coord.chainList, Coord.getDepth, h.2.2.2.2.2, GoodChain.length p h.1]

theorem GoodChain.head {M : Grid} {start : Nat × Nat} : ∀ (n : Coord), GoodChain M start n →
    ((Coord.chainList n).map Coord.pos).head? = some start
  | Coord.mk r c d f none, h => by
    simp only [GoodChain] at h
    simp [Coord.chainList, Coord.pos, Coord.getRow, Coord.getCol, h.1]
  | Coord.mk r c d f (some p), h => by
    simp only [GoodChain] at h
    have ih := GoodChain.head p h.1
    have hne : Coord.chainList p ≠ [] := by
      intro h0
      have := GoodChain.length p h.1
      rw [h0] at this
      simp at this
    rw [Coord.chainList, List.map_append, List.head?_append_of_ne_nil _ (by simpa using hne)]
    exact ih

theorem GoodChain.reach {M : Grid} {start : Nat × Nat} : ∀ (n : Coord), GoodChain M start n →
    Reach M start n.getDepth n.pos
  | Coord.mk r c d f none, h => by
    simp only [GoodChain] at h
    simp only [Coord.getDepth, Coord.pos, Coord.getRow, Coord.getCol, h.1, h.2]
    exact Reach.zero
  | Coord.mk r c d f (some p), h => by
    simp only [GoodChain] at h
    simp only [Coord.getDepth, Coord.pos, Coord.getRow, Coord.getCol, h.2.2.2.2.2]
    exact Reach.step (GoodChain.reach p h.1) h.2.1 h.2.2.1 h.2.2.2.1 h.2.2.2.2.1

/-- The positions from the root down to `n` form a walk on the board when the
start cell is on the board and not a `BLOCK` cell. -/
theorem GoodChain.validPath {M : Grid} {start : Nat × Nat} (hs1 : start.1 < BOARDSIZE)
    (hs2 : start.2 < BOARDSIZE) (hsM : M.get start.1 start.2 ≠ BLOCK) :
    ∀ (n : Coord), GoodChain M start n → ValidPath M ((Coord.chainList n).map Coord.pos)
  | Coord.mk r c d f none, h => by
    simp only [GoodChain] at h
    refine ⟨by simp [Coord.chainList], ?_⟩
    intro q hq
    have : q = start := by
      rw [← h.1]
      simpa [Coord.chainList, Coord.pos, Coord.getRow, Coord.getCol] using hq
    subst this
    exact ⟨hs1, hs2, hsM⟩
  | Coord.mk r c d f (some p), h => by
    simp only [GoodChain] at h
    have ih := GoodChain.validPath hs1 hs2 hsM p h.1
    rw [Coord.chainList, List.map_append]
    refine ⟨?_, ?_⟩
    · rw [List.chain'_append]
      refine ⟨ih.1, by simp, ?_⟩
      intro x hx y hy
      rw [List.getLast?_map, Coord.chainList_getLast] at hx
      simp only [Option.map_some', Option.mem_def, Option.some.injEq] at hx
      simp only [List.map_cons, List.map_nil, List.head?_cons, Option.mem_def,
        Option.some.injEq] at hy
      subst hx; subst hy
      exact h.2.1
    · intro q hq
      rcases List.mem_append.1 hq with h1 | h1
      · exact ih.2 q h1
      · have : q = (r, c) := by
          simpa [Coord.pos, Coord.getRow, Coord.getCol] using h1
        subst this
        exact ⟨h.2.2.1, h.2.2.2.1, h.2.2.2.2.1⟩

/-! ## Exhausted and solved runs -/

/-- When the loop condition finds `openDeque` empty, every position that can
be reached from the start has a node in `closedDeque`. -/
theorem Inv.closed_of_reach_inv {M : Grid} {start : Nat × Nat} {exit : Int} {s : Search}
    (hi : Inv M start exit s) (ho : s.openDeque = []) {k : Nat} {p : Nat × Nat}
    (h : Reach M start k p) : ∃ n ∈ s.closedDeque, n.pos = p := by
  have hn : s.nodes = s.closedDeque := by simp [Search.nodes, ho]
  induction h with
  | zero =>
    obtain ⟨n, h1, h2, _⟩ := hi.track.startIn
    exact ⟨n, hn ▸ h1, h2⟩
  | step _ hadj hb1 hb2 hbM ih =>
    obtain ⟨n, h1, h2⟩ := ih
    obtain ⟨m, h3, h4⟩ := hi.expanded n h1 _ (h2 ▸ hadj) hb1 hb2 hbM
    exact ⟨m, hn ▸ h3, h4⟩

/-- An exhausted run: no cell with the requested exit value can be reached. -/
theorem Inv.exhausted {M : Grid} {start : Nat × Nat} {exit : Int} {s : Search}
    (hi : Inv M start exit s) (ho : s.openDeque = []) {k : Nat} {p : Nat × Nat}
    (h : Reach M start k p) : M.get p.1 p.2 ≠ exit := by
  obtain ⟨n, h1, h2⟩ := hi.closed_of_reach_inv ho h
  have := hi.noGoal n h1
  rw [← h2]
  exact this

/-- What is known when a run from a reset state on a layout of `FREE`, `START`,
`BLOCK`, `E1`, `E2` cells has ended: either `openDeque` is empty and `Inv` holds
(exhausted), or the last pass popped a node `front` on a cell with the exit
value from a state with `Inv` (solved); the report is that of `Print`. -/
theorem Search.SearchTemplate_run {fl : Flags} (hfl : fl.Strategy) {exit : Int}
    (hexit : exit = E1 ∨ exit = E2 ∨ exit = CORNER) {s : Search} (hs : ResetState s)
    (hl : LayoutOK s.mazeMap) {fuel : Nat} (hfuel : BOARDSIZE * BOARDSIZE < fuel) :
    ∃ o, Search.SearchTemplate fl exit fuel s = some o ∧
      Search.Reached fl exit s o.state o.win ∧
      ((o.win = false ∧ o.state.openDeque = [] ∧
          Inv s.mazeMap ((s.selectExit exit).startRow, (s.selectExit exit).startCol) exit
            o.state) ∨
       (o.win = true ∧ ∃ sp front rest,
          Inv s.mazeMap ((s.selectExit exit).startRow, (s.selectExit exit).startCol) exit sp ∧
          Search.Reached fl exit s sp false ∧
          sp.openDeque = front :: rest ∧ s.mazeMap.get front.getRow front.getCol = exit ∧
          o.state = sp.pop front rest ∧ o.report.path = Coord.chainList front ∧
          o.report.pathCost = front.getDepth + 1)) := by
  obtain ⟨o, last, h1, h2, h3, h4, h5⟩ := Search.SearchTemplate_some hfl hexit hs hfuel
  refine ⟨o, h1, h3, ?_⟩
  rcases (Search.whileLoop_reached fuel _ _ Search.Reached.seed h2).2 with
    ⟨hw, ho⟩ | ⟨hw, sp, front, rest, hr, hsp, hg, hst⟩
  · left
    simp only at hw ho
    exact ⟨hw, ho, Inv.reached_inv hfl hexit hs hl (hw ▸ h3) rfl⟩
  · right
    simp only at hw hst
    have hi := Inv.reached_inv hfl hexit hs hl hr rfl
    have hlast : o.state.closedDeque.getLast? = some front := by
      rw [hst]; simp [Search.pop]
    have hp := Search.Print_eq o.state hlast
    rw [h5] at hp
    have hrep := Option.some.inj hp
    have hgc := hi.track.chain front (Search.mem_nodes.2 (Or.inr (by rw [hsp]; simp)))
    refine ⟨hw, sp, front, rest, hi, hr, hsp, ?_, hst, ?_, ?_⟩
    · rw [← hi.track.map]; exact hg
    · rw [hrep]; simp [Coord.climb_eq]
    · rw [hrep]; simp [Coord.climb_eq, GoodChain.length front hgc]

/-! ## Breadth first search -/

/-- In breadth first mode `tryCell` appends the new node at the back. -/
theorem Search.tryCell_bfs (s : Search) (r c d : Nat) (p : Option Coord) :
    s.tryCell bfsFlags r c d p = s ∨
    s.tryCell bfsFlags r c d p =
      { s with mazeRoute := s.mazeRoute.set r c OPEN,
               openDeque := s.openDeque ++ [Coord.mk r c d 0 p] } := by
  unfold Search.tryCell
  split
  · right; simp [Search.pushNode, bfsFlags, Flags.initial]
  · left; rfl

theorem bfsFlags_strategy : bfsFlags.Strategy := Or.inl rfl
theorem dfsFlags_strategy : dfsFlags.Strategy := Or.inr (Or.inl rfl)
theorem asFlags_strategy : asFlags.Strategy := Or.inr (Or.inr rfl)

theorem BfsInv.seed_bfs {exit : Int} {s : Search} (hs : ResetState s) :
    BfsInv s.mazeMap (Search.seed bfsFlags exit s) := by
  obtain ⟨f, h, _⟩ := Search.seed_eq bfsFlags_strategy exit s hs.openEmpty
  have hf := Search.selectExit_frame exit s
  have hclosed : (Search.seed bfsFlags exit s).closedDeque = [] := by
    rw [h]; show (s.selectExit exit).closedDeque = []; rw [hf.2.2.2.1, hs.closedEmpty]
  have hopen : (Search.seed bfsFlags exit s).openDeque =
      [Coord.mk (s.selectExit exit).startRow (s.selectExit exit).startCol 0 f none] := by
    rw [h]
  refine ⟨?_, ?_, ?_, ?_⟩
  · rw [hopen]; simp
  · intro x hx; rw [hclosed] at hx; exact absurd hx (List.not_mem_nil _)
  · intro x hx y hy
    rw [hopen] at hx hy
    rw [List.mem_singleton.1 hx, List.mem_singleton.1 hy]
    exact Nat.le_succ _
  · intro x hx; rw [hclosed] at hx; exact absurd hx (List.not_mem_nil _)

/-- One pass through the loop body that does not find the goal keeps
`BfsInv`. -/
theorem BfsInv.loopBody_bfs {M : Grid} (hl : LayoutOK M) {start : Nat × Nat} {exit : Int}
    {s : Search} (hi : Inv M start exit s) (hb : BfsInv M s) {front : Coord}
    {rest : List Coord} (ho : s.openDeque = front :: rest)
    (hw : (Search.loopBody bfsFlags exit s front rest).2 = false) :
    BfsInv M (Search.loopBody bfsFlags exit s front rest).1 := by
  have hfl := bfsFlags_strategy
  have hfin := hi.core.inb front (Search.mem_nodes.2 (Or.inr (by rw [ho]; simp)))
  have hinv := hi.loopBody_inv hfl hl ho hw
  have hng : ¬ s.mazeMap.get front.getRow front.getCol = exit := by
    intro h
    have := (Search.loopBody_win bfsFlags exit s front rest).1.2 h
    rw [hw] at this
    exact absurd this (by decide)
  have hbody : (Search.loopBody bfsFlags exit s front rest).1 =
      Search.SearchImplementation bfsFlags (s.pop front rest) front.getRow front.getCol := by
    unfold Search.loopBody
    simp only
    rw [if_neg hng]
  have hback := Search.backDepth_append s front rest
  have hsort : (front :: rest).Pairwise (fun a b => a.getDepth ≤ b.getDepth) := ho ▸ hb.sorted
  rw [List.pairwise_cons] at hsort
  have hind := Search.SearchImplementation_ind bfsFlags
    (fun t => t.closedDeque = s.closedDeque ++ [front] ∧
      t.openDeque.Pairwise (fun a b => a.getDepth ≤ b.getDepth) ∧
      (∀ y ∈ t.openDeque, front.getDepth ≤ y.getDepth ∧ y.getDepth ≤ front.getDepth + 1) ∧
      ∀ n ∈ (s.pop front rest).nodes, n ∈ t.nodes)
    (fun _ _ => True)
    (s.pop front rest) front.getRow front.getCol
    ⟨rfl, hsort.2, fun y hy => ⟨hsort.1 y hy,
        hb.span front (by rw [ho]; simp) y (by rw [ho]; exact List.mem_cons_of_mem _ hy)⟩,
      fun _ h => h⟩ ?_ ?_ ?_ hfin.1 hfin.2
  · rw [← hbody] at hind
    obtain ⟨⟨hcl, hso, hrange, hmono⟩, _⟩ := hind
    have hclb : ∀ x ∈ (Search.loopBody bfsFlags exit s front rest).1.closedDeque,
        x.getDepth ≤ front.getDepth := by
      intro x hx
      rw [hcl] at hx
      rcases List.mem_append.1 hx with h | h
      · exact hb.closedLe x h front (by rw [ho]; simp)
      · rw [List.mem_singleton.1 h]
    refine ⟨hso, ?_, ?_, ?_⟩
    · intro x hx y hy
      exact le_trans (hclb x hx) (hrange y hy).1
    · intro x hx y hy
      exact le_trans (hrange y hy).2 (Nat.succ_le_succ (hrange x hx).1)
    · intro n hn q hadj hq1 hq2 hqM
      have hn2 := hn
      rw [hcl] at hn2
      rcases List.mem_append.1 hn2 with h | h
      · obtain ⟨m, hm, hp⟩ := hb.disc n h q hadj hq1 hq2 hqM
        exact ⟨m, hmono m ((Search.pop_nodes ho m).2 hm), hp⟩
      · obtain ⟨m, hm, hp⟩ := hinv.expanded n hn q hadj hq1 hq2 hqM
        refine ⟨m, hm, hp, ?_⟩
        rw [List.mem_singleton.1 h]
        rcases Search.mem_nodes.1 hm with h3 | h3
        · exact le_trans (hclb m h3) (Nat.le_succ _)
        · exact (hrange m h3).2
  · intro t r c ⟨hcl, hso, hrange, hmono⟩ _ _ _
    refine ⟨?_, trivial⟩
    rw [hback.1, hback.2]
    have hmono2 : ∀ n ∈ (s.pop front rest).nodes,
        n ∈ (t.tryCell bfsFlags r c (front.getDepth + 1) (some front)).nodes :=
      fun n hn => Search.tryCell_nodes_mono hfl t r c _ _ (hmono n hn)
    rcases Search.tryCell_bfs t r c (front.getDepth + 1) (some front) with h | h
    · rw [h] at hmono2 ⊢; exact ⟨hcl, hso, hrange, hmono2⟩
    · rw [h] at hmono2 ⊢
      refine ⟨hcl, ?_, ?_, hmono2⟩
      · show (t.openDeque ++ [Coord.mk r c (front.getDepth + 1) 0 (some front)]).Pairwise _
        rw [List.pairwise_append]
        refine ⟨hso, by simp, ?_⟩
        intro a ha b hb2
        rw [List.mem_singleton.1 hb2]
        exact (hrange a ha).2
      · intro y hy
        have hy2 : y ∈ t.openDeque ++ [Coord.mk r c (front.getDepth + 1) 0 (some front)] := hy
        rcases List.mem_append.1 hy2 with h1 | h1
        · exact hrange y h1
        · rw [List.mem_singleton.1 h1]
          exact ⟨Nat.le_succ _, le_refl _⟩
  · intros; trivial
  · intro t m ht
    exact ⟨ht, fun _ _ => trivial⟩

/-- Invariant `BfsInv` holds whenever the loop condition is evaluated in a breadth first
run. -/
theorem BfsInv.reached_bfs {exit : Int} (hexit : exit = E1 ∨ exit = E2 ∨ exit = CORNER)
    {s0 : Search} (hs : ResetState s0) (hl : LayoutOK s0.mazeMap) {s : Search} {w : Bool}
    (h : Search.Reached bfsFlags exit s0 s w) : w = false → BfsInv s0.mazeMap s := by
  induction h with
  | seed => intro _; exact BfsInv.seed_bfs hs
  | step hr ho ih =>
    intro hw
    exact (ih rfl).loopBody_bfs hl (Inv.reached_inv bfsFlags_strategy hexit hs hl hr rfl) ho hw

/-- In a breadth first run every position that is reached in fewer moves than
the depth of the front node has a node in `closedDeque`. -/
theorem BfsInv.closed_of_reach_bfs {M : Grid} {start : Nat × Nat} {exit : Int} {s : Search}
    (hi : Inv M start exit s) (hb : BfsInv M s) {front : Coord} {rest : List Coord}
    (ho : s.openDeque = front :: rest) {k : Nat} {p : Nat × Nat} (h : Reach M start k p) :
    k < front.getDepth → ∃ m ∈ s.closedDeque, m.pos = p ∧ m.getDepth ≤ k := by
  have hsort : (front :: rest).Pairwise (fun a b => a.getDepth ≤ b.getDepth) := ho ▸ hb.sorted
  rw [List.pairwise_cons] at hsort
  have hclosed : ∀ m ∈ s.nodes, m.getDepth < front.getDepth → m ∈ s.closedDeque := by
    intro m hm hlt
    rcases Search.mem_nodes.1 hm with h1 | h1
    · exact h1
    · rw [ho] at h1
      rcases List.mem_cons.1 h1 with h2 | h2
      · rw [h2] at hlt; exact absurd hlt (lt_irrefl _)
      · exact absurd (hsort.1 m h2) (not_le.2 hlt)
  induction h with
  | zero =>
    intro hk
    obtain ⟨n, h1, h2, h3⟩ := hi.track.startIn
    exact ⟨n, hclosed n h1 (by omega), h2, by omega⟩
  | step _ hadj hb1 hb2 hbM ih =>
    intro hk
    obtain ⟨n, h1, h2, h3⟩ := ih (by omega)
    obtain ⟨m, h4, h5, h6⟩ := hb.disc n h1 _ (h2 ▸ hadj) hb1 hb2 hbM
    exact ⟨m, hclosed m h4 (by omega), h5, by omega⟩

/-- The depth of the goal node of a solved breadth first run is the least
number of moves to a cell with the exit value. -/
theorem BfsInv.minSteps {M : Grid} {start : Nat × Nat} {exit : Int} {s : Search}
    (hi : Inv M start exit s) (hb : BfsInv M s) {front : Coord} {rest : List Coord}
    (ho : s.openDeque = front :: rest) (hg : M.get front.getRow front.getCol = exit) :
    MinSteps M start exit front.getDepth := by
  have hgc := hi.track.chain front (Search.mem_nodes.2 (Or.inr (by rw [ho]; simp)))
  refine ⟨⟨front.pos, GoodChain.reach front hgc, hg⟩, ?_⟩
  intro k p hr hp
  by_contra hlt
  obtain ⟨m, h1, h2, _⟩ := hb.closed_of_reach_bfs hi ho hr (by omega)
  apply hi.noGoal m h1
  rw [← hp, ← h2]
  rfl

/-! ## The constructor -/

/-- What `scanCell` keeps: the arrays, the deques and the counters. -/
theorem Search.scanCell_frame (file : Grid) (s : Search) (i j : Fin BOARDSIZE) :
    (Search.scanCell file s i j).mazeMap = s.mazeMap ∧
    (Search.scanCell file s i j).mazeRoute = s.mazeRoute ∧
    (Search.scanCell file s i j).openDeque = s.openDeque ∧
    (Search.scanCell file s i j).closedDeque = s.closedDeque ∧
    (Search.scanCell file s i j).cost = s.cost := by
  unfold Search.scanCell
  split_ifs <;> simp

/-- After `scanCell` the recorded start position is that of a `START` cell if
it was before or if the cell scanned is one. -/
theorem Search.scanCell_start (file : Grid) (s : Search) (i j : Fin BOARDSIZE)
    (h : file i j = START ∨
      (s.startE1E2Row < BOARDSIZE ∧ s.startE1E2Col < BOARDSIZE ∧
        file.get s.startE1E2Row s.startE1E2Col = START)) :
    (Search.scanCell file s i j).startE1E2Row < BOARDSIZE ∧
    (Search.scanCell file s i j).startE1E2Col < BOARDSIZE ∧
    file.get (Search.scanCell file s i j).startE1E2Row
      (Search.scanCell file s i j).startE1E2Col = START := by
  unfold Search.scanCell
  by_cases h1 : file i j = START
  · rw [if_pos h1]
    exact ⟨i.isLt, j.isLt, by rw [Grid.get_of_lt file i.isLt j.isLt]; exact h1⟩
  · rw [if_neg h1]
    rcases h with h | h
    · exact absurd h h1
    · split_ifs <;> exact h

theorem Search.scanRow_spec (file : Grid) (i : Fin BOARDSIZE) :
    ∀ (l : List (Fin BOARDSIZE)) (s : Search),
      ((l.foldl (fun s j => Search.scanCell file s i j) s).mazeMap = s.mazeMap ∧
       (l.foldl (fun s j => Search.scanCell file s i j) s).mazeRoute = s.mazeRoute ∧
       (l.foldl (fun s j => Search.scanCell file s i j) s).openDeque = s.openDeque ∧
       (l.foldl (fun s j => Search.scanCell file s i j) s).closedDeque = s.closedDeque ∧
       (l.foldl (fun s j => Search.scanCell file s i j) s).cost = s.cost) ∧
      (((∃ j ∈ l, file i j = START) ∨
        (s.startE1E2Row < BOARDSIZE ∧ s.startE1E2Col < BOARDSIZE ∧
          file.get s.startE1E2Row s.startE1E2Col = START)) →
        (l.foldl (fun s j => Search.scanCell file s i j) s).startE1E2Row < BOARDSIZE ∧
        (l.foldl (fun s j => Search.scanCell file s i j) s).startE1E2Col < BOARDSIZE ∧
        file.get (l.foldl (fun s j => Search.scanCell file s i j) s).startE1E2Row
          (l.foldl (fun s j => Search.scanCell file s i j) s).startE1E2Col = START) := by
  intro l
  induction l with
  | nil =>
    intro s
    refine ⟨⟨rfl, rfl, rfl, rfl, rfl⟩, ?_⟩
    rintro (⟨j, hj, _⟩ | h)
    · exact absurd hj (List.not_mem_nil _)
    · exact h
  | cons j l ih =>
    intro s
    have hf := Search.scanCell_frame file s i j
    have h2 := ih (Search.scanCell file s i j)
    rw [List.foldl_cons]
    refine ⟨⟨by rw [h2.1.1, hf.1], by rw [h2.1.2.1, hf.2.1], by rw [h2.1.2.2.1, hf.2.2.1],
      by rw [h2.1.2.2.2.1, hf.2.2.2.1], by rw [h2.1.2.2.2.2, hf.2.2.2.2]⟩, ?_⟩
    rintro (⟨j2, hj2, hs⟩ | h)
    · rcases List.mem_cons.1 hj2 with h3 | h3
      · subst h3
        exact h2.2 (Or.inr (Search.scanCell_start file s i j2 (Or.inl hs)))
      · exact h2.2 (Or.inl ⟨j2, h3, hs⟩)
    · exact h2.2 (Or.inr (Search.scanCell_start file s i j (Or.inr h)))

theorem Search.scanRows_spec (file : Grid) :
    ∀ (l : List (Fin BOARDSIZE)) (s : Search),
      ((l.foldl (fun s i => (List.finRange BOARDSIZE).foldl
          (fun s j => Search.scanCell file s i j) s) s).mazeMap = s.mazeMap ∧
       (l.foldl (fun s i => (List.finRange BOARDSIZE).foldl
          (fun s j => Search.scanCell file s i j) s) s).mazeRoute = s.mazeRoute ∧
       (l.foldl (fun s i => (List.finRange BOARDSIZE).foldl
          (fun s j => Search.scanCell file s i j) s) s).openDeque = s.openDeque ∧
       (l.foldl (fun s i => (List.finRange BOARDSIZE).foldl
          (fun s j => Search.scanCell file s i j) s) s).closedDeque = s.closedDeque ∧
       (l.foldl (fun s i => (List.finRange BOARDSIZE).foldl
          (fun s j => Search.scanCell file s i j) s) s).cost = s.cost) ∧
      (((∃ i ∈ l, ∃ j, file i j = START) ∨
        (s.startE1E2Row < BOARDSIZE ∧ s.startE1E2Col < BOARDSIZE ∧
          file.get s.startE1E2Row s.startE1E2Col = START)) →
        (l.foldl (fun s i => (List.finRange BOARDSIZE).foldl
          (fun s j => Search.scanCell file s i j) s) s).startE1E2Row < BOARDSIZE ∧
        (l.foldl (fun s i => (List.finRange BOARDSIZE).foldl
          (fun s j => Search.scanCell file s i j) s) s).startE1E2Col < BOARDSIZE ∧
        file.get (l.foldl (fun s i => (List.finRange BOARDSIZE).foldl
          (fun s j => Search.scanCell file s i j) s) s).startE1E2Row
          (l.foldl (fun s i => (List.finRange BOARDSIZE).foldl
          (fun s j => Search.scanCell file s i j) s) s).startE1E2Col = START) := by
  intro l
  induction l with
  | nil =>
    intro s
    refine ⟨⟨rfl, rfl, rfl, rfl, rfl⟩, ?_⟩
    rintro (⟨i, hi, _⟩ | h)
    · exact absurd hi (List.not_mem_nil _)
    · exact h
  | cons i l ih =>
    intro s
    have hrow := Search.scanRow_spec file i (List.finRange BOARDSIZE) s
    have hf := hrow.1
    have h2 := ih ((List.finRange BOARDSIZE).foldl (fun s j => Search.scanCell file s i j) s)
    rw [List.foldl_cons]
    refine ⟨⟨by rw [h2.1.1, hf.1], by rw [h2.1.2.1, hf.2.1], by rw [h2.1.2.2.1, hf.2.2.1],
      by rw [h2.1.2.2.2.1, hf.2.2.2.1], by rw [h2.1.2.2.2.2, hf.2.2.2.2]⟩, ?_⟩
    rintro (⟨i2, hi2, j, hs⟩ | h)
    · rcases List.mem_cons.1 hi2 with h3 | h3
      · subst h3
        exact h2.2 (Or.inr (hrow.2 (Or.inl ⟨j, List.mem_finRange j, hs⟩)))
      · exact h2.2 (Or.inl ⟨i2, h3, j, hs⟩)
    · exact h2.2 (Or.inr (hrow.2 (Or.inr h)))

/-- The constructor leaves a reset state whose layout is the file and whose
recorded start position is that of a `START` cell, when the file has one. -/
theorem Search.new_spec (mem : Search) (file : Grid) (h : ∃ i j, file i j = START) :
    ResetState (Search.new mem file) ∧ (Search.new mem file).mazeMap = file ∧
    file.get (Search.new mem file).startE1E2Row (Search.new mem file).startE1E2Col = START := by
  obtain ⟨i, j, hij⟩ := h
  have hsp := Search.scanRows_spec file (List.finRange BOARDSIZE)
    { mem with cost := 0, maxOpenQSize := 0, openDeque := [], closedDeque := [],
               mazeMap := file, mazeRoute := file }
  have hst := hsp.2 (Or.inl ⟨i, List.mem_finRange i, j, hij⟩)
  unfold Search.new
  simp only
  refine ⟨⟨?_, ?_, ?_, ?_, hst.1, hst.2.1⟩, ?_, hst.2.2⟩
  · rw [hsp.1.2.2.1]
  · rw [hsp.1.2.2.2.1]
  · rw [hsp.1.2.2.2.2]
  · rw [hsp.1.2.1, hsp.1.1]
  · rw [hsp.1.1]

/-! ## Facts about the concrete layouts -/

theorem detourMap_ok : LayoutOK detourMap := by decide!

theorem detourMap_start : ∃ i j, detourMap i j = START :=
  ⟨⟨5, by decide⟩, ⟨1, by decide⟩, by decide⟩

theorem cornerMap_ok : LayoutOK cornerMap := by decide!

theorem cornerMap_start : ∃ i j, cornerMap i j = START :=
  ⟨⟨24, by decide⟩, ⟨0, by decide⟩, by decide⟩

theorem detour_reset : ResetState (Search.new blankMemory detourMap) :=
  (Search.new_spec blankMemory detourMap detourMap_start).1

theorem detour_layout : LayoutOK (Search.new blankMemory detourMap).mazeMap := by
  rw [(Search.new_spec blankMemory detourMap detourMap_start).2.1]
  exact detourMap_ok

theorem corner_reset : ResetState (Search.new blankMemory cornerMap) :=
  (Search.new_spec blankMemory cornerMap cornerMap_start).1

theorem corner_layout : LayoutOK (Search.new blankMemory cornerMap).mazeMap := by
  rw [(Search.new_spec blankMemory cornerMap cornerMap_start).2.1]
  exact cornerMap_ok

theorem START_ne_BLOCK : START ≠ BLOCK := by decide

theorem three_of_two {exit : Int} (h : exit = E1 ∨ exit = E2) :
    exit = E1 ∨ exit = E2 ∨ exit = CORNER := by
  rcases h with h | h
  · exact Or.inl h
  · exact Or.inr (Or.inl h)

theorem Search.selectExit_start_pair {exit : Int} (h : exit = E1 ∨ exit = E2) (s : Search) :
    ((s.selectExit exit).startRow, (s.selectExit exit).startCol) =
      (s.startE1E2Row, s.startE1E2Col) := by
  rw [((Search.selectExit_start exit s).1 h).1, ((Search.selectExit_start exit s).1 h).2]

/-- The end state of `SearchTemplate` is a state of the run. -/
theorem Search.SearchTemplate_reached {fl : Flags} {exit : Int} {fuel : Nat} {s : Search}
    {o : Outcome} (h : Search.SearchTemplate fl exit fuel s = some o) :
    Search.Reached fl exit s o.state o.win := by
  unfold Search.SearchTemplate at h
  cases hw : Search.whileLoop fl exit fuel (Search.seed fl exit s) with
  | none => rw [hw] at h; simp at h
  | some r =>
    rw [hw] at h
    simp only at h
    cases hp : r.1.Print with
    | none => rw [hp] at h; simp at h
    | some rep =>
      rw [hp] at h
      simp only [Option.some.injEq] at h
      subst h
      exact (Search.whileLoop_reached fuel _ r Search.Reached.seed hw).1

/-! ## The claims -/

/-- C1 (FIFO optimality).  A breadth first run of `SearchTemplate` for `E1` or
`E2` from a reset state, on a layout whose cells are all `FREE`, `START`,
`BLOCK`, `E1` or `E2`, returns; and if it ends with the goal found, the number
of steps of the path built by `Print` (its node count minus one, which is the
depth of the goal node `closedDeque.back()`) is the minimum number of
orthogonal unit moves into cells of the board that are not `BLOCK` by which a
cell with the requested exit value is reached from the start cell. -/
theorem bfs_path_is_shortest (s : Search) (hs : ResetState s) (hl : LayoutOK s.mazeMap)
    (exit : Int) (hexit : exit = E1 ∨ exit = E2) (fuel : Nat)
    (hfuel : BOARDSIZE * BOARDSIZE < fuel) :
    ∃ o, Search.SearchTemplate bfsFlags exit fuel s = some o ∧
      (o.win = true →
        (∃ goal, o.state.closedDeque.getLast? = some goal ∧
          o.report.path.length - 1 = goal.getDepth) ∧
        MinSteps s.mazeMap (s.startE1E2Row, s.startE1E2Col) exit
          (o.report.path.length - 1)) := by
  obtain ⟨o, h1, h2, h3⟩ :=
    Search.SearchTemplate_run bfsFlags_strategy (three_of_two hexit) hs hl hfuel
  refine ⟨o, h1, fun hw => ?_⟩
  rcases h3 with ⟨hw2, _⟩ | ⟨_, sp, front, rest, hi, hr, ho, hg, hst, hpath, _⟩
  · rw [hw] at hw2; exact absurd hw2 (by decide)
  · have hb := BfsInv.reached_bfs (three_of_two hexit) hs hl hr rfl
    have hgc := hi.track.chain front (Search.mem_nodes.2 (Or.inr (by rw [ho]; simp)))
    have hlen : o.report.path.length - 1 = front.getDepth := by
      rw [hpath, GoodChain.length front hgc]; rfl
    refine ⟨⟨front, by rw [hst]; simp [Search.pop], hlen⟩, ?_⟩
    rw [hlen, ← Search.selectExit_start_pair hexit s]
    exact hb.minSteps hi ho hg

/-- Witness for C1: the breadth first run for `E1` on `detourMap` is solved,
and its path is a shortest one. -/
theorem bfs_path_is_shortest_witness :
    (∃ o, Search.SearchTemplate bfsFlags E1 626 (Search.new blankMemory detourMap) = some o ∧
      (o.win = true →
        (∃ goal, o.state.closedDeque.getLast? = some goal ∧
          o.report.path.length - 1 = goal.getDepth) ∧
        MinSteps (Search.new blankMemory detourMap).mazeMap
          ((Search.new blankMemory detourMap).startE1E2Row,
           (Search.new blankMemory detourMap).startE1E2Col) E1
          (o.report.path.length - 1))) ∧
    (Search.SearchTemplate bfsFlags E1 626 (Search.new blankMemory detourMap)).map
      (fun o => (o.win, o.report.path.map Coord.pos)) =
      some (true, [(5, 1), (5, 2), (4, 2), (3, 2), (2, 2), (1, 2), (1, 1), (1, 0)]) :=
  ⟨bfs_path_is_shortest (Search.new blankMemory detourMap) detour_reset detour_layout E1
    (Or.inl rfl) 626 (by decide), by decide!⟩

/-- C3 (completeness).  For each of the three strategies, a run of
`SearchTemplate` for `E1` or `E2` from a reset state, on a layout whose cells
are all `FREE`, `START`, `BLOCK`, `E1` or `E2`, returns; it ends with
`win = true` if and only if some cell with the requested exit value is reached
from the start cell by orthogonal unit moves into cells of the board that are
not `BLOCK`; and when it ends with `win = false`, `openDeque` is empty. -/
theorem search_complete (fl : Flags) (hfl : fl.Strategy) (s : Search) (hs : ResetState s)
    (hl : LayoutOK s.mazeMap) (exit : Int) (hexit : exit = E1 ∨ exit = E2) (fuel : Nat)
    (hfuel : BOARDSIZE * BOARDSIZE < fuel) :
    ∃ o, Search.SearchTemplate fl exit fuel s = some o ∧
      (o.win = true ↔
        ∃ k p, Reach s.mazeMap (s.startE1E2Row, s.startE1E2Col) k p ∧
          s.mazeMap.get p.1 p.2 = exit) ∧
      (o.win = false → o.state.openDeque = []) := by
  obtain ⟨o, h1, h2, h3⟩ := Search.SearchTemplate_run hfl (three_of_two hexit) hs hl hfuel
  rw [Search.selectExit_start_pair hexit s] at h3
  refine ⟨o, h1, ?_, ?_⟩
  · rcases h3 with ⟨hw, ho, hi⟩ | ⟨hw, sp, front, rest, hi, hr, ho, hg, hst, _, _⟩
    · constructor
      · intro h; rw [hw] at h; exact absurd h (by decide)
      · rintro ⟨k, p, hreach, hp⟩
        exact absurd hp (hi.exhausted ho hreach)
    · constructor
      · intro _
        have hgc := hi.track.chain front (Search.mem_nodes.2 (Or.inr (by rw [ho]; simp)))
        exact ⟨front.getDepth, front.pos, GoodChain.reach front hgc, hg⟩
      · intro _; exact hw
  · intro hw
    rcases h3 with ⟨_, ho, _⟩ | ⟨hw2, _⟩
    · exact ho
    · rw [hw] at hw2; exact absurd hw2 (by decide)

/-- Witness for C3: the depth first run for `E2` on `detourMap`. -/
theorem search_complete_witness :
    ∃ o, Search.SearchTemplate dfsFlags E2 626 (Search.new blankMemory detourMap) = some o ∧
      (o.win = true ↔
        ∃ k p, Reach (Search.new blankMemory detourMap).mazeMap
            ((Search.new blankMemory detourMap).startE1E2Row,
             (Search.new blankMemory detourMap).startE1E2Col) k p ∧
          (Search.new blankMemory detourMap).mazeMap.get p.1 p.2 = E2) ∧
      (o.win = false → o.state.openDeque = []) :=
  search_complete dfsFlags dfsFlags_strategy (Search.new blankMemory detourMap) detour_reset
    detour_layout E2 (Or.inr rfl) 626 (by decide)

/-- C4 (path validity).  For each of the three strategies, when a run of
`SearchTemplate` for `E1` or `E2` from a reset state whose recorded start cell
is not a `BLOCK` cell, on a layout whose cells are all `FREE`, `START`,
`BLOCK`, `E1` or `E2`, ends with `win = true`, the path that `Print` builds from
`closedDeque.back()` is in start-to-goal order: its first position is the start
cell, its last position is that of `closedDeque.back()`, a cell with the exit
value, every position is on the board and not a `BLOCK` cell, and consecutive
positions are exactly one step apart in one of the four directions. -/
theorem solved_path_valid (fl : Flags) (hfl : fl.Strategy) (s : Search) (hs : ResetState s)
    (hl : LayoutOK s.mazeMap)
    (hstart : s.mazeMap.get s.startE1E2Row s.startE1E2Col ≠ BLOCK)
    (exit : Int) (hexit : exit = E1 ∨ exit = E2) (fuel : Nat)
    (hfuel : BOARDSIZE * BOARDSIZE < fuel) :
    ∃ o, Search.SearchTemplate fl exit fuel s = some o ∧
      (o.win = true →
        ∃ goal, o.state.closedDeque.getLast? = some goal ∧
          (o.report.path.map Coord.pos).head? = some (s.startE1E2Row, s.startE1E2Col) ∧
          (o.report.path.map Coord.pos).getLast? = some goal.pos ∧
          s.mazeMap.get goal.getRow goal.getCol = exit ∧
          ValidPath s.mazeMap (o.report.path.map Coord.pos)) := by
  obtain ⟨o, h1, h2, h3⟩ := Search.SearchTemplate_run hfl (three_of_two hexit) hs hl hfuel
  rw [Search.selectExit_start_pair hexit s] at h3
  refine ⟨o, h1, fun hw => ?_⟩
  rcases h3 with ⟨hw2, _⟩ | ⟨_, sp, front, rest, hi, hr, ho, hg, hst, hpath, _⟩
  · rw [hw] at hw2; exact absurd hw2 (by decide)
  · have hgc := hi.track.chain front (Search.mem_nodes.2 (Or.inr (by rw [ho]; simp)))
    refine ⟨front, by rw [hst]; simp [Search.pop], ?_, ?_, hg, ?_⟩
    · rw [hpath]; exact GoodChain.head front hgc
    · rw [hpath, List.getLast?_map, Coord.chainList_getLast]; rfl
    · rw [hpath]
      exact GoodChain.validPath hs.startRow_lt hs.startCol_lt hstart front hgc

/-- Witness for C4: the depth first run for `E1` on `detourMap` is solved and
its path is a walk from the start cell to the `E1` cell. -/
theorem solved_path_valid_witness :
    (∃ o, Search.SearchTemplate dfsFlags E1 626 (Search.new blankMemory detourMap) = some o ∧
      (o.win = true →
        ∃ goal, o.state.closedDeque.getLast? = some goal ∧
          (o.report.path.map Coord.pos).head? =
            some ((Search.new blankMemory detourMap).startE1E2Row,
                  (Search.new blankMemory detourMap).startE1E2Col) ∧
          (o.report.path.map Coord.pos).getLast? = some goal.pos ∧
          (Search.new blankMemory detourMap).mazeMap.get goal.getRow goal.getCol = E1 ∧
          ValidPath (Search.new blankMemory detourMap).mazeMap
            (o.report.path.map Coord.pos))) ∧
    (Search.SearchTemplate dfsFlags E1 626 (Search.new blankMemory detourMap)).map
      (fun o => o.win) = some true :=
  ⟨solved_path_valid dfsFlags dfsFlags_strategy (Search.new blankMemory detourMap)
    detour_reset detour_layout
    (by rw [(Search.new_spec blankMemory detourMap detourMap_start).2.1,
          (Search.new_spec blankMemory detourMap detourMap_start).2.2]
        exact START_ne_BLOCK)
    E1 (Or.inl rfl) 626 (by decide), by decide!⟩

/-- C6 (visited-set deduplication).  In every state of a `SearchTemplate` run
started from a reset state (the state in which the loop condition is first
evaluated, and the state after each pass through the loop body, the last one
included), for every strategy, each position occurs at most once in the
concatenation of `openDeque` and `closedDeque`; the state in which
`SearchTemplate` ends is one of these states. -/
theorem positions_occur_once (fl : Flags) (hfl : fl.Strategy) (exit : Int)
    (hexit : exit = E1 ∨ exit = E2 ∨ exit = CORNER) (s0 : Search) (hs : ResetState s0) :
    (∀ s w, Search.Reached fl exit s0 s w →
      ((s.openDeque ++ s.closedDeque).map Coord.pos).Nodup) ∧
    (∀ fuel o, Search.SearchTemplate fl exit fuel s0 = some o →
      Search.Reached fl exit s0 o.state o.win) := by
  refine ⟨fun s w h => ?_, fun fuel o h => Search.SearchTemplate_reached h⟩
  have hc := (Core.reached_core hfl hexit hs h).nodup
  exact (List.perm_append_comm.map Coord.pos).nodup_iff.1 hc

/-- Witness for C6: the A* run for `E1` on `detourMap`. -/
theorem positions_occur_once_witness :
    (∀ s w, Search.Reached asFlags E1 (Search.new blankMemory detourMap) s w →
      ((s.openDeque ++ s.closedDeque).map Coord.pos).Nodup) ∧
    (∀ fuel o, Search.SearchTemplate asFlags E1 fuel (Search.new blankMemory detourMap) = some o →
      Search.Reached asFlags E1 (Search.new blankMemory detourMap) o.state o.win) :=
  positions_occur_once asFlags asFlags_strategy E1 (Or.inl rfl)
    (Search.new blankMemory detourMap) detour_reset

/-- C7 (bounded expansion).  For every layout, every strategy and every exit
in `E1`, `E2`, `CORNER`, the search loop of `SearchTemplate` started from a
reset state is left after at most `BOARDSIZE * BOARDSIZE` passes: it returns
with any fuel above `BOARDSIZE * BOARDSIZE`, and then `cost`, which counts the
passes, is at most `BOARDSIZE * BOARDSIZE`; `cost` is the number of nodes of
`closedDeque`, and no position occurs twice in `closedDeque`. -/
theorem expansions_bounded (fl : Flags) (hfl : fl.Strategy) (exit : Int)
    (hexit : exit = E1 ∨ exit = E2 ∨ exit = CORNER) (s : Search) (hs : ResetState s)
    (fuel : Nat) (hfuel : BOARDSIZE * BOARDSIZE < fuel) :
    ∃ o, Search.SearchTemplate fl exit fuel s = some o ∧
      o.state.cost ≤ BOARDSIZE * BOARDSIZE ∧
      o.state.cost = o.state.closedDeque.length ∧
      (o.state.closedDeque.map Coord.pos).Nodup := by
  obtain ⟨o, last, h1, h2, h3, h4, h5⟩ := Search.SearchTemplate_some hfl hexit hs hfuel
  have hc := Core.reached_core hfl hexit hs h3
  refine ⟨o, h1, ?_, hc.costEq, ?_⟩
  · rw [hc.costEq]
    have := hc.length_le
    omega
  · have := hc.nodup
    rw [Search.nodes, List.map_append] at this
    exact (List.nodup_append.1 this).1

/-- Witness for C7: the breadth first run for `CORNER` on `cornerMap`. -/
theorem expansions_bounded_witness :
    ∃ o, Search.SearchTemplate bfsFlags CORNER 626 (Search.new blankMemory cornerMap) = some o ∧
      o.state.cost ≤ BOARDSIZE * BOARDSIZE ∧
      o.state.cost = o.state.closedDeque.length ∧
      (o.state.closedDeque.map Coord.pos).Nodup :=
  expansions_bounded bfsFlags bfsFlags_strategy CORNER (Or.inr (Or.inr rfl))
    (Search.new blankMemory cornerMap) corner_reset 626 (by decide)

/-! ## `AStarSort` -/

/-- The loop of `AStarSort` inserts before the first node with a greater
`functionF`, if there is one. -/
theorem AStarSort.loop_eq (f : Nat) (node : Coord) (l : List Coord) :
    ((AStarSort.loop f node l).2 = true →
      (AStarSort.loop f node l).1 =
        l.takeWhile (fun x => decide (x.getFunctionF ≤ f)) ++
          node :: l.dropWhile (fun x => decide (x.getFunctionF ≤ f))) ∧
    ((AStarSort.loop f node l).2 = false →
      (AStarSort.loop f node l).1 = l ∧
      l.takeWhile (fun x => decide (x.getFunctionF ≤ f)) = l ∧
      l.dropWhile (fun x => decide (x.getFunctionF ≤ f)) = []) := by
  induction l with
  | nil => simp [AStarSort.loop]
  | cons x xs ih =>
    unfold AStarSort.loop
    by_cases hx : f < x.getFunctionF
    · have hx2 : ¬ x.getFunctionF ≤ f := by omega
      simp [hx, hx2, List.takeWhile, List.dropWhile]
    · have hx2 : x.getFunctionF ≤ f := by omega
      simp only [hx, if_false]
      constructor
      · intro h
        simp [List.takeWhile, List.dropWhile, hx2, ih.1 h]
      · intro h
        have := ih.2 h
        simp [List.takeWhile, List.dropWhile, hx2, this.1, this.2.1, this.2.2]

theorem dropWhile_head_false {α : Type} (p : α → Bool) :
    ∀ (l : List α) {y : α} {ys : List α}, l.dropWhile p = y :: ys → p y = false := by
  intro l
  induction l with
  | nil => intro y ys h; simp at h
  | cons x xs ih =>
    intro y ys h
    rw [List.dropWhile_cons] at h
    by_cases hx : p x = true
    · rw [if_pos hx] at h; exact ih h
    · rw [if_neg hx] at h
      have := (List.cons.inj h).1
      rw [← this]
      simpa using hx

/-- C8 (stable priority insertion).  For every frontier and every new node,
`AStarSort` computes `f = depth + |exitRow - row| + |exitCol - col|` and yields
the frontier with the new node inserted immediately before the first existing
node whose `functionF` is strictly greater than `f` (at the tail if there is
none), all existing nodes keeping their order: the result is the longest
prefix of nodes with `functionF ≤ f`, then the new node, then the rest.  Hence,
when the frontier is ordered by `functionF`, every node behind the new node has
a strictly greater `functionF`, so that an existing node with the same
`functionF` stands before the new node and is popped first; and the result is
ordered again. -/
theorem astar_sort_stable (s : Search) (row col depth : Nat) (parent : Option Coord) :
    (s.AStarSort row col depth parent).openDeque =
      s.openDeque.takeWhile (fun x => decide (x.getFunctionF ≤
          depth + (absDiff s.exitRow row + absDiff s.exitCol col))) ++
        Coord.mk row col depth (depth + (absDiff s.exitRow row + absDiff s.exitCol col)) parent ::
        s.openDeque.dropWhile (fun x => decide (x.getFunctionF ≤
          depth + (absDiff s.exitRow row + absDiff s.exitCol col))) ∧
    (s.openDeque.Pairwise (fun a b => a.getFunctionF ≤ b.getFunctionF) →
      (∀ x ∈ s.openDeque.dropWhile (fun x => decide (x.getFunctionF ≤
          depth + (absDiff s.exitRow row + absDiff s.exitCol col))),
        depth + (absDiff s.exitRow row + absDiff s.exitCol col) < x.getFunctionF) ∧
      (s.AStarSort row col depth parent).openDeque.Pairwise
        (fun a b => a.getFunctionF ≤ b.getFunctionF)) := by
  obtain ⟨f, hf⟩ : ∃ f, f = depth + (absDiff s.exitRow row + absDiff s.exitCol col) := ⟨_, rfl⟩
  rw [← hf]
  have h1 : (s.AStarSort row col depth parent).openDeque =
      s.openDeque.takeWhile (fun x => decide (x.getFunctionF ≤ f)) ++
        Coord.mk row col depth f parent ::
        s.openDeque.dropWhile (fun x => decide (x.getFunctionF ≤ f)) := by
    unfold Search.AStarSort
    simp only [← hf]
    by_cases h0 : s.openDeque.length = 0
    · rw [if_pos h0]
      have : s.openDeque = [] := List.length_eq_zero.1 h0
      simp [this]
    · rw [if_neg h0]
      have hl := AStarSort.loop_eq f (Coord.mk row col depth f parent) s.openDeque
      cases hb : (AStarSort.loop f (Coord.mk row col depth f parent) s.openDeque).2 with
      | true => simp [hl.1 hb]
      | false =>
        have := hl.2 hb
        simp [this.1, this.2.1, this.2.2]
  refine ⟨h1, fun hsorted => ?_⟩
  have hsplit := List.takeWhile_append_dropWhile (fun x => decide (x.getFunctionF ≤ f))
    s.openDeque
  have hdrop : ∀ x ∈ s.openDeque.dropWhile (fun x => decide (x.getFunctionF ≤ f)),
      f < x.getFunctionF := by
    intro x hx
    cases hd : s.openDeque.dropWhile (fun x => decide (x.getFunctionF ≤ f)) with
    | nil => rw [hd] at hx; exact absurd hx (List.not_mem_nil _)
    | cons y ys =>
      have hy : f < y.getFunctionF := by
        have := dropWhile_head_false (fun x => decide (x.getFunctionF ≤ f)) s.openDeque hd
        simp only [decide_eq_false_iff_not, not_le] at this
        exact this
      have hs2 : (y :: ys).Pairwise (fun a b => a.getFunctionF ≤ b.getFunctionF) := by
        rw [← hsplit, hd] at hsorted
        exact (List.pairwise_append.1 hsorted).2.1
      rw [hd] at hx
      rcases List.mem_cons.1 hx with h | h
      · rw [h]; exact hy
      · exact lt_of_lt_of_le hy ((List.pairwise_cons.1 hs2).1 x h)
  refine ⟨hdrop, ?_⟩
  rw [h1]
  rw [← hsplit] at hsorted
  have hp := List.pairwise_append.1 hsorted
  rw [List.pairwise_append]
  refine ⟨hp.1, ?_, ?_⟩
  · rw [List.pairwise_cons]
    exact ⟨fun x hx => le_of_lt (hdrop x hx), hp.2.1⟩
  · intro a ha b hb
    rcases List.mem_cons.1 hb with h | h
    · rw [h]
      have := (List.mem_takeWhile_imp ha)
      simpa [Coord.getFunctionF] using this
    · exact hp.2.2 a ha b h

/-- Witness for C8: a new node with `f = 4 + 2 + 1 = 7` is put behind the two
nodes with `functionF = 7` and before the node with `functionF = 9`. -/
theorem astar_sort_stable_witness :
    (tieFrontier.AStarSort 2 1 4 none).openDeque.map
        (fun n => (n.pos, n.getFunctionF)) =
      [((2, 3), 5), ((3, 3), 7), ((1, 5), 7), ((2, 1), 7), ((4, 4), 9)] ∧
    ((∀ x ∈ tieFrontier.openDeque.dropWhile (fun x => decide (x.getFunctionF ≤
          4 + (absDiff tieFrontier.exitRow 2 + absDiff tieFrontier.exitCol 1))),
        4 + (absDiff tieFrontier.exitRow 2 + absDiff tieFrontier.exitCol 1) < x.getFunctionF) ∧
      (tieFrontier.AStarSort 2 1 4 none).openDeque.Pairwise
        (fun a b => a.getFunctionF ≤ b.getFunctionF)) :=
  ⟨by decide, (astar_sort_stable tieFrontier 2 1 4 none).2 (by decide)⟩

/-! ## Start cell with the exit value -/

theorem zeroCornerMap_start : ∃ i j, zeroCornerMap i j = START :=
  ⟨⟨23, by decide⟩, ⟨0, by decide⟩, by decide⟩

theorem zeroCorner_reset : ResetState (Search.new blankMemory zeroCornerMap) :=
  (Search.new_spec blankMemory zeroCornerMap zeroCornerMap_start).1

/-- C10 (start is goal).  For each of the three strategies and every requested
exit: if the start cell carries the requested exit value, so that the first
popped node passes the goal test, `SearchTemplate` run from a
reset state ends with `win = true` after exactly one pass (`cost = 1`,
`closedDeque` holds the start node only), in the state that the statements
before the loop and the pop of the start node produce, with `openDeque` empty
and `maxOpenQSize = 1` (`SearchImplementation` was not run), and `Print`
reports a path of length 1 that consists of the start position, and a total
cost of 0. -/
theorem start_is_goal (fl : Flags) (hfl : fl.Strategy) (exit : Int) (s : Search)
    (hs : ResetState s)
    (hgoal : s.mazeMap.get (s.selectExit exit).startRow (s.selectExit exit).startCol = exit)
    (fuel : Nat) (hfuel : 0 < fuel) :
    ∃ o root, Search.SearchTemplate fl exit fuel s = some o ∧ o.win = true ∧
      root.pos = ((s.selectExit exit).startRow, (s.selectExit exit).startCol) ∧
      root.getDepth = 0 ∧ root.getParent = none ∧
      o.state = (Search.seed fl exit s).pop root [] ∧
      o.state.cost = 1 ∧ o.state.closedDeque = [root] ∧ o.state.openDeque = [] ∧
      o.state.maxOpenQSize = 1 ∧
      o.report.path = [root] ∧ o.report.pathCost = 1 ∧ o.report.totalCost = 0 ∧
      o.report.finalClosed = 1 := by
  obtain ⟨k, rfl⟩ : ∃ k, fuel = k + 1 := ⟨fuel - 1, by omega⟩
  obtain ⟨f, hseed, _⟩ := Search.seed_eq hfl exit s hs.openEmpty
  have hf := Search.selectExit_frame exit s
  obtain ⟨root, hroot⟩ : ∃ root, root =
    Coord.mk (s.selectExit exit).startRow (s.selectExit exit).startCol 0 f none := ⟨_, rfl⟩
  have hopen : (Search.seed fl exit s).openDeque = [root] := by rw [hseed, hroot]
  have hmap : (Search.seed fl exit s).mazeMap = s.mazeMap := by rw [hseed]; exact hf.1
  have hclosed : (Search.seed fl exit s).closedDeque = [] := by
    rw [hseed]; show (s.selectExit exit).closedDeque = []; rw [hf.2.2.2.1, hs.closedEmpty]
  have hcost : (Search.seed fl exit s).cost = 0 := by
    rw [hseed]; show (s.selectExit exit).cost = 0; rw [hf.2.2.2.2.1, hs.cost0]
  have hmax : (Search.seed fl exit s).maxOpenQSize = 1 := by rw [hseed]
  have hg : (Search.seed fl exit s).mazeMap.get root.getRow root.getCol = exit := by
    rw [hmap, hroot]; exact hgoal
  have hbody : Search.loopBody fl exit (Search.seed fl exit s) root [] =
      ((Search.seed fl exit s).pop root [], true) := by
    unfold Search.loopBody
    simp only
    rw [if_pos hg]
  have hloop : Search.whileLoop fl exit (k + 1) (Search.seed fl exit s) =
      some ((Search.seed fl exit s).pop root [], true) := by
    unfold Search.whileLoop
    rw [hopen]
    simp only [hbody, if_true]
  have hlast : ((Search.seed fl exit s).pop root []).closedDeque.getLast? = some root := by
    simp [Search.pop]
  have hprint := Search.Print_eq _ hlast
  have hclimb : Coord.climb root [] = [root] := by rw [hroot]; rfl
  obtain ⟨rep, hrep, hp1, hp2, hp3, hp4⟩ : ∃ rep,
      ((Search.seed fl exit s).pop root []).Print = some rep ∧ rep.path = [root] ∧
      rep.pathCost = 1 ∧ rep.totalCost = 0 ∧ rep.finalClosed = 1 := by
    refine ⟨_, hprint, hclimb, ?_, ?_, ?_⟩
    · show (Coord.climb root []).length = 1
      rw [hclimb]; rfl
    · show (((Search.seed fl exit s).cost + 1 : Nat) : Int) - 1 = 0
      rw [hcost]; rfl
    · show ((Search.seed fl exit s).closedDeque ++ [root]).length = 1
      rw [hclosed]; rfl
  refine ⟨⟨(Search.seed fl exit s).pop root [], true, rep⟩, root, ?_, rfl, ?_, ?_, ?_, rfl,
    ?_, ?_, rfl, hmax, hp1, hp2, hp3, hp4⟩
  · unfold Search.SearchTemplate
    rw [hloop]
    simp only
    rw [hrep]
  · rw [hroot]; rfl
  · rw [hroot]; rfl
  · rw [hroot]; rfl
  · show (Search.seed fl exit s).cost + 1 = 1
    rw [hcost]
  · show (Search.seed fl exit s).closedDeque ++ [root] = [root]
    rw [hclosed]; rfl

/-- Witness for C10: on `zeroCornerMap` the start cell of a `CORNER` run, the
bottom left corner, carries the value `CORNER`. -/
theorem start_is_goal_witness :
    ∃ o root, Search.SearchTemplate asFlags CORNER 626
        (Search.new blankMemory zeroCornerMap) = some o ∧ o.win = true ∧
      root.pos = (((Search.new blankMemory zeroCornerMap).selectExit CORNER).startRow,
        ((Search.new blankMemory zeroCornerMap).selectExit CORNER).startCol) ∧
      root.getDepth = 0 ∧ root.getParent = none ∧
      o.state = (Search.seed asFlags CORNER (Search.new blankMemory zeroCornerMap)).pop root [] ∧
      o.state.cost = 1 ∧ o.state.closedDeque = [root] ∧ o.state.openDeque = [] ∧
      o.state.maxOpenQSize = 1 ∧
      o.report.path = [root] ∧ o.report.pathCost = 1 ∧ o.report.totalCost = 0 ∧
      o.report.finalClosed = 1 :=
  start_is_goal asFlags asFlags_strategy CORNER
    (Search.new blankMemory zeroCornerMap) zeroCorner_reset
    (by rw [(Search.new_spec blankMemory zeroCornerMap zeroCornerMap_start).2.1]; decide)
    626 (by decide)

/-! ## What a run leaves unchanged -/

/-- The statements before the loop keep the layout and the coordinates
recorded by the constructor. -/
theorem Search.seed_frame {fl : Flags} (hfl : fl.Strategy) (exit : Int) (s : Search)
    (ho : s.openDeque = []) :
    (Search.seed fl exit s).mazeMap = s.mazeMap ∧
    (Search.seed fl exit s).startE1E2Row = s.startE1E2Row ∧
    (Search.seed fl exit s).startE1E2Col = s.startE1E2Col ∧
    (Search.seed fl exit s).exitE1Row = s.exitE1Row ∧
    (Search.seed fl exit s).exitE1Col = s.exitE1Col ∧
    (Search.seed fl exit s).exitE2Row = s.exitE2Row ∧
    (Search.seed fl exit s).exitE2Col = s.exitE2Col := by
  obtain ⟨f, h, _⟩ := Search.seed_eq hfl exit s ho
  have hf := Search.selectExit_frame exit s
  rw [h]
  exact ⟨hf.1, hf.2.2.2.2.2.1, hf.2.2.2.2.2.2.1, hf.2.2.2.2.2.2.2.1, hf.2.2.2.2.2.2.2.2.1,
    hf.2.2.2.2.2.2.2.2.2.1, hf.2.2.2.2.2.2.2.2.2.2⟩

/-- The loop keeps the layout and all coordinate members. -/
theorem Search.Reached.fixed {fl : Flags} (hfl : fl.Strategy) {exit : Int}
    (hexit : exit = E1 ∨ exit = E2 ∨ exit = CORNER) {s0 : Search} (hs : ResetState s0)
    {s : Search} {w : Bool} (h : Search.Reached fl exit s0 s w) :
    Fixed (Search.seed fl exit s0) s := by
  induction h with
  | seed => exact Fixed.refl _
  | step hr ho ih =>
    rename_i sp front rest
    have hc := Core.reached_core hfl hexit hs hr
    have hfin := hc.inb front (Search.mem_nodes.2 (Or.inr (by rw [ho]; simp)))
    exact ih.trans (Search.loopBody_frame hfl exit sp front rest hfin.1 hfin.2).1

/-- The statements before the loop give the same state for two objects that
differ in `startRow`, `startCol`, `exitRow`, `exitCol` and `maxOpenQSize`
only. -/
theorem Search.seed_congr (fl : Flags) {exit : Int}
    (hexit : exit = E1 ∨ exit = E2 ∨ exit = CORNER) {s t : Search}
    (h1 : t.mazeMap = s.mazeMap) (h2 : t.mazeRoute = s.mazeRoute)
    (h3 : t.openDeque = s.openDeque) (h4 : t.closedDeque = s.closedDeque)
    (h5 : t.cost = s.cost) (h6 : t.startE1E2Row = s.startE1E2Row)
    (h7 : t.startE1E2Col = s.startE1E2Col) (h8 : t.exitE1Row = s.exitE1Row)
    (h9 : t.exitE1Col = s.exitE1Col) (h10 : t.exitE2Row = s.exitE2Row)
    (h11 : t.exitE2Col = s.exitE2Col) :
    Search.seed fl exit t = Search.seed fl exit s := by
  cases s
  cases t
  simp only at h1 h2 h3 h4 h5 h6 h7 h8 h9 h10 h11
  subst h1 h2 h3 h4 h5 h6 h7 h8 h9 h10 h11
  have e21 : E2 ≠ E1 := by decide
  have ec1 : CORNER ≠ E1 := by decide
  have ec2 : CORNER ≠ E2 := by decide
  rcases fl with ⟨_ | _, _ | _, _ | _⟩ <;> rcases hexit with h | h | h <;> subst h <;>
    simp [Search.seed, Search.selectExit, e21, ec1, ec2]

/-- C9 (reset idempotence).  For every layout, every strategy and every exit
in `E1`, `E2`, `CORNER`: `SearchTemplate` run from a reset state returns, and
`SearchTemplate` run again with the same strategy and exit after `CleanUp`
returns the same report (the same path, path cost, total cost, maximum and
final size of `openDeque`, final size of `closedDeque`), the same `win` and
the same final state. -/
theorem reset_idempotent (fl : Flags) (hfl : fl.Strategy) (exit : Int)
    (hexit : exit = E1 ∨ exit = E2 ∨ exit = CORNER) (s : Search) (hs : ResetState s)
    (fuel : Nat) (hfuel : BOARDSIZE * BOARDSIZE < fuel) :
    ∃ o1 o2, Search.SearchTemplate fl exit fuel s = some o1 ∧
      Search.SearchTemplate fl exit fuel o1.state.CleanUp = some o2 ∧
      o2.report = o1.report ∧ o2.win = o1.win ∧ o2.state = o1.state := by
  obtain ⟨o, last, h1, h2, h3, h4, h5⟩ := Search.SearchTemplate_some hfl hexit hs hfuel
  have hfix := Search.Reached.fixed hfl hexit hs h3
  have hsf := Search.seed_frame hfl exit s hs.openEmpty
  have hseed : Search.seed fl exit o.state.CleanUp = Search.seed fl exit s := by
    apply Search.seed_congr fl hexit
    · show o.state.mazeMap = s.mazeMap
      rw [hfix.mazeMap, hsf.1]
    · show (fun i j => o.state.mazeMap i j) = s.mazeRoute
      rw [hs.route, ← hsf.1, ← hfix.mazeMap]
    · exact hs.openEmpty.symm
    · exact hs.closedEmpty.symm
    · exact hs.cost0.symm
    · show o.state.startE1E2Row = s.startE1E2Row
      rw [hfix.startE1E2Row, hsf.2.1]
    · show o.state.startE1E2Col = s.startE1E2Col
      rw [hfix.startE1E2Col, hsf.2.2.1]
    · show o.state.exitE1Row = s.exitE1Row
      rw [hfix.exitE1Row, hsf.2.2.2.1]
    · show o.state.exitE1Col = s.exitE1Col
      rw [hfix.exitE1Col, hsf.2.2.2.2.1]
    · show o.state.exitE2Row = s.exitE2Row
      rw [hfix.exitE2Row, hsf.2.2.2.2.2.1]
    · show o.state.exitE2Col = s.exitE2Col
      rw [hfix.exitE2Col, hsf.2.2.2.2.2.2]
  refine ⟨o, o, h1, ?_, rfl, rfl, rfl⟩
  unfold Search.SearchTemplate
  rw [hseed]
  unfold Search.SearchTemplate at h1
  exact h1

/-- Witness for C9: the depth first run for `E1` on `detourMap`, twice. -/
theorem reset_idempotent_witness :
    ∃ o1 o2, Search.SearchTemplate dfsFlags E1 626 (Search.new blankMemory detourMap) = some o1 ∧
      Search.SearchTemplate dfsFlags E1 626 o1.state.CleanUp = some o2 ∧
      o2.report = o1.report ∧ o2.win = o1.win ∧ o2.state = o1.state :=
  reset_idempotent dfsFlags dfsFlags_strategy E1 (Or.inl rfl)
    (Search.new blankMemory detourMap) detour_reset 626 (by decide)

/-! ## The goal test -/

/-- In a run the layout stays that of the initial state. -/
theorem Search.Reached.mazeMap_eq {fl : Flags} (hfl : fl.Strategy) {exit : Int}
    (hexit : exit = E1 ∨ exit = E2 ∨ exit = CORNER) {s0 : Search} (hs : ResetState s0)
    {s : Search} {w : Bool} (h : Search.Reached fl exit s0 s w) : s.mazeMap = s0.mazeMap := by
  rw [(Search.Reached.fixed hfl hexit hs h).mazeMap,
    (Search.seed_frame hfl exit s0 hs.openEmpty).1]

/-- Whenever the loop condition is evaluated, no node of `closedDeque` is on a
cell with the requested exit value (for every layout). -/
theorem Search.Reached.closed_not_goal {fl : Flags} (hfl : fl.Strategy) {exit : Int}
    (hexit : exit = E1 ∨ exit = E2 ∨ exit = CORNER) {s0 : Search} (hs : ResetState s0)
    {s : Search} {w : Bool} (h : Search.Reached fl exit s0 s w) :
    w = false → ∀ n ∈ s.closedDeque, s0.mazeMap.get n.getRow n.getCol ≠ exit := by
  induction h with
  | seed =>
    intro _ n hn
    obtain ⟨f, h, _⟩ := Search.seed_eq hfl exit s0 hs.openEmpty
    rw [h] at hn
    have hn2 : n ∈ (s0.selectExit exit).closedDeque := hn
    rw [(Search.selectExit_frame exit s0).2.2.2.1, hs.closedEmpty] at hn2
    exact absurd hn2 (List.not_mem_nil _)
  | step hr ho ih =>
    rename_i sp front rest
    intro hw n hn
    have hc := Core.reached_core hfl hexit hs hr
    have hfin := hc.inb front (Search.mem_nodes.2 (Or.inr (by rw [ho]; simp)))
    rw [(Search.loopBody_frame hfl exit sp front rest hfin.1 hfin.2).2.1] at hn
    rcases List.mem_append.1 hn with h | h
    · exact ih rfl n h
    · rw [List.mem_singleton.1 h]
      intro hg
      have := (Search.loopBody_win fl exit sp front rest).1.2
        (by rw [Search.Reached.mazeMap_eq hfl hexit hs hr]; exact hg)
      rw [hw] at this
      exact absurd this (by decide)

/-- C5, as amended (goal test).  For every requested goal (`E1`, `E2`,
`CORNER`), every strategy and every layout, in a run from a reset state: a pass
through the loop body ends the search with `win = true` exactly when the layout
value of the cell of the node popped from `openDeque` equals the requested
exit value; the coordinates `exitRow`, `exitCol` are not used by the test.  So
a run ends with `win = true` exactly if a node on a cell with the exit value was
popped; and when the layout carries the exit value at the cell
`(exitRow, exitCol)` and nowhere else, exactly if the node at
`(exitRow, exitCol)` was popped. -/
theorem goal_test_by_value (fl : Flags) (hfl : fl.Strategy) (exit : Int)
    (hexit : exit = E1 ∨ exit = E2 ∨ exit = CORNER) (s0 : Search) (hs : ResetState s0) :
    (∀ s front rest, Search.Reached fl exit s0 s false → s.openDeque = front :: rest →
      ((Search.loopBody fl exit s front rest).2 = true ↔
        s0.mazeMap.get front.getRow front.getCol = exit)) ∧
    (∀ fuel, BOARDSIZE * BOARDSIZE < fuel →
      ∃ o, Search.SearchTemplate fl exit fuel s0 = some o ∧
        (o.win = true ↔ ∃ n ∈ o.state.closedDeque, s0.mazeMap.get n.getRow n.getCol = exit) ∧
        ((∀ r c, r < BOARDSIZE → c < BOARDSIZE →
            (s0.mazeMap.get r c = exit ↔ (r, c) = (o.state.exitRow, o.state.exitCol))) →
          (o.win = true ↔
            ∃ n ∈ o.state.closedDeque, n.pos = (o.state.exitRow, o.state.exitCol)))) := by
  constructor
  · intro s front rest hr _
    rw [← Search.Reached.mazeMap_eq hfl hexit hs hr]
    exact (Search.loopBody_win fl exit s front rest).1
  · intro fuel hfuel
    obtain ⟨o, last, h1, h2, h3, h4, h5⟩ := Search.SearchTemplate_some hfl hexit hs hfuel
    have hc := Core.reached_core hfl hexit hs h3
    have hval : o.win = true ↔
        ∃ n ∈ o.state.closedDeque, s0.mazeMap.get n.getRow n.getCol = exit := by
      rcases (Search.whileLoop_reached fuel _ _ Search.Reached.seed h2).2 with
        ⟨hw, _⟩ | ⟨hw, sp, front, rest, hr, hsp, hg, hst⟩
      · simp only at hw
        constructor
        · intro h; rw [hw] at h; exact absurd h (by decide)
        · rintro ⟨n, hn, hg⟩
          exact absurd hg (Search.Reached.closed_not_goal hfl hexit hs h3 hw n hn)
      · simp only at hw hst
        constructor
        · intro _
          refine ⟨front, by rw [hst]; simp [Search.pop], ?_⟩
          rw [← Search.Reached.mazeMap_eq hfl hexit hs hr]
          exact hg
        · intro _; exact hw
    refine ⟨o, h1, hval, fun huniq => ?_⟩
    rw [hval]
    constructor
    · rintro ⟨n, hn, hg⟩
      have hin := hc.inb n (Search.mem_nodes.2 (Or.inl hn))
      exact ⟨n, hn, (huniq n.getRow n.getCol hin.1 hin.2).1 hg⟩
    · rintro ⟨n, hn, hp⟩
      have hin := hc.inb n (Search.mem_nodes.2 (Or.inl hn))
      exact ⟨n, hn, (huniq n.getRow n.getCol hin.1 hin.2).2 hp⟩

/-- Witness for C5 as amended: the A* run for `E1` on `detourMap`. -/
theorem goal_test_by_value_witness :
    (∀ s front rest, Search.Reached asFlags E1 (Search.new blankMemory detourMap) s false →
      s.openDeque = front :: rest →
      ((Search.loopBody asFlags E1 s front rest).2 = true ↔
        (Search.new blankMemory detourMap).mazeMap.get front.getRow front.getCol = E1)) ∧
    (∀ fuel, BOARDSIZE * BOARDSIZE < fuel →
      ∃ o, Search.SearchTemplate asFlags E1 fuel (Search.new blankMemory detourMap) = some o ∧
        (o.win = true ↔ ∃ n ∈ o.state.closedDeque,
          (Search.new blankMemory detourMap).mazeMap.get n.getRow n.getCol = E1) ∧
        ((∀ r c, r < BOARDSIZE → c < BOARDSIZE →
            ((Search.new blankMemory detourMap).mazeMap.get r c = E1 ↔
              (r, c) = (o.state.exitRow, o.state.exitCol))) →
          (o.win = true ↔
            ∃ n ∈ o.state.closedDeque, n.pos = (o.state.exitRow, o.state.exitCol)))) :=
  goal_test_by_value asFlags asFlags_strategy E1 (Or.inl rfl)
    (Search.new blankMemory detourMap) detour_reset

/-- Counterexample to C5 as stated: in the breadth first run for `CORNER` on
`cornerMap`, a layout of `FREE`, `START`, `BLOCK`, `E1`, `E2` cells, the
requested exit cell is `(exitRow, exitCol) = (0, 24)` and the node at `(0, 24)`
is popped (it is the last node of `closedDeque`), but the run ends with
`win = false`. -/
theorem corner_popped_not_solved :
    (Search.SearchTemplate bfsFlags CORNER 626 (Search.new blankMemory cornerMap)).map
      (fun o => (o.win, o.state.closedDeque.getLast?.map Coord.pos,
        o.state.exitRow, o.state.exitCol)) = some (false, some (0, 24), 0, 24) := by
  decide!

/-! ## A* against breadth first search -/

/-- Counterexample to C2 as stated: on `detourMap`, a layout of `FREE`,
`START`, `BLOCK`, `E1`, `E2` cells with one `START`, one `E1` and one `E2` cell,
both runs for `E1` are solved, the breadth first path has 8 nodes and the A*
path has 10. -/
theorem astar_longer_than_bfs :
    (Search.SearchTemplate bfsFlags E1 626 (Search.new blankMemory detourMap)).map
      (fun o => (o.win, o.report.path.length)) = some (true, 8) ∧
    (Search.SearchTemplate asFlags E1 626 (Search.new blankMemory detourMap)).map
      (fun o => (o.win, o.report.path.length)) = some (true, 10) := by
  decide!

/-- C2, as amended.  For every layout whose cells are all `FREE`, `START`,
`BLOCK`, `E1` or `E2` and every exit in `E1`, `E2`, both run from a reset state:
the A* run of `SearchTemplate` is solved exactly when the breadth first run is
solved, and then the A* path is at least as long as the breadth first path. -/
theorem astar_at_least_bfs (s : Search) (hs : ResetState s) (hl : LayoutOK s.mazeMap)
    (exit : Int) (hexit : exit = E1 ∨ exit = E2) (fuel : Nat)
    (hfuel : BOARDSIZE * BOARDSIZE < fuel) :
    ∃ oa ob, Search.SearchTemplate asFlags exit fuel s = some oa ∧
      Search.SearchTemplate bfsFlags exit fuel s = some ob ∧
      oa.win = ob.win ∧
      (oa.win = true → ob.report.path.length ≤ oa.report.path.length) := by
  have hex := three_of_two hexit
  obtain ⟨oa, a1, a2, a3⟩ := Search.SearchTemplate_run asFlags_strategy hex hs hl hfuel
  obtain ⟨ob, b1, b2, b3⟩ := Search.SearchTemplate_run bfsFlags_strategy hex hs hl hfuel
  refine ⟨oa, ob, a1, b1, ?_⟩
  rcases a3 with ⟨aw, ao, ai⟩ | ⟨aw, sa, fa, ra, ai, ar, ao, ag, ast, apath, _⟩
  · rcases b3 with ⟨bw, bo, bi⟩ | ⟨bw, sb, fb, rb, bi, br, bo, bg, bst, bpath, _⟩
    · exact ⟨by rw [aw, bw], fun h => by rw [aw] at h; exact absurd h (by decide)⟩
    · have hgc := bi.track.chain fb (Search.mem_nodes.2 (Or.inr (by rw [bo]; simp)))
      exact absurd bg (ai.exhausted ao (GoodChain.reach fb hgc))
  · have hga := ai.track.chain fa (Search.mem_nodes.2 (Or.inr (by rw [ao]; simp)))
    rcases b3 with ⟨bw, bo, bi⟩ | ⟨bw, sb, fb, rb, bi, br, bo, bg, bst, bpath, _⟩
    · exact absurd ag (bi.exhausted bo (GoodChain.reach fa hga))
    · refine ⟨by rw [aw, bw], fun _ => ?_⟩
      have hgb := bi.track.chain fb (Search.mem_nodes.2 (Or.inr (by rw [bo]; simp)))
      have hb := BfsInv.reached_bfs hex hs hl br rfl
      have hmin := (hb.minSteps bi bo bg).2 fa.getDepth fa.pos (GoodChain.reach fa hga) ag
      rw [apath, bpath, GoodChain.length fa hga, GoodChain.length fb hgb]
      omega

/-- Witness for C2 as amended: the runs for `E1` on `detourMap`. -/
theorem astar_at_least_bfs_witness :
    ∃ oa ob, Search.SearchTemplate asFlags E1 626 (Search.new blankMemory detourMap) = some oa ∧
      Search.SearchTemplate bfsFlags E1 626 (Search.new blankMemory detourMap) = some ob ∧
      oa.win = ob.win ∧
      (oa.win = true → ob.report.path.length ≤ oa.report.path.length) :=
  astar_at_least_bfs (Search.new blankMemory detourMap) detour_reset detour_layout E1
    (Or.inl rfl) 626 (by decide)

/-! ## One expansion as a whole -/

/-- The four guarded blocks of `SearchImplementation` are `tryCell` on the
neighbours on the board, in the order left, up, right, down. -/
theorem Search.SearchImplementation_eq (fl : Flags) (s : Search) (row col : Nat) :
    Search.SearchImplementation fl s row col =
      { s.tryCells fl (s.backDepth + 1) s.closedDeque.getLast? (neighbours row col) with
        maxOpenQSize :=
          if (s.tryCells fl (s.backDepth + 1) s.closedDeque.getLast?
                (neighbours row col)).openDeque.length >
              (s.tryCells fl (s.backDepth + 1) s.closedDeque.getLast?
                (neighbours row col)).maxOpenQSize
          then (s.tryCells fl (s.backDepth + 1) s.closedDeque.getLast?
                (neighbours row col)).openDeque.length
          else (s.tryCells fl (s.backDepth + 1) s.closedDeque.getLast?
                (neighbours row col)).maxOpenQSize } := by
  have gl : (col : Int) - 1 > -1 ↔ 1 ≤ col := by omega
  have gu : (row : Int) - 1 > -1 ↔ 1 ≤ row := by omega
  unfold Search.SearchImplementation Search.tryCells neighbours
  simp only [gl, gu]
  by_cases h1 : 1 ≤ col <;> by_cases h2 : 1 ≤ row <;> by_cases h3 : col + 1 < BOARDSIZE <;>
    by_cases h4 : row + 1 < BOARDSIZE <;>
    simp only [h1, h2, h3, h4, if_true, if_false, List.foldl_cons, List.foldl_nil,
      List.cons_append, List.nil_append, List.append_nil]

/-- The neighbours are distinct cells of the board. -/
theorem neighbours_spec {row col : Nat} (hrow : row < BOARDSIZE) (hcol : col < BOARDSIZE) :
    (neighbours row col).Nodup ∧
    (∀ q ∈ neighbours row col,
      q.1 < BOARDSIZE ∧ q.2 < BOARDSIZE ∧ Adjacent (row, col) q) ∧
    (∀ q, Adjacent (row, col) q → q.1 < BOARDSIZE → q.2 < BOARDSIZE →
      q ∈ neighbours row col) := by
  unfold neighbours
  refine ⟨?_, ?_, ?_⟩
  · by_cases h1 : 1 ≤ col <;> by_cases h2 : 1 ≤ row <;> by_cases h3 : col + 1 < BOARDSIZE <;>
      by_cases h4 : row + 1 < BOARDSIZE <;>
      simp [h1, h2, h3, h4] <;> omega
  · intro q hq
    simp only [List.mem_append] at hq
    rcases hq with hq | hq | hq | hq
    · by_cases h1 : 1 ≤ col
      · simp only [h1, if_true, List.mem_singleton] at hq
        subst hq
        exact ⟨hrow, by simp only; omega, Or.inl ⟨rfl, Or.inr (by simp only; omega)⟩⟩
      · simp [h1] at hq
    · by_cases h1 : 1 ≤ row
      · simp only [h1, if_true, List.mem_singleton] at hq
        subst hq
        exact ⟨by simp only; omega, hcol, Or.inr ⟨rfl, Or.inr (by simp only; omega)⟩⟩
      · simp [h1] at hq
    · by_cases h1 : col + 1 < BOARDSIZE
      · simp only [h1, if_true, List.mem_singleton] at hq
        subst hq
        exact ⟨hrow, h1, Or.inl ⟨rfl, Or.inl rfl⟩⟩
      · simp [h1] at hq
    · by_cases h1 : row + 1 < BOARDSIZE
      · simp only [h1, if_true, List.mem_singleton] at hq
        subst hq
        exact ⟨h1, hcol, Or.inr ⟨rfl, Or.inl rfl⟩⟩
      · simp [h1] at hq
  · rintro ⟨qr, qc⟩ hadj hq1 hq2
    simp only [Adjacent] at hadj
    simp only at hq1 hq2
    simp only [List.mem_append]
    rcases hadj with ⟨h1, h2 | h2⟩ | ⟨h1, h2 | h2⟩
    · subst h1; subst h2
      right; right; left
      simp [hq2]
    · subst h1
      left
      have h3 : 1 ≤ col := by omega
      have h4 : qc = col - 1 := by omega
      simp [h3, h4]
    · subst h1; subst h2
      right; right; right
      simp [hq1]
    · subst h1
      right; left
      have h3 : 1 ≤ row := by omega
      have h4 : qr = row - 1 := by omega
      simp [h3, h4]

/-- Function `tryCell` on one cell does not change whether another cell is
eligible. -/
theorem Search.tryCell_eligible {fl : Flags} (hfl : fl.Strategy) (s : Search) (r c d : Nat)
    (p : Option Coord) {q : Nat × Nat} (hq : q ≠ (r, c)) :
    (s.tryCell fl r c d p).Eligible q ↔ s.Eligible q := by
  rcases Search.tryCell_cases hfl s r c d p with ⟨_, h⟩ | ⟨_, f, l1, l2, _, h⟩
  · rw [h]
  · rw [h]
    unfold Search.Eligible
    show (s.mazeRoute.set r c OPEN).get q.1 q.2 ≠ BLOCK ∧ _ ↔ _
    rw [Grid.get_set_ne _ _ (show (q.1, q.2) ≠ (r, c) from hq)]

theorem Search.tryCells_filter {fl : Flags} (hfl : fl.Strategy) (s : Search) (r c d : Nat)
    (p : Option Coord) {qs : List (Nat × Nat)} (hq : (r, c) ∉ qs) :
    qs.filter (fun q => decide ((s.tryCell fl r c d p).Eligible q)) =
      qs.filter (fun q => decide (s.Eligible q)) := by
  apply List.filter_congr
  intro q hmem
  have hne : q ≠ (r, c) := fun h => hq (h ▸ hmem)
  simp only [Search.tryCell_eligible hfl s r c d p hne]

/-- The overlay after `tryCell` on a list of distinct cells of the board:
exactly the eligible cells of the list have become `OPEN`. -/
theorem Search.tryCells_route {fl : Flags} (hfl : fl.Strategy) (d : Nat) (p : Option Coord) :
    ∀ (cells : List (Nat × Nat)) (s : Search), cells.Nodup →
      (∀ q ∈ cells, q.1 < BOARDSIZE ∧ q.2 < BOARDSIZE) →
      ∀ r c, (s.tryCells fl d p cells).mazeRoute.get r c =
        if (r, c) ∈ cells.filter (fun q => decide (s.Eligible q)) then OPEN
        else s.mazeRoute.get r c := by
  intro cells
  induction cells with
  | nil => intro s _ _ r c; simp [Search.tryCells]
  | cons q qs ih =>
    intro s hnd hin r c
    obtain ⟨hq, hnd2⟩ := List.nodup_cons.1 hnd
    have hin2 : ∀ q ∈ qs, q.1 < BOARDSIZE ∧ q.2 < BOARDSIZE :=
      fun x hx => hin x (List.mem_cons_of_mem _ hx)
    have hqin := hin q (List.mem_cons_self _ _)
    have ih2 := ih (s.tryCell fl q.1 q.2 d p) hnd2 hin2 r c
    rw [Search.tryCells_filter hfl s q.1 q.2 d p hq] at ih2
    show ((s.tryCell fl q.1 q.2 d p).tryCells fl d p qs).mazeRoute.get r c = _
    rw [ih2, List.filter_cons]
    rcases Search.tryCell_cases hfl s q.1 q.2 d p with ⟨hne, h⟩ | ⟨he, f, l1, l2, _, h⟩
    · have hne2 : ¬ s.Eligible q := hne
      simp only [hne2, decide_False, Bool.false_eq_true, if_false, h]
    · have he2 : s.Eligible q := he
      simp only [he2, decide_True, if_true, List.mem_cons, h]
      by_cases hrc : (r, c) = q
      · have hmem : (r, c) ∉ qs.filter (fun q => decide (s.Eligible q)) := by
          intro hm
          exact hq (hrc ▸ (List.mem_filter.1 hm).1)
        rw [if_neg hmem, if_pos (Or.inl hrc)]
        have h1 : r = q.1 := congrArg Prod.fst hrc
        have h2 : c = q.2 := congrArg Prod.snd hrc
        rw [h1, h2]
        exact Grid.get_set_same _ _ hqin.1 hqin.2
      · by_cases hm : (r, c) ∈ qs.filter (fun q => decide (s.Eligible q))
        · rw [if_pos hm, if_pos (Or.inr hm)]
        · rw [if_neg hm, if_neg (by tauto)]
          exact Grid.get_set_ne _ _ (show (r, c) ≠ (q.1, q.2) from hrc)

/-- In depth first mode `tryCell` puts the new node at the front. -/
theorem Search.tryCell_dfs (s : Search) (r c d : Nat) (p : Option Coord) :
    s.tryCell dfsFlags r c d p =
      if s.Eligible (r, c) then
        { s with mazeRoute := s.mazeRoute.set r c OPEN,
                 openDeque := Coord.mk r c d 0 p :: s.openDeque }
      else s := by
  unfold Search.tryCell Search.Eligible
  split <;> simp [Search.pushNode, dfsFlags, Flags.initial, SwitchSearch]

/-- In breadth first mode `tryCell` puts the new node at the back. -/
theorem Search.tryCell_bfs_eq (s : Search) (r c d : Nat) (p : Option Coord) :
    s.tryCell bfsFlags r c d p =
      if s.Eligible (r, c) then
        { s with mazeRoute := s.mazeRoute.set r c OPEN,
                 openDeque := s.openDeque ++ [Coord.mk r c d 0 p] }
      else s := by
  unfold Search.tryCell Search.Eligible
  split <;> simp [Search.pushNode, bfsFlags, Flags.initial]

/-- In A* mode `tryCell` inserts the new node with `AStarSort`. -/
theorem Search.tryCell_as (s : Search) (r c d : Nat) (p : Option Coord) :
    s.tryCell asFlags r c d p =
      if s.Eligible (r, c) then
        Search.AStarSort { s with mazeRoute := s.mazeRoute.set r c OPEN } r c d p
      else s := by
  unfold Search.tryCell Search.Eligible
  split <;> simp [Search.pushNode, asFlags, Flags.initial, SwitchSearch]

/-- Breadth first mode: the frontier after `tryCell` on a list of distinct
cells is the old frontier followed by the nodes of the eligible cells, in the
order of the list. -/
theorem Search.tryCells_open_bfs (d : Nat) (p : Option Coord) :
    ∀ (cells : List (Nat × Nat)) (s : Search), cells.Nodup →
      (s.tryCells bfsFlags d p cells).openDeque =
        s.openDeque ++ (cells.filter (fun q => decide (s.Eligible q))).map
          (fun q => Coord.mk q.1 q.2 d 0 p) := by
  intro cells
  induction cells with
  | nil => intro s _; simp [Search.tryCells]
  | cons q qs ih =>
    intro s hnd
    obtain ⟨hq, hnd2⟩ := List.nodup_cons.1 hnd
    have ih2 := ih (s.tryCell bfsFlags q.1 q.2 d p) hnd2
    rw [Search.tryCells_filter bfsFlags_strategy s q.1 q.2 d p hq] at ih2
    show ((s.tryCell bfsFlags q.1 q.2 d p).tryCells bfsFlags d p qs).openDeque = _
    rw [ih2, List.filter_cons, Search.tryCell_bfs_eq]
    by_cases he : s.Eligible q
    · have he2 : s.Eligible (q.1, q.2) := he
      simp [he, he2]
    · have he2 : ¬ s.Eligible (q.1, q.2) := he
      simp [he, he2]

/-- Depth first mode: the frontier after `tryCell` on a list of distinct cells
is the nodes of the eligible cells in reverse order, followed by the old
frontier. -/
theorem Search.tryCells_open_dfs (d : Nat) (p : Option Coord) :
    ∀ (cells : List (Nat × Nat)) (s : Search), cells.Nodup →
      (s.tryCells dfsFlags d p cells).openDeque =
        ((cells.filter (fun q => decide (s.Eligible q))).map
          (fun q => Coord.mk q.1 q.2 d 0 p)).reverse ++ s.openDeque := by
  intro cells
  induction cells with
  | nil => intro s _; simp [Search.tryCells]
  | cons q qs ih =>
    intro s hnd
    obtain ⟨hq, hnd2⟩ := List.nodup_cons.1 hnd
    have ih2 := ih (s.tryCell dfsFlags q.1 q.2 d p) hnd2
    rw [Search.tryCells_filter dfsFlags_strategy s q.1 q.2 d p hq] at ih2
    show ((s.tryCell dfsFlags q.1 q.2 d p).tryCells dfsFlags d p qs).openDeque = _
    rw [ih2, List.filter_cons, Search.tryCell_dfs]
    by_cases he : s.Eligible q
    · have he2 : s.Eligible (q.1, q.2) := he
      simp [he, he2]
    · have he2 : ¬ s.Eligible (q.1, q.2) := he
      simp [he, he2]

/-- Every strategy: the frontier after `tryCell` on a list of distinct cells is
the old frontier with one new node for each eligible cell put in, each with the
given depth and parent; nothing but `mazeRoute` and `openDeque` is written. -/
theorem Search.tryCells_open {fl : Flags} (hfl : fl.Strategy) (d : Nat) (p : Option Coord) :
    ∀ (cells : List (Nat × Nat)) (s : Search), cells.Nodup →
      (∃ new : List Coord,
        new.map Coord.pos = cells.filter (fun q => decide (s.Eligible q)) ∧
        (∀ n ∈ new, n.getDepth = d ∧ n.getParent = p) ∧
        (s.tryCells fl d p cells).openDeque.Perm (s.openDeque ++ new)) ∧
      Fixed s (s.tryCells fl d p cells) ∧
      (s.tryCells fl d p cells).closedDeque = s.closedDeque ∧
      (s.tryCells fl d p cells).cost = s.cost ∧
      (s.tryCells fl d p cells).maxOpenQSize = s.maxOpenQSize := by
  intro cells
  induction cells with
  | nil =>
    intro s _
    exact ⟨⟨[], by simp, by simp, by simp [Search.tryCells]⟩, Fixed.refl s, rfl, rfl, rfl⟩
  | cons q qs ih =>
    intro s hnd
    obtain ⟨hq, hnd2⟩ := List.nodup_cons.1 hnd
    obtain ⟨⟨new, h1, h2, h3⟩, h4, h5, h6, h7⟩ := ih (s.tryCell fl q.1 q.2 d p) hnd2
    rw [Search.tryCells_filter hfl s q.1 q.2 d p hq] at h1
    have hfr := Search.tryCell_frame hfl s q.1 q.2 d p
    have hstep : (s.tryCells fl d p (q :: qs)) =
        ((s.tryCell fl q.1 q.2 d p).tryCells fl d p qs) := rfl
    rw [hstep]
    refine ⟨?_, hfr.1.trans h4, by rw [h5, hfr.2.1], by rw [h6, hfr.2.2.1],
      by rw [h7, hfr.2.2.2]⟩
    rw [List.filter_cons]
    rcases Search.tryCell_cases hfl s q.1 q.2 d p with ⟨hne, h⟩ | ⟨he, f, l1, l2, hl, h⟩
    · have hne2 : ¬ s.Eligible q := hne
      have ho : (s.tryCell fl q.1 q.2 d p).openDeque = s.openDeque := by rw [h]
      rw [ho] at h3
      refine ⟨new, ?_, h2, h3⟩
      simp only [hne2, decide_False, Bool.false_eq_true, if_false]
      exact h1
    · have he2 : s.Eligible q := he
      have ho : (s.tryCell fl q.1 q.2 d p).openDeque =
          l1 ++ Coord.mk q.1 q.2 d f p :: l2 := by rw [h]
      rw [ho] at h3
      refine ⟨Coord.mk q.1 q.2 d f p :: new, ?_, ?_, ?_⟩
      · simp only [he2, decide_True, if_true, List.map_cons, h1]
        rfl
      · intro n hn
        rcases List.mem_cons.1 hn with h8 | h8
        · rw [h8]; exact ⟨rfl, rfl⟩
        · exact h2 n h8
      · refine h3.trans ?_
        rw [hl]
        have e1 : (l1 ++ Coord.mk q.1 q.2 d f p :: l2) ++ new =
            l1 ++ Coord.mk q.1 q.2 d f p :: (l2 ++ new) := by simp
        have e2 : l1 ++ (l2 ++ new) = (l1 ++ l2) ++ new := by simp
        rw [e1]
        refine List.perm_middle.trans ?_
        rw [e2]
        exact List.perm_middle.symm

/-- A pass of the loop body that does not find the goal runs
`SearchImplementation` in the state after the pop, where `closedDeque.back()`
is the popped node. -/
theorem Search.loopBody_expand (fl : Flags) {exit : Int} (s : Search) (front : Coord)
    (rest : List Coord) (hg : s.mazeMap.get front.getRow front.getCol ≠ exit) :
    (Search.loopBody fl exit s front rest).2 = false ∧
    (Search.loopBody fl exit s front rest).1 =
      Search.SearchImplementation fl (s.pop front rest) front.getRow front.getCol ∧
    (s.pop front rest).closedDeque.getLast? = some front ∧
    (s.pop front rest).backDepth = front.getDepth := by
  have hb := Search.backDepth_append s front rest
  unfold Search.loopBody
  simp only
  rw [if_neg hg]
  exact ⟨rfl, rfl, hb.2, hb.1⟩

/-- The down neighbour, when eligible, is the last cell of the expansion
list. -/
theorem Search.expansion_getLast (s : Search) {row col : Nat} (hrow : row < BOARDSIZE)
    (hcol : col < BOARDSIZE) (h : (row + 1, col) ∈ s.expansion row col) :
    (s.expansion row col).getLast? = some (row + 1, col) := by
  have hmem := List.mem_filter.1 h
  have h4 : row + 1 < BOARDSIZE := ((neighbours_spec hrow hcol).2.1 _ hmem.1).1
  unfold Search.expansion neighbours
  rw [if_pos h4, ← List.append_assoc, ← List.append_assoc, List.filter_append]
  have : List.filter (fun q => decide (s.Eligible q)) [(row + 1, col)] = [(row + 1, col)] := by
    simp [hmem.2]
  rw [this]
  simp

/-- C16 (frontier update per expansion).  When a pass of the loop body pops
the node `front`, which is on the board and not on a cell with the exit value,
and `SearchImplementation` expands it: let `E` be the list of the neighbours of
its position, in the order left, up, right, down, that are on the board and
whose overlay status (after the pop) is none of `BLOCK`, `CLOSED`, `OPEN`.  In
breadth first mode the new frontier is the rest of the old frontier followed by
the nodes of `E` in that order; in depth first mode it is the nodes of `E` in
reverse order followed by the rest of the old frontier, so that the down
neighbour, when eligible, is at the front and is expanded next.  In every mode
the frontier is the rest of the old frontier with one new node for every cell
of `E` put in, each new node has the popped node as parent and is one deeper,
and exactly the cells of `E` become `OPEN`: every other cell keeps the status it
has after the pop. -/
theorem expansion_updates_frontier (exit : Int) (s : Search) (front : Coord)
    (rest : List Coord) (hrow : front.getRow < BOARDSIZE) (hcol : front.getCol < BOARDSIZE)
    (hg : s.mazeMap.get front.getRow front.getCol ≠ exit) :
    (Search.loopBody bfsFlags exit s front rest).1.openDeque =
      rest ++ ((s.pop front rest).expansion front.getRow front.getCol).map
        (fun q => Coord.mk q.1 q.2 (front.getDepth + 1) 0 (some front)) ∧
    (Search.loopBody dfsFlags exit s front rest).1.openDeque =
      (((s.pop front rest).expansion front.getRow front.getCol).map
        (fun q => Coord.mk q.1 q.2 (front.getDepth + 1) 0 (some front))).reverse ++ rest ∧
    ((front.getRow + 1, front.getCol) ∈ (s.pop front rest).expansion front.getRow front.getCol →
      (Search.loopBody dfsFlags exit s front rest).1.openDeque.head?.map Coord.pos =
        some (front.getRow + 1, front.getCol)) ∧
    (∀ fl : Flags, fl.Strategy →
      (∃ new : List Coord,
        new.map Coord.pos = (s.pop front rest).expansion front.getRow front.getCol ∧
        (∀ n ∈ new, n.getParent = some front ∧ n.getDepth = front.getDepth + 1) ∧
        (Search.loopBody fl exit s front rest).1.openDeque.Perm (rest ++ new)) ∧
      (∀ r c, (Search.loopBody fl exit s front rest).1.mazeRoute.get r c =
        if (r, c) ∈ (s.pop front rest).expansion front.getRow front.getCol then OPEN
        else (s.pop front rest).mazeRoute.get r c)) := by
  have hnb := neighbours_spec hrow hcol
  have hin : ∀ q ∈ neighbours front.getRow front.getCol, q.1 < BOARDSIZE ∧ q.2 < BOARDSIZE :=
    fun q hq => ⟨(hnb.2.1 q hq).1, (hnb.2.1 q hq).2.1⟩
  have hopen : ∀ fl : Flags, (Search.loopBody fl exit s front rest).1.openDeque =
      ((s.pop front rest).tryCells fl (front.getDepth + 1) (some front)
        (neighbours front.getRow front.getCol)).openDeque := by
    intro fl
    obtain ⟨_, h2, h3, h4⟩ := Search.loopBody_expand fl s front rest hg
    rw [h2, Search.SearchImplementation_eq, h3, h4]
  have hroute : ∀ fl : Flags, (Search.loopBody fl exit s front rest).1.mazeRoute =
      ((s.pop front rest).tryCells fl (front.getDepth + 1) (some front)
        (neighbours front.getRow front.getCol)).mazeRoute := by
    intro fl
    obtain ⟨_, h2, h3, h4⟩ := Search.loopBody_expand fl s front rest hg
    rw [h2, Search.SearchImplementation_eq, h3, h4]
  have hdfs : (Search.loopBody dfsFlags exit s front rest).1.openDeque =
      (((s.pop front rest).expansion front.getRow front.getCol).map
        (fun q => Coord.mk q.1 q.2 (front.getDepth + 1) 0 (some front))).reverse ++ rest := by
    rw [hopen, Search.tryCells_open_dfs _ _ _ _ hnb.1]
    rfl
  refine ⟨?_, hdfs, ?_, ?_⟩
  · rw [hopen, Search.tryCells_open_bfs _ _ _ _ hnb.1]
    rfl
  · intro hd
    have hlast := Search.expansion_getLast (s.pop front rest) hrow hcol hd
    rw [hdfs, ← List.map_reverse, List.head?_append, List.head?_map, List.head?_reverse, hlast]
    rfl
  · intro fl hfl
    obtain ⟨⟨new, h1, h2, h3⟩, _⟩ := Search.tryCells_open hfl (front.getDepth + 1) (some front)
      (neighbours front.getRow front.getCol) (s.pop front rest) hnb.1
    refine ⟨⟨new, h1, fun n hn => ⟨(h2 n hn).2, (h2 n hn).1⟩, ?_⟩, ?_⟩
    · rw [hopen]; exact h3
    · intro r c
      rw [hroute]
      exact Search.tryCells_route hfl _ _ _ _ hnb.1 hin r c

/-- Witness for C16: the first expansion of the depth first run for `E1` on
`detourMap`; the eligible neighbours of the start cell `(5, 1)` are the left
and the right one, and the right one is at the front afterwards. -/
theorem expansion_updates_frontier_witness :
    (Search.loopBody dfsFlags E1 detourSeed detourRoot []).1.openDeque =
      (((detourSeed.pop detourRoot []).expansion detourRoot.getRow detourRoot.getCol).map
        (fun q => Coord.mk q.1 q.2 (detourRoot.getDepth + 1) 0 (some detourRoot))).reverse ++ [] ∧
    (detourSeed.openDeque.map Coord.pos = [detourRoot.pos] ∧
      (detourSeed.pop detourRoot []).expansion detourRoot.getRow detourRoot.getCol =
        [(5, 0), (5, 2)]) :=
  ⟨(expansion_updates_frontier E1 detourSeed detourRoot [] (by decide) (by decide)
      (by decide!)).2.1, by decide!⟩

/-! ## The overlay during a pass -/

theorem BLOCK_ne_OPEN : BLOCK ≠ OPEN := by decide
theorem BLOCK_ne_CLOSED : BLOCK ≠ CLOSED := by decide

/-- What a pass through the loop body does to the overlay status of a cell: it
stays, or it is the cell of the popped node and goes from `OPEN` to `CLOSED`,
or it is an eligible neighbour of that cell and becomes `OPEN`. -/
theorem Search.loopBody_route {fl : Flags} (hfl : fl.Strategy) (exit : Int) {s : Search}
    (hc : Core s) {front : Coord} {rest : List Coord} (ho : s.openDeque = front :: rest)
    (r c : Nat) :
    (Search.loopBody fl exit s front rest).1.mazeRoute.get r c = s.mazeRoute.get r c ∨
    ((r, c) = front.pos ∧ s.mazeRoute.get r c = OPEN ∧
      (Search.loopBody fl exit s front rest).1.mazeRoute.get r c = CLOSED) ∨
    ((r, c) ≠ front.pos ∧ Adjacent front.pos (r, c) ∧ s.Eligible (r, c) ∧
      (Search.loopBody fl exit s front rest).1.mazeRoute.get r c = OPEN) := by
  have hmem : front ∈ s.openDeque := by rw [ho]; simp
  have hfin := hc.inb front (Search.mem_nodes.2 (Or.inr hmem))
  have hfo := hc.openMark front hmem
  have hpop : ∀ r c, (s.pop front rest).mazeRoute.get r c =
      if (r, c) = front.pos then CLOSED else s.mazeRoute.get r c := by
    intro r c
    by_cases h : (r, c) = front.pos
    · rw [if_pos h]
      have h1 : r = front.getRow := congrArg Prod.fst h
      have h2 : c = front.getCol := congrArg Prod.snd h
      rw [h1, h2]
      exact Grid.get_set_same _ _ hfin.1 hfin.2
    · rw [if_neg h]
      exact Grid.get_set_ne _ _ h
  by_cases hg : s.mazeMap.get front.getRow front.getCol = exit
  · have hb : (Search.loopBody fl exit s front rest).1 = s.pop front rest :=
      (Search.loopBody_win fl exit s front rest).2
        ((Search.loopBody_win fl exit s front rest).1.2 hg)
    rw [hb, hpop]
    by_cases h : (r, c) = front.pos
    · right; left
      rw [if_pos h]
      refine ⟨h, ?_, rfl⟩
      have h1 : r = front.getRow := congrArg Prod.fst h
      have h2 : c = front.getCol := congrArg Prod.snd h
      rw [h1, h2]; exact hfo
    · left; rw [if_neg h]
  · obtain ⟨_, h2, h3, h4⟩ := Search.loopBody_expand fl s front rest hg
    have hnb := neighbours_spec hfin.1 hfin.2
    have hin : ∀ q ∈ neighbours front.getRow front.getCol,
        q.1 < BOARDSIZE ∧ q.2 < BOARDSIZE :=
      fun q hq => ⟨(hnb.2.1 q hq).1, (hnb.2.1 q hq).2.1⟩
    have hroute := Search.tryCells_route hfl (front.getDepth + 1) (some front)
      (neighbours front.getRow front.getCol) (s.pop front rest) hnb.1 hin r c
    have hres : (Search.loopBody fl exit s front rest).1.mazeRoute.get r c =
        if (r, c) ∈ (neighbours front.getRow front.getCol).filter
            (fun q => decide ((s.pop front rest).Eligible q)) then OPEN
        else (s.pop front rest).mazeRoute.get r c := by
      rw [h2, Search.SearchImplementation_eq, h3, h4]
      exact hroute
    rw [hres]
    by_cases hE : (r, c) ∈ (neighbours front.getRow front.getCol).filter
        (fun q => decide ((s.pop front rest).Eligible q))
    · rw [if_pos hE]
      obtain ⟨hE1, hE2⟩ := List.mem_filter.1 hE
      have helig : (s.pop front rest).Eligible (r, c) := by simpa using hE2
      have hne : (r, c) ≠ front.pos := by
        intro h
        have := helig.2.1
        simp only [hpop, h, if_true] at this
        exact this rfl
      right; right
      refine ⟨hne, (hnb.2.1 _ hE1).2.2, ?_, rfl⟩
      unfold Search.Eligible at helig ⊢
      simp only [hpop, hne, if_false] at helig
      exact helig
    · rw [if_neg hE, hpop]
      by_cases h : (r, c) = front.pos
      · right; left
        rw [if_pos h]
        refine ⟨h, ?_, rfl⟩
        have h1 : r = front.getRow := congrArg Prod.fst h
        have h2 : c = front.getCol := congrArg Prod.snd h
        rw [h1, h2]; exact hfo
      · left; rw [if_neg h]

/-- The overlay in the state in which the loop condition is first evaluated:
the reset overlay with the start cell marked `OPEN`. -/
theorem Search.seed_route {fl : Flags} (hfl : fl.Strategy) {exit : Int}
    (hexit : exit = E1 ∨ exit = E2 ∨ exit = CORNER) {s : Search} (hs : ResetState s)
    (r c : Nat) :
    (Search.seed fl exit s).mazeRoute.get r c =
      if (r, c) = ((s.selectExit exit).startRow, (s.selectExit exit).startCol) then OPEN
      else s.mazeMap.get r c := by
  obtain ⟨f, h, _⟩ := Search.seed_eq hfl exit s hs.openEmpty
  have hin := Search.start_lt hexit hs
  rw [h]
  show (s.mazeRoute.set _ _ OPEN).get r c = _
  by_cases hrc : (r, c) = ((s.selectExit exit).startRow, (s.selectExit exit).startCol)
  · rw [if_pos hrc]
    have h1 : r = (s.selectExit exit).startRow := congrArg Prod.fst hrc
    have h2 : c = (s.selectExit exit).startCol := congrArg Prod.snd hrc
    rw [h1, h2]
    exact Grid.get_set_same _ _ hin.1 hin.2
  · rw [if_neg hrc, Grid.get_set_ne _ _ hrc, hs.route]

/-- In every state of a run from a reset state, a `BLOCK` cell of the layout
other than the start cell still has overlay status `BLOCK`. -/
theorem Search.Reached.walls {fl : Flags} (hfl : fl.Strategy) {exit : Int}
    (hexit : exit = E1 ∨ exit = E2 ∨ exit = CORNER) {s0 : Search} (hs : ResetState s0)
    {s : Search} {w : Bool} (h : Search.Reached fl exit s0 s w) :
    ∀ r c, s0.mazeMap.get r c = BLOCK →
      (r, c) ≠ ((s0.selectExit exit).startRow, (s0.selectExit exit).startCol) →
      s.mazeRoute.get r c = BLOCK := by
  induction h with
  | seed =>
    intro r c hM hne
    rw [Search.seed_route hfl hexit hs, if_neg hne]
    exact hM
  | step hr ho ih =>
    rename_i sp front rest
    intro r c hM hne
    have hc := Core.reached_core hfl hexit hs hr
    have hprev := ih r c hM hne
    rcases Search.loopBody_route hfl exit hc ho r c with h1 | ⟨_, h1, _⟩ | ⟨_, _, h1, _⟩
    · rw [h1]; exact hprev
    · rw [hprev] at h1; exact absurd h1 BLOCK_ne_OPEN
    · exact absurd hprev h1.1

/-- Counterexample to C12 as stated: in the breadth first run for `CORNER` on
`detourMap` the start cell `(24, 0)` is a `BLOCK` cell of the layout; it is
marked `OPEN` before the loop and is `CLOSED` when the run ends. -/
theorem corner_start_wall_overwritten :
    (Search.new blankMemory detourMap).mazeMap.get 24 0 = BLOCK ∧
    (Search.seed bfsFlags CORNER (Search.new blankMemory detourMap)).mazeRoute.get 24 0 = OPEN ∧
    (Search.SearchTemplate bfsFlags CORNER 626 (Search.new blankMemory detourMap)).map
      (fun o => (o.state.mazeMap.get 24 0, o.state.mazeRoute.get 24 0)) =
      some (BLOCK, CLOSED) := by
  decide!

/-- C12, as amended (walls other than the start cell are never touched).  For
every layout, every strategy and every exit in `E1`, `E2`, `CORNER`, in every
state of a `SearchTemplate` run started from a reset state, the layout is
unchanged and every cell other than the start cell of the run whose layout
value is `BLOCK` still has overlay status `BLOCK`; in a run for `E1` or `E2`
whose recorded start cell is not a `BLOCK` cell, this is every `BLOCK` cell of
the layout. -/
theorem walls_untouched_except_start (fl : Flags) (hfl : fl.Strategy) (exit : Int)
    (hexit : exit = E1 ∨ exit = E2 ∨ exit = CORNER) (s0 : Search) (hs : ResetState s0) :
    (∀ s w, Search.Reached fl exit s0 s w → s.mazeMap = s0.mazeMap ∧
      ∀ r c, s.mazeMap.get r c = BLOCK →
        (r, c) ≠ ((s0.selectExit exit).startRow, (s0.selectExit exit).startCol) →
        s.mazeRoute.get r c = BLOCK) ∧
    ((exit = E1 ∨ exit = E2) → s0.mazeMap.get s0.startE1E2Row s0.startE1E2Col ≠ BLOCK →
      ∀ s w, Search.Reached fl exit s0 s w →
        ∀ r c, s.mazeMap.get r c = BLOCK → s.mazeRoute.get r c = BLOCK) := by
  constructor
  · intro s w h
    have hm := Search.Reached.mazeMap_eq hfl hexit hs h
    refine ⟨hm, fun r c hM hne => ?_⟩
    rw [hm] at hM
    exact Search.Reached.walls hfl hexit hs h r c hM hne
  · intro h12 hstart s w h r c hM
    have hm := Search.Reached.mazeMap_eq hfl hexit hs h
    rw [hm] at hM
    apply Search.Reached.walls hfl hexit hs h r c hM
    rw [Search.selectExit_start_pair h12 s0]
    intro he
    have h1 : r = s0.startE1E2Row := congrArg Prod.fst he
    have h2 : c = s0.startE1E2Col := congrArg Prod.snd he
    rw [h1, h2] at hM
    exact hstart hM

/-- Witness for C12 as amended: the A* run for `E2` on `detourMap`. -/
theorem walls_untouched_except_start_witness :
    (∀ s w, Search.Reached asFlags E2 (Search.new blankMemory detourMap) s w →
      s.mazeMap = (Search.new blankMemory detourMap).mazeMap ∧
      ∀ r c, s.mazeMap.get r c = BLOCK →
        (r, c) ≠ (((Search.new blankMemory detourMap).selectExit E2).startRow,
          ((Search.new blankMemory detourMap).selectExit E2).startCol) →
        s.mazeRoute.get r c = BLOCK) ∧
    (∀ s w, Search.Reached asFlags E2 (Search.new blankMemory detourMap) s w →
      ∀ r c, s.mazeMap.get r c = BLOCK → s.mazeRoute.get r c = BLOCK) :=
  ⟨(walls_untouched_except_start asFlags asFlags_strategy E2 (Or.inr (Or.inl rfl))
      (Search.new blankMemory detourMap) detour_reset).1,
   (walls_untouched_except_start asFlags asFlags_strategy E2 (Or.inr (Or.inl rfl))
      (Search.new blankMemory detourMap) detour_reset).2 (Or.inr rfl)
      (by rw [(Search.new_spec blankMemory detourMap detourMap_start).2.1,
            (Search.new_spec blankMemory detourMap detourMap_start).2.2]
          exact START_ne_BLOCK)⟩

/-! ## The sequence of states of a run -/

theorem StatusStep.later {a b : Search} (h : StatusStep a b) : StatusLater a b := by
  intro r c
  rcases h r c with h1 | ⟨h1, h2, h3⟩ | ⟨h1, h2⟩
  · rw [h1]; exact ⟨fun h => h, fun h => Or.inl h⟩
  · exact ⟨fun h => absurd h h2, fun h => absurd h h1⟩
  · exact ⟨fun h => absurd (h1.symm.trans h) OPEN_ne_CLOSED, fun _ => Or.inr h2⟩

theorem StatusLater.trans_later {a b c : Search} (h1 : StatusLater a b) (h2 : StatusLater b c) :
    StatusLater a c := by
  intro r k
  refine ⟨fun h => (h2 r k).1 ((h1 r k).1 h), fun h => ?_⟩
  rcases (h1 r k).2 h with h3 | h3
  · exact (h2 r k).2 h3
  · exact Or.inr ((h2 r k).1 h3)

/-- A pass through the loop body changes cell statuses only from a status that
is neither `OPEN` nor `CLOSED` to `OPEN`, or from `OPEN` to `CLOSED`. -/
theorem Search.loopBody_statusStep {fl : Flags} (hfl : fl.Strategy) (exit : Int) {s : Search}
    (hc : Core s) {front : Coord} {rest : List Coord} (ho : s.openDeque = front :: rest) :
    StatusStep s (Search.loopBody fl exit s front rest).1 := by
  intro r c
  rcases Search.loopBody_route hfl exit hc ho r c with h1 | ⟨_, h1, h2⟩ | ⟨_, _, h1, h2⟩
  · exact Or.inl h1
  · exact Or.inr (Or.inr ⟨h1, h2⟩)
  · exact Or.inr (Or.inl ⟨h1.2.2, h1.2.1, h2⟩)

/-- The statements before the loop change the status of the start cell only,
from its layout value to `OPEN`. -/
theorem Search.seed_statusStep {fl : Flags} (hfl : fl.Strategy) {exit : Int}
    (hexit : exit = E1 ∨ exit = E2 ∨ exit = CORNER) {s : Search} (hs : ResetState s)
    (hstart : s.mazeMap.get (s.selectExit exit).startRow (s.selectExit exit).startCol ≠ OPEN ∧
      s.mazeMap.get (s.selectExit exit).startRow (s.selectExit exit).startCol ≠ CLOSED) :
    StatusStep s (Search.seed fl exit s) := by
  intro r c
  rw [Search.seed_route hfl hexit hs r c, hs.route]
  by_cases h : (r, c) = ((s.selectExit exit).startRow, (s.selectExit exit).startCol)
  · rw [if_pos h]
    have h1 : r = (s.selectExit exit).startRow := congrArg Prod.fst h
    have h2 : c = (s.selectExit exit).startCol := congrArg Prod.snd h
    rw [h1, h2]
    exact Or.inr (Or.inl ⟨hstart.1, hstart.2, rfl⟩)
  · rw [if_neg h]; exact Or.inl rfl

/-- The states of the sequence are states of the run, and consecutive states
are related by `StatusStep`. -/
theorem Search.trace_chain {fl : Flags} (hfl : fl.Strategy) {exit : Int}
    (hexit : exit = E1 ∨ exit = E2 ∨ exit = CORNER) {s0 : Search} (hs : ResetState s0) :
    ∀ (fuel : Nat) (s : Search), Search.Reached fl exit s0 s false →
      (∀ t ∈ Search.trace fl exit fuel s, ∃ w, Search.Reached fl exit s0 t w) ∧
      List.Chain StatusStep s (Search.trace fl exit fuel s).tail ∧
      (Search.trace fl exit fuel s).head? = some s := by
  intro fuel
  induction fuel with
  | zero =>
    intro s hr
    refine ⟨?_, by simp [Search.trace], by simp [Search.trace]⟩
    intro t ht
    simp only [Search.trace, List.mem_singleton] at ht
    exact ⟨false, ht ▸ hr⟩
  | succ k ih =>
    intro s hr
    unfold Search.trace
    cases ho : s.openDeque with
    | nil =>
      simp only
      refine ⟨?_, by simp, by simp⟩
      intro t ht
      exact ⟨false, (List.mem_singleton.1 ht) ▸ hr⟩
    | cons front rest =>
      simp only
      have hc := Core.reached_core hfl hexit hs hr
      have hstep := Search.Reached.step hr ho
      have hss := Search.loopBody_statusStep hfl exit hc ho
      by_cases hw : (Search.loopBody fl exit s front rest).2 = true
      · rw [if_pos hw]
        refine ⟨?_, by simp [hss], by simp⟩
        intro t ht
        rcases List.mem_cons.1 ht with h | h
        · exact ⟨false, h ▸ hr⟩
        · exact ⟨_, (List.mem_singleton.1 h) ▸ hstep⟩
      · rw [if_neg hw]
        have hw2 : (Search.loopBody fl exit s front rest).2 = false := by simpa using hw
        rw [hw2] at hstep
        obtain ⟨i1, i2, i3⟩ := ih _ hstep
        refine ⟨?_, ?_, by simp⟩
        · intro t ht
          rcases List.mem_cons.1 ht with h | h
          · exact ⟨false, h ▸ hr⟩
          · exact i1 t h
        · simp only [List.tail_cons]
          cases htr : Search.trace fl exit k (Search.loopBody fl exit s front rest).1 with
          | nil => exact List.Chain.nil
          | cons x xs =>
            rw [htr] at i2 i3
            simp only [List.head?_cons, Option.some.injEq] at i3
            simp only [List.tail_cons] at i2
            rw [i3]
            exact List.Chain.cons hss i2

/-- The sequence ends in the state in which the loop is left. -/
theorem Search.trace_getLast (fl : Flags) (exit : Int) :
    ∀ (fuel : Nat) (s : Search) (r : Search × Bool),
      Search.whileLoop fl exit fuel s = some r →
      (Search.trace fl exit fuel s).getLast? = some r.1 := by
  intro fuel
  induction fuel with
  | zero => intro s r h; simp [Search.whileLoop] at h
  | succ k ih =>
    intro s r h
    unfold Search.whileLoop at h
    unfold Search.trace
    cases ho : s.openDeque with
    | nil =>
      rw [ho] at h
      simp only [Option.some.injEq] at h
      subst h
      simp
    | cons front rest =>
      rw [ho] at h
      simp only at h ⊢
      by_cases hw : (Search.loopBody fl exit s front rest).2 = true
      · rw [if_pos hw] at h ⊢
        simp only [Option.some.injEq] at h
        subst h
        simp
      · rw [if_neg hw] at h ⊢
        have := ih _ r h
        rw [List.getLast?_cons, this]
        rfl

/-- C13 (monotone cell status).  In a `SearchTemplate` run from a reset state
whose start cell does not hold the number of `OPEN` or of `CLOSED` as its layout
value, take the reset state followed by the states in which the loop condition
is evaluated and the state in which the loop is left.  From each state of this
sequence to the next, a cell changes its overlay status only from a value that
is neither `OPEN` nor `CLOSED` to `OPEN`, or from `OPEN` to `CLOSED`.  Hence
between any state of the sequence and any later one a `CLOSED` cell stays
`CLOSED` and an `OPEN` cell stays `OPEN` or becomes `CLOSED`; and on a layout
whose cells are all `FREE`, `START`, `BLOCK`, `E1` or `E2` an `OPEN` or `CLOSED`
status is never the layout value of the cell. -/
theorem status_monotone (fl : Flags) (hfl : fl.Strategy) (exit : Int)
    (hexit : exit = E1 ∨ exit = E2 ∨ exit = CORNER) (s0 : Search) (hs : ResetState s0)
    (hstart :
      s0.mazeMap.get (s0.selectExit exit).startRow (s0.selectExit exit).startCol ≠ OPEN ∧
      s0.mazeMap.get (s0.selectExit exit).startRow (s0.selectExit exit).startCol ≠ CLOSED)
    (fuel : Nat) (hfuel : BOARDSIZE * BOARDSIZE < fuel) :
    ∃ o, Search.SearchTemplate fl exit fuel s0 = some o ∧
      (s0 :: Search.trace fl exit fuel (Search.seed fl exit s0)).getLast? = some o.state ∧
      List.Chain' StatusStep (s0 :: Search.trace fl exit fuel (Search.seed fl exit s0)) ∧
      List.Pairwise StatusLater (s0 :: Search.trace fl exit fuel (Search.seed fl exit s0)) ∧
      (LayoutOK s0.mazeMap → ∀ t ∈ Search.trace fl exit fuel (Search.seed fl exit s0), ∀ r c,
        t.mazeRoute.get r c = OPEN ∨ t.mazeRoute.get r c = CLOSED →
        t.mazeRoute.get r c ≠ t.mazeMap.get r c) := by
  obtain ⟨o, last, h1, h2, h3, h4, h5⟩ := Search.SearchTemplate_some hfl hexit hs hfuel
  obtain ⟨t1, t2, t3⟩ := Search.trace_chain hfl hexit hs fuel _ Search.Reached.seed
  have hlast := Search.trace_getLast fl exit fuel _ _ h2
  have hchain : List.Chain' StatusStep
      (s0 :: Search.trace fl exit fuel (Search.seed fl exit s0)) := by
    cases htr : Search.trace fl exit fuel (Search.seed fl exit s0) with
    | nil => exact List.chain'_singleton _
    | cons x xs =>
      rw [htr] at t2 t3
      simp only [List.head?_cons, Option.some.injEq] at t3
      simp only [List.tail_cons] at t2
      rw [t3]
      exact List.Chain.cons (Search.seed_statusStep hfl hexit hs hstart) t2
  refine ⟨o, h1, ?_, hchain, ?_, ?_⟩
  · cases htr : Search.trace fl exit fuel (Search.seed fl exit s0) with
    | nil => rw [htr] at hlast; simp at hlast
    | cons x xs =>
      rw [htr] at hlast
      rw [List.getLast?_cons_cons, hlast]
  · haveI : IsTrans Search StatusLater := ⟨fun _ _ _ => StatusLater.trans_later⟩
    exact List.chain'_iff_pairwise.1 (hchain.imp (fun _ _ h => h.later))
  · intro hl t ht r c hoc
    obtain ⟨w, hr⟩ := t1 t ht
    rw [Search.Reached.mazeMap_eq hfl hexit hs hr]
    rcases hoc with h | h
    · rw [h]; exact fun he => (hl.get_ne r c).1 he.symm
    · rw [h]; exact fun he => (hl.get_ne r c).2 he.symm

/-- Witness for C13: the breadth first run for `E1` on `detourMap`. -/
theorem status_monotone_witness :
    ∃ o, Search.SearchTemplate bfsFlags E1 626 (Search.new blankMemory detourMap) = some o ∧
      (Search.new blankMemory detourMap ::
        Search.trace bfsFlags E1 626
          (Search.seed bfsFlags E1 (Search.new blankMemory detourMap))).getLast? =
        some o.state ∧
      List.Chain' StatusStep (Search.new blankMemory detourMap ::
        Search.trace bfsFlags E1 626
          (Search.seed bfsFlags E1 (Search.new blankMemory detourMap))) ∧
      List.Pairwise StatusLater (Search.new blankMemory detourMap ::
        Search.trace bfsFlags E1 626
          (Search.seed bfsFlags E1 (Search.new blankMemory detourMap))) ∧
      (LayoutOK (Search.new blankMemory detourMap).mazeMap →
        ∀ t ∈ Search.trace bfsFlags E1 626
          (Search.seed bfsFlags E1 (Search.new blankMemory detourMap)), ∀ r c,
        t.mazeRoute.get r c = OPEN ∨ t.mazeRoute.get r c = CLOSED →
        t.mazeRoute.get r c ≠ t.mazeMap.get r c) :=
  status_monotone bfsFlags bfsFlags_strategy E1 (Or.inl rfl)
    (Search.new blankMemory detourMap) detour_reset (detour_layout.get_ne _ _) 626 (by decide)

/-! ## The statistic `maxOpenQSize` -/

/-- What a pass through the loop body does to `maxOpenQSize`: nothing when the
goal is found, and otherwise it becomes the new size of `openDeque` if that is
greater. -/
theorem Search.loopBody_max {fl : Flags} (hfl : fl.Strategy) (exit : Int) {s : Search}
    (hc : Core s) {front : Coord} {rest : List Coord} (ho : s.openDeque = front :: rest) :
    ((Search.loopBody fl exit s front rest).2 = true →
      (Search.loopBody fl exit s front rest).1.maxOpenQSize = s.maxOpenQSize ∧
      (Search.loopBody fl exit s front rest).1.openDeque = rest) ∧
    ((Search.loopBody fl exit s front rest).2 = false →
      (Search.loopBody fl exit s front rest).1.maxOpenQSize =
        max s.maxOpenQSize (Search.loopBody fl exit s front rest).1.openDeque.length) := by
  have hfin := hc.inb front (Search.mem_nodes.2 (Or.inr (by rw [ho]; simp)))
  constructor
  · intro hw
    rw [(Search.loopBody_win fl exit s front rest).2 hw]
    exact ⟨rfl, rfl⟩
  · intro hw
    have hg : s.mazeMap.get front.getRow front.getCol ≠ exit := by
      intro h
      have := (Search.loopBody_win fl exit s front rest).1.2 h
      rw [hw] at this
      exact absurd this (by decide)
    obtain ⟨_, h2, h3, h4⟩ := Search.loopBody_expand fl s front rest hg
    have hnb := neighbours_spec hfin.1 hfin.2
    obtain ⟨_, _, _, _, h8⟩ := Search.tryCells_open hfl (front.getDepth + 1) (some front)
      (neighbours front.getRow front.getCol) (s.pop front rest) hnb.1
    rw [h2, Search.SearchImplementation_eq, h3, h4]
    simp only [h8]
    show (if _ > s.maxOpenQSize then _ else s.maxOpenQSize) = _
    split <;> omega

/-- From a state whose `maxOpenQSize` is at least the size of `openDeque`, the
final `maxOpenQSize` is the greater of the present one and the largest size of
`openDeque` in the rest of the sequence of states. -/
theorem Search.trace_max {fl : Flags} (hfl : fl.Strategy) {exit : Int}
    (hexit : exit = E1 ∨ exit = E2 ∨ exit = CORNER) {s0 : Search} (hs : ResetState s0) :
    ∀ (fuel : Nat) (s : Search) (r : Search × Bool),
      Search.Reached fl exit s0 s false → Search.whileLoop fl exit fuel s = some r →
      s.openDeque.length ≤ s.maxOpenQSize →
      r.1.maxOpenQSize = max s.maxOpenQSize
        (((Search.trace fl exit fuel s).map (fun t => t.openDeque.length)).foldr max 0) ∧
      r.1.openDeque.length ≤ r.1.maxOpenQSize := by
  intro fuel
  induction fuel with
  | zero => intro s r _ h; simp [Search.whileLoop] at h
  | succ k ih =>
    intro s r hr h hle
    unfold Search.whileLoop at h
    unfold Search.trace
    cases ho : s.openDeque with
    | nil =>
      rw [ho] at h
      simp only [Option.some.injEq] at h
      subst h
      simp [ho]
    | cons front rest =>
      rw [ho] at h
      simp only at h ⊢
      have hc := Core.reached_core hfl hexit hs hr
      have hmax := Search.loopBody_max hfl exit hc ho
      have hlen : s.openDeque.length = rest.length + 1 := by rw [ho]; rfl
      by_cases hw : (Search.loopBody fl exit s front rest).2 = true
      · rw [if_pos hw] at h ⊢
        simp only [Option.some.injEq] at h
        subst h
        obtain ⟨m1, m2⟩ := hmax.1 hw
        simp only [List.map_cons, List.map_nil, List.foldr_cons, List.foldr_nil, ho,
          List.length_cons, m1, m2]
        omega
      · rw [if_neg hw] at h ⊢
        have hw2 : (Search.loopBody fl exit s front rest).2 = false := by simpa using hw
        have hstep := Search.Reached.step hr ho
        rw [hw2] at hstep
        have m := hmax.2 hw2
        obtain ⟨i1, i2⟩ := ih _ r hstep h (by rw [m]; exact le_max_right _ _)
        obtain ⟨_, _, t3⟩ := Search.trace_chain hfl hexit hs k _ hstep
        refine ⟨?_, i2⟩
        rw [i1, m]
        simp only [List.map_cons, List.foldr_cons, ho, List.length_cons]
        cases htr : Search.trace fl exit k (Search.loopBody fl exit s front rest).1 with
        | nil => rw [htr] at t3; simp at t3
        | cons x xs =>
          rw [htr] at t3
          simp only [List.head?_cons, Option.some.injEq] at t3
          subst t3
          simp only [List.map_cons, List.foldr_cons]
          omega

/-- Function `tryCell` on a list of cells never makes `openDeque` shorter. -/
theorem Search.tryCells_length {fl : Flags} (hfl : fl.Strategy) (d : Nat) (p : Option Coord) :
    ∀ (cells : List (Nat × Nat)) (s : Search),
      s.openDeque.length ≤ (s.tryCells fl d p cells).openDeque.length := by
  intro cells
  induction cells with
  | nil => intro s; exact le_refl _
  | cons q qs ih =>
    intro s
    refine le_trans ?_ (ih (s.tryCell fl q.1 q.2 d p))
    rcases Search.tryCell_cases hfl s q.1 q.2 d p with ⟨_, h⟩ | ⟨_, f, l1, l2, hl, h⟩
    · rw [h]
    · rw [h, hl]
      simp

/-- C18 (maximum frontier statistic).  At the end of a `SearchTemplate` run
started from a reset state, `maxOpenQSize` is the largest size that `openDeque`
has in the states in which the loop condition is evaluated and in the final
state (the first of these is the state with the start node only); it is at
least 1 and at least the final size of `openDeque`, and `Print` reports it.
Between two of these states the size is never larger than in both of them: the
pop makes `openDeque` shorter by one and the expansion only makes it longer
until the next state is reached. -/
theorem max_open_statistic (fl : Flags) (hfl : fl.Strategy) (exit : Int)
    (hexit : exit = E1 ∨ exit = E2 ∨ exit = CORNER) (s0 : Search) (hs : ResetState s0)
    (fuel : Nat) (hfuel : BOARDSIZE * BOARDSIZE < fuel) :
    (∃ o, Search.SearchTemplate fl exit fuel s0 = some o ∧
      (Search.trace fl exit fuel (Search.seed fl exit s0)).head? =
        some (Search.seed fl exit s0) ∧
      (Search.trace fl exit fuel (Search.seed fl exit s0)).getLast? = some o.state ∧
      o.state.maxOpenQSize =
        ((Search.trace fl exit fuel (Search.seed fl exit s0)).map
          (fun t => t.openDeque.length)).foldr max 0 ∧
      1 ≤ o.state.maxOpenQSize ∧ o.state.openDeque.length ≤ o.state.maxOpenQSize ∧
      o.report.maxOpenQSize = o.state.maxOpenQSize ∧
      o.report.finalOpen = o.state.openDeque.length) ∧
    (∀ s front rest, Search.Reached fl exit s0 s false → s.openDeque = front :: rest →
      (s.pop front rest).openDeque.length < s.openDeque.length ∧
      ∀ a b, neighbours front.getRow front.getCol = a ++ b →
        s.mazeMap.get front.getRow front.getCol ≠ exit →
        ((s.pop front rest).tryCells fl (front.getDepth + 1) (some front) a).openDeque.length ≤
          (Search.loopBody fl exit s front rest).1.openDeque.length) := by
  constructor
  · obtain ⟨o, last, h1, h2, h3, h4, h5⟩ := Search.SearchTemplate_some hfl hexit hs hfuel
    obtain ⟨f, hseed, _⟩ := Search.seed_eq hfl exit s0 hs.openEmpty
    have hlen : (Search.seed fl exit s0).openDeque.length = 1 := by rw [hseed]; rfl
    have hmx : (Search.seed fl exit s0).maxOpenQSize = 1 := by rw [hseed]
    obtain ⟨m1, m2⟩ := Search.trace_max hfl hexit hs fuel _ _ Search.Reached.seed h2
      (by rw [hlen, hmx])
    obtain ⟨_, _, t3⟩ := Search.trace_chain hfl hexit hs fuel _ Search.Reached.seed
    have hrep : o.report.maxOpenQSize = o.state.maxOpenQSize ∧
        o.report.finalOpen = o.state.openDeque.length := by
      have hp := Search.Print_eq o.state h4
      rw [h5] at hp
      have := Option.some.inj hp
      rw [this]
      exact ⟨rfl, rfl⟩
    simp only at m1 m2
    have hge : 1 ≤ ((Search.trace fl exit fuel (Search.seed fl exit s0)).map
        (fun t => t.openDeque.length)).foldr max 0 := by
      cases htr : Search.trace fl exit fuel (Search.seed fl exit s0) with
      | nil => rw [htr] at t3; simp at t3
      | cons x xs =>
        rw [htr] at t3
        simp only [List.head?_cons, Option.some.injEq] at t3
        subst t3
        simp only [List.map_cons, List.foldr_cons, hlen]
        omega
    rw [hmx] at m1
    refine ⟨o, h1, t3, Search.trace_getLast fl exit fuel _ _ h2, ?_, ?_, m2, hrep.1, hrep.2⟩
    · rw [m1]; omega
    · rw [m1]; omega
  · intro s front rest hr ho
    refine ⟨by rw [ho]; exact Nat.lt_succ_self _, ?_⟩
    intro a b hab hg
    obtain ⟨_, h2, h3, h4⟩ := Search.loopBody_expand fl s front rest hg
    rw [h2, Search.SearchImplementation_eq, h3, h4, hab]
    show _ ≤ ((s.pop front rest).tryCells fl (front.getDepth + 1) (some front)
      (a ++ b)).openDeque.length
    have happ : (s.pop front rest).tryCells fl (front.getDepth + 1) (some front) (a ++ b) =
        ((s.pop front rest).tryCells fl (front.getDepth + 1) (some front) a).tryCells fl
          (front.getDepth + 1) (some front) b := by
      unfold Search.tryCells
      rw [List.foldl_append]
    rw [happ]
    exact Search.tryCells_length hfl _ _ b _

/-- Witness for C18: the depth first run for `E2` on `detourMap`. -/
theorem max_open_statistic_witness :
    ∃ o, Search.SearchTemplate dfsFlags E2 626 (Search.new blankMemory detourMap) = some o ∧
      (Search.trace dfsFlags E2 626
        (Search.seed dfsFlags E2 (Search.new blankMemory detourMap))).head? =
        some (Search.seed dfsFlags E2 (Search.new blankMemory detourMap)) ∧
      (Search.trace dfsFlags E2 626
        (Search.seed dfsFlags E2 (Search.new blankMemory detourMap))).getLast? =
        some o.state ∧
      o.state.maxOpenQSize =
        ((Search.trace dfsFlags E2 626
          (Search.seed dfsFlags E2 (Search.new blankMemory detourMap))).map
          (fun t => t.openDeque.length)).foldr max 0 ∧
      1 ≤ o.state.maxOpenQSize ∧ o.state.openDeque.length ≤ o.state.maxOpenQSize ∧
      o.report.maxOpenQSize = o.state.maxOpenQSize ∧
      o.report.finalOpen = o.state.openDeque.length :=
  (max_open_statistic dfsFlags dfsFlags_strategy E2 (Or.inr (Or.inl rfl))
    (Search.new blankMemory detourMap) detour_reset 626 (by decide)).1

/-! ## The layout is never written -/

theorem Search.AStarSort_mazeMap (s : Search) (row col depth : Nat) (parent : Option Coord) :
    (s.AStarSort row col depth parent).mazeMap = s.mazeMap := by
  unfold Search.AStarSort
  simp only
  split
  · rfl
  · split <;> rfl

theorem Search.tryCell_mazeMap (fl : Flags) (s : Search) (r c d : Nat) (p : Option Coord) :
    (s.tryCell fl r c d p).mazeMap = s.mazeMap := by
  unfold Search.tryCell Search.pushNode
  split
  · split
    · rfl
    · split
      · rfl
      · split
        · exact Search.AStarSort_mazeMap _ _ _ _ _
        · rfl
  · rfl

theorem Search.tryCells_mazeMap (fl : Flags) (d : Nat) (p : Option Coord) :
    ∀ (cells : List (Nat × Nat)) (s : Search), (s.tryCells fl d p cells).mazeMap = s.mazeMap := by
  intro cells
  induction cells with
  | nil => intro s; rfl
  | cons q qs ih =>
    intro s
    exact (ih (s.tryCell fl q.1 q.2 d p)).trans (Search.tryCell_mazeMap fl s q.1 q.2 d p)

theorem Search.SearchImplementation_mazeMap (fl : Flags) (s : Search) (row col : Nat) :
    (Search.SearchImplementation fl s row col).mazeMap = s.mazeMap := by
  rw [Search.SearchImplementation_eq]
  exact Search.tryCells_mazeMap fl _ _ _ s

theorem Search.loopBody_mazeMap (fl : Flags) (exit : Int) (s : Search) (front : Coord)
    (rest : List Coord) : (Search.loopBody fl exit s front rest).1.mazeMap = s.mazeMap := by
  unfold Search.loopBody
  simp only
  split
  · rfl
  · exact Search.SearchImplementation_mazeMap fl _ _ _

theorem Search.whileLoop_mazeMap (fl : Flags) (exit : Int) :
    ∀ (fuel : Nat) (s : Search) (r : Search × Bool),
      Search.whileLoop fl exit fuel s = some r → r.1.mazeMap = s.mazeMap := by
  intro fuel
  induction fuel with
  | zero => intro s r h; simp [Search.whileLoop] at h
  | succ k ih =>
    intro s r h
    unfold Search.whileLoop at h
    cases ho : s.openDeque with
    | nil =>
      rw [ho] at h
      simp only [Option.some.injEq] at h
      rw [← h]
    | cons front rest =>
      rw [ho] at h
      simp only at h
      by_cases hw : (Search.loopBody fl exit s front rest).2 = true
      · rw [if_pos hw] at h
        simp only [Option.some.injEq] at h
        rw [← h]
        exact Search.loopBody_mazeMap fl exit s front rest
      · rw [if_neg hw] at h
        exact (ih _ r h).trans (Search.loopBody_mazeMap fl exit s front rest)

theorem Search.seed_mazeMap (fl : Flags) (exit : Int) (s : Search) :
    (Search.seed fl exit s).mazeMap = s.mazeMap := by
  have h := (Search.selectExit_frame exit s).1
  unfold Search.seed
  simp only
  split_ifs <;> exact h

/-- C14 (layout frame and reset postcondition).  The functions `AStarSort`,
`SearchImplementation`, `SearchTemplate` and `CleanUp` never change `mazeMap`,
in any state and for any flags; and after `CleanUp`, from any state,
`mazeRoute` equals `mazeMap` in every cell, both deques are empty, `cost` and
`maxOpenQSize` are 0, and a second `CleanUp` changes nothing. -/
theorem layout_frame_and_reset :
    (∀ (s : Search) (row col depth : Nat) (parent : Option Coord),
      (s.AStarSort row col depth parent).mazeMap = s.mazeMap) ∧
    (∀ (fl : Flags) (s : Search) (row col : Nat),
      (Search.SearchImplementation fl s row col).mazeMap = s.mazeMap) ∧
    (∀ (fl : Flags) (exit : Int) (fuel : Nat) (s : Search) (o : Outcome),
      Search.SearchTemplate fl exit fuel s = some o → o.state.mazeMap = s.mazeMap) ∧
    (∀ s : Search, s.CleanUp.mazeMap = s.mazeMap ∧ s.CleanUp.mazeRoute = s.mazeMap ∧
      (∀ i j, s.CleanUp.mazeRoute i j = s.CleanUp.mazeMap i j) ∧
      s.CleanUp.openDeque = [] ∧ s.CleanUp.closedDeque = [] ∧
      s.CleanUp.cost = 0 ∧ s.CleanUp.maxOpenQSize = 0 ∧
      s.CleanUp.CleanUp = s.CleanUp) := by
  refine ⟨Search.AStarSort_mazeMap, Search.SearchImplementation_mazeMap, ?_, ?_⟩
  · intro fl exit fuel s o h
    unfold Search.SearchTemplate at h
    cases hw : Search.whileLoop fl exit fuel (Search.seed fl exit s) with
    | none => rw [hw] at h; simp at h
    | some r =>
      rw [hw] at h
      simp only at h
      cases hp : r.1.Print with
      | none => rw [hp] at h; simp at h
      | some rep =>
        rw [hp] at h
        simp only [Option.some.injEq] at h
        subst h
        exact (Search.whileLoop_mazeMap fl exit fuel _ r hw).trans
          (Search.seed_mazeMap fl exit s)
  · intro s
    exact ⟨rfl, rfl, fun _ _ => rfl, rfl, rfl, rfl, rfl, rfl⟩

/-- Witness for C14: the breadth first run for `E1` on `detourMap` returns and
leaves the layout as it was. -/
theorem layout_frame_and_reset_witness :
    (Search.SearchTemplate bfsFlags E1 626 (Search.new blankMemory detourMap)).map
      (fun o => o.win) = some true ∧
    ∀ o, Search.SearchTemplate bfsFlags E1 626 (Search.new blankMemory detourMap) = some o →
      o.state.mazeMap = (Search.new blankMemory detourMap).mazeMap :=
  ⟨by decide!, fun o h => layout_frame_and_reset.2.2.1 bfsFlags E1 626 _ o h⟩

/-! ## The frontier of an A* run -/

theorem absDiff_comm (a b : Nat) : absDiff a b = absDiff b a := by
  unfold absDiff
  omega

/-- The frontier after `AStarSort`. -/
theorem Search.AStarSort_open (s : Search) (row col depth : Nat) (parent : Option Coord)
    (f : Nat) (hf : f = depth + (absDiff s.exitRow row + absDiff s.exitCol col)) :
    (s.AStarSort row col depth parent).openDeque =
      s.openDeque.takeWhile (fun x => decide (x.getFunctionF ≤ f)) ++
        Coord.mk row col depth f parent ::
        s.openDeque.dropWhile (fun x => decide (x.getFunctionF ≤ f)) := by
  unfold Search.AStarSort
  simp only [← hf]
  by_cases h0 : s.openDeque.length = 0
  · rw [if_pos h0]
    have : s.openDeque = [] := List.length_eq_zero.1 h0
    simp [this]
  · rw [if_neg h0]
    have hl := AStarSort.loop_eq f (Coord.mk row col depth f parent) s.openDeque
    cases hb : (AStarSort.loop f (Coord.mk row col depth f parent) s.openDeque).2 with
    | true => simp [hl.1 hb]
    | false =>
      have := hl.2 hb
      simp [this.1, this.2.1, this.2.2]

/-- Insertion before the first greater element keeps a list ordered. -/
theorem pairwise_insert_sorted (l : List Coord) (node : Coord)
    (hsorted : l.Pairwise (fun a b => a.getFunctionF ≤ b.getFunctionF)) :
    (l.takeWhile (fun x => decide (x.getFunctionF ≤ node.getFunctionF)) ++
      node :: l.dropWhile (fun x => decide (x.getFunctionF ≤ node.getFunctionF))).Pairwise
      (fun a b => a.getFunctionF ≤ b.getFunctionF) := by
  have hsplit := List.takeWhile_append_dropWhile
    (fun x => decide (x.getFunctionF ≤ node.getFunctionF)) l
  have hdrop : ∀ x ∈ l.dropWhile (fun x => decide (x.getFunctionF ≤ node.getFunctionF)),
      node.getFunctionF < x.getFunctionF := by
    intro x hx
    cases hd : l.dropWhile (fun x => decide (x.getFunctionF ≤ node.getFunctionF)) with
    | nil => rw [hd] at hx; exact absurd hx (List.not_mem_nil _)
    | cons y ys =>
      have hy : node.getFunctionF < y.getFunctionF := by
        have := dropWhile_head_false (fun x => decide (x.getFunctionF ≤ node.getFunctionF)) l hd
        simp only [decide_eq_false_iff_not, not_le] at this
        exact this
      have hs2 : (y :: ys).Pairwise (fun a b => a.getFunctionF ≤ b.getFunctionF) := by
        rw [← hsplit, hd] at hsorted
        exact (List.pairwise_append.1 hsorted).2.1
      rw [hd] at hx
      rcases List.mem_cons.1 hx with h | h
      · rw [h]; exact hy
      · exact lt_of_lt_of_le hy ((List.pairwise_cons.1 hs2).1 x h)
  rw [← hsplit] at hsorted
  have hp := List.pairwise_append.1 hsorted
  rw [List.pairwise_append]
  refine ⟨hp.1, ?_, ?_⟩
  · rw [List.pairwise_cons]
    exact ⟨fun x hx => le_of_lt (hdrop x hx), hp.2.1⟩
  · intro a ha b hb
    rcases List.mem_cons.1 hb with h | h
    · rw [h]
      have := List.mem_takeWhile_imp ha
      simpa using this
    · exact hp.2.2 a ha b h

theorem AsInv.tryCell_asinv {s : Search} (hi : AsInv s) (r c d : Nat) (p : Option Coord) :
    AsInv (s.tryCell asFlags r c d p) := by
  rw [Search.tryCell_as]
  split
  · obtain ⟨f, hf⟩ : ∃ f, f = d + (absDiff s.exitRow r + absDiff s.exitCol c) := ⟨_, rfl⟩
    have hopen := Search.AStarSort_open { s with mazeRoute := s.mazeRoute.set r c OPEN }
      r c d p f hf
    have hsplit := List.takeWhile_append_dropWhile (fun x => decide (x.getFunctionF ≤ f))
      s.openDeque
    have hex : (Search.AStarSort { s with mazeRoute := s.mazeRoute.set r c OPEN }
        r c d p).exitRow = s.exitRow ∧
        (Search.AStarSort { s with mazeRoute := s.mazeRoute.set r c OPEN }
        r c d p).exitCol = s.exitCol := by
      unfold Search.AStarSort
      simp only
      split
      · exact ⟨rfl, rfl⟩
      · split <;> exact ⟨rfl, rfl⟩
    constructor
    · intro n hn
      rw [hex.1, hex.2]
      rw [hopen] at hn
      rcases List.mem_append.1 hn with h | h
      · exact hi.fval n ((List.takeWhile_sublist _).subset h)
      · rcases List.mem_cons.1 h with h2 | h2
        · rw [h2, hf]; rfl
        · exact hi.fval n ((List.dropWhile_sublist _).subset h2)
    · rw [hopen]
      exact pairwise_insert_sorted s.openDeque (Coord.mk r c d f p) hi.sorted
  · exact hi

theorem AsInv.pop_as {s : Search} (hi : AsInv s) {front : Coord} {rest : List Coord}
    (ho : s.openDeque = front :: rest) : AsInv (s.pop front rest) := by
  have hs := hi.sorted
  rw [ho] at hs
  constructor
  · intro n hn
    exact hi.fval n (by rw [ho]; exact List.mem_cons_of_mem _ hn)
  · exact (List.pairwise_cons.1 hs).2

theorem AsInv.loopBody_as (exit : Int) {s : Search} (hc : Core s) (hi : AsInv s)
    {front : Coord} {rest : List Coord} (ho : s.openDeque = front :: rest) :
    AsInv (Search.loopBody asFlags exit s front rest).1 := by
  have hfin := hc.inb front (Search.mem_nodes.2 (Or.inr (by rw [ho]; simp)))
  unfold Search.loopBody
  simp only
  split
  · exact hi.pop_as ho
  · refine (Search.SearchImplementation_ind asFlags AsInv (fun _ _ => True) _ _ _
      (hi.pop_as ho) ?_ ?_ ?_ hfin.1 hfin.2).1
    · intro t r c ht _ _ _
      exact ⟨ht.tryCell_asinv r c _ _, trivial⟩
    · intros; trivial
    · intro t m ht
      exact ⟨⟨ht.fval, ht.sorted⟩, fun _ _ => trivial⟩

theorem AsInv.seed_as (exit : Int) {s : Search} (hs : ResetState s) :
    AsInv (Search.seed asFlags exit s) := by
  obtain ⟨f, h, hf⟩ := Search.seed_eq asFlags_strategy exit s hs.openEmpty
  have hf2 := hf rfl
  rw [h]
  constructor
  · intro n hn
    have hn2 : n = Coord.mk (s.selectExit exit).startRow (s.selectExit exit).startCol
        0 f none := by simpa using hn
    rw [hn2, hf2]
    show _ = 0 + (absDiff (s.selectExit exit).exitRow (s.selectExit exit).startRow +
      absDiff (s.selectExit exit).exitCol (s.selectExit exit).startCol)
    rw [absDiff_comm (s.selectExit exit).exitRow, absDiff_comm (s.selectExit exit).exitCol]
    simp only [Coord.getFunctionF]
    omega
  · simp

theorem AsInv.reached_as {exit : Int} (hexit : exit = E1 ∨ exit = E2 ∨ exit = CORNER)
    {s0 : Search} (hs : ResetState s0) {s : Search} {w : Bool}
    (h : Search.Reached asFlags exit s0 s w) : AsInv s := by
  induction h with
  | seed => exact AsInv.seed_as exit hs
  | step hr ho ih =>
    exact ih.loopBody_as exit (Core.reached_core asFlags_strategy hexit hs hr) ho

/-- C15 (priority frontier order).  In every state of a `SearchTemplate` run in
A* mode started from a reset state, every node of `openDeque` has
`functionF = depth + |exitRow - row| + |exitCol - col|`, and `openDeque` is
ordered by `functionF`, least first, so that the node popped next, the front
node, has the least `functionF` of all nodes of `openDeque`. -/
theorem priority_frontier_sorted (exit : Int) (hexit : exit = E1 ∨ exit = E2 ∨ exit = CORNER)
    (s0 : Search) (hs : ResetState s0) (s : Search) (w : Bool)
    (h : Search.Reached asFlags exit s0 s w) :
    (∀ n ∈ s.openDeque, n.getFunctionF =
      n.getDepth + (absDiff s.exitRow n.getRow + absDiff s.exitCol n.getCol)) ∧
    s.openDeque.Pairwise (fun a b => a.getFunctionF ≤ b.getFunctionF) ∧
    (∀ front rest, s.openDeque = front :: rest →
      ∀ n ∈ s.openDeque, front.getFunctionF ≤ n.getFunctionF) := by
  have hi := AsInv.reached_as hexit hs h
  refine ⟨hi.fval, hi.sorted, ?_⟩
  intro front rest ho n hn
  have hs2 := hi.sorted
  rw [ho] at hs2 hn
  rcases List.mem_cons.1 hn with h1 | h1
  · rw [h1]
  · exact (List.pairwise_cons.1 hs2).1 n h1

/-- The state after `k` passes is a state of the run. -/
theorem Search.afterPasses_reached {fl : Flags} (hfl : fl.Strategy) {exit : Int}
    (hexit : exit = E1 ∨ exit = E2 ∨ exit = CORNER) {s0 : Search} (hs : ResetState s0)
    (k : Nat) : ∃ w, Search.Reached fl exit s0 (Search.afterPasses fl exit k s0) w := by
  obtain ⟨t1, _, t3⟩ := Search.trace_chain hfl hexit hs k _ Search.Reached.seed
  unfold Search.afterPasses
  cases h : (Search.trace fl exit k (Search.seed fl exit s0)).getLast? with
  | none =>
    rw [List.getLast?_eq_none_iff] at h
    rw [h] at t3
    simp at t3
  | some x =>
    exact t1 x (List.mem_of_mem_getLast? h)

/-- Witness for C15: the state `detourAsFrontier` of the A* run for `E1` on
`detourMap`, eleven passes into the loop, after ten expansions with their
insertions by `AStarSort`.  The exit is `(1, 0)`; `openDeque` holds three nodes,
at `(1, 0)` with depth 9 and `functionF` 9, at `(0, 2)` with depth 8 and
`functionF` 11, and at `(0, 1)` with depth 9 and `functionF` 11. -/
theorem priority_frontier_sorted_witness :
    (detourAsFrontier.openDeque.map (fun n => (n.pos, n.getDepth, n.getFunctionF)) =
        [((1, 0), 9, 9), ((0, 2), 8, 11), ((0, 1), 9, 11)] ∧
      (detourAsFrontier.exitRow, detourAsFrontier.exitCol) = (1, 0)) ∧
    ((∀ n ∈ detourAsFrontier.openDeque, n.getFunctionF = n.getDepth +
        (absDiff detourAsFrontier.exitRow n.getRow +
         absDiff detourAsFrontier.exitCol n.getCol)) ∧
     detourAsFrontier.openDeque.Pairwise (fun a b => a.getFunctionF ≤ b.getFunctionF) ∧
     (∀ front rest, detourAsFrontier.openDeque = front :: rest →
        ∀ n ∈ detourAsFrontier.openDeque, front.getFunctionF ≤ n.getFunctionF)) :=
  ⟨by decide!,
    (Search.afterPasses_reached asFlags_strategy (Or.inl rfl) detour_reset 11).elim
      (fun w hr => priority_frontier_sorted E1 (Or.inl rfl)
        (Search.new blankMemory detourMap) detour_reset detourAsFrontier w hr)⟩

/-! ## Depths along parent chains -/

theorem DepthChain.depths {start : Nat × Nat} : ∀ (n : Coord), DepthChain start n →
    (Coord.chainList n).map Coord.getDepth = List.range (n.getDepth + 1)
  | Coord.mk r c d f none, h => by
    simp only [DepthChain] at h
    simp only [Coord.chainList, Coord.getDepth, List.map_cons, List.map_nil, h.2]
    rfl
  | Coord.mk r c d f (some p), h => by
    simp only [DepthChain] at h
    have ih := DepthChain.depths p h.1
    have e1 : (Coord.mk r c d f (some p)).getDepth = p.getDepth + 1 := h.2
    rw [Coord.chainList, List.map_append, ih, e1, List.range_succ (p.getDepth + 1)]
    simp only [List.map_cons, List.map_nil, e1]

theorem DepthChain.root {start : Nat × Nat} : ∀ (n : Coord), DepthChain start n →
    ∃ root, (Coord.chainList n).head? = some root ∧ root.pos = start ∧
      root.getDepth = 0 ∧ root.getParent = none
  | Coord.mk r c d f none, h => by
    simp only [DepthChain] at h
    exact ⟨Coord.mk r c d f none, rfl, h.1, h.2, rfl⟩
  | Coord.mk r c d f (some p), h => by
    simp only [DepthChain] at h
    obtain ⟨root, h1, h2⟩ := DepthChain.root p h.1
    refine ⟨root, ?_, h2⟩
    rw [Coord.chainList, List.head?_append, h1]
    rfl

theorem DepthChain.parent {start : Nat × Nat} : ∀ (n : Coord), DepthChain start n →
    (n.getParent = none → n.pos = start ∧ n.getDepth = 0) ∧
    (∀ p, n.getParent = some p → n.getDepth = p.getDepth + 1 ∧ DepthChain start p)
  | Coord.mk r c d f none, h => by
    simp only [DepthChain] at h
    exact ⟨fun _ => ⟨h.1, h.2⟩, fun p hp => by simp [Coord.getParent] at hp⟩
  | Coord.mk r c d f (some q), h => by
    simp only [DepthChain] at h
    refine ⟨fun hp => by simp [Coord.getParent] at hp, fun p hp => ?_⟩
    simp only [Coord.getParent, Option.some.injEq] at hp
    subst hp
    exact ⟨h.2, h.1⟩

/-- In every state of a run from a reset state, for every layout, every node
has a chain of parents that ends in the start node and along which the depth
goes down by one at each step; the start node is in the deques. -/
theorem Search.Reached.depthChain {fl : Flags} (hfl : fl.Strategy) {exit : Int}
    (hexit : exit = E1 ∨ exit = E2 ∨ exit = CORNER) {s0 : Search} (hs : ResetState s0)
    {s : Search} {w : Bool} (h : Search.Reached fl exit s0 s w) :
    (∀ n ∈ s.nodes,
      DepthChain ((s0.selectExit exit).startRow, (s0.selectExit exit).startCol) n) ∧
    (∃ root ∈ s.nodes,
      root.pos = ((s0.selectExit exit).startRow, (s0.selectExit exit).startCol) ∧
      root.getDepth = 0 ∧ root.getParent = none) := by
  induction h with
  | seed =>
    obtain ⟨f, h, _⟩ := Search.seed_eq hfl exit s0 hs.openEmpty
    have hf := Search.selectExit_frame exit s0
    have hnodes : (Search.seed fl exit s0).nodes =
        [Coord.mk (s0.selectExit exit).startRow (s0.selectExit exit).startCol 0 f none] := by
      rw [h]; simp [Search.nodes, hf.2.2.2.1, hs.closedEmpty]
    rw [hnodes]
    refine ⟨?_, _, List.mem_singleton.2 rfl, rfl, rfl, rfl⟩
    intro n hn
    rw [List.mem_singleton.1 hn]
    exact ⟨rfl, rfl⟩
  | step hr ho ih =>
    rename_i sp front rest
    have hc := Core.reached_core hfl hexit hs hr
    have hfin := hc.inb front (Search.mem_nodes.2 (Or.inr (by rw [ho]; simp)))
    have hpopn : ∀ n ∈ (sp.pop front rest).nodes,
        DepthChain ((s0.selectExit exit).startRow, (s0.selectExit exit).startCol) n :=
      fun n hn => ih.1 n ((Search.pop_nodes ho n).1 hn)
    obtain ⟨root, hroot, hrootp⟩ := ih.2
    have hpopr : root ∈ (sp.pop front rest).nodes := (Search.pop_nodes ho root).2 hroot
    by_cases hg : sp.mazeMap.get front.getRow front.getCol = exit
    · have hb : (Search.loopBody fl exit sp front rest).1 = sp.pop front rest :=
        (Search.loopBody_win fl exit sp front rest).2
          ((Search.loopBody_win fl exit sp front rest).1.2 hg)
      rw [hb]
      exact ⟨hpopn, root, hpopr, hrootp⟩
    · obtain ⟨_, h2, h3, h4⟩ := Search.loopBody_expand fl sp front rest hg
      rw [h2]
      have hind := Search.SearchImplementation_ind fl
        (fun t => t.closedDeque = (sp.pop front rest).closedDeque ∧
          (∀ n ∈ t.nodes,
            DepthChain ((s0.selectExit exit).startRow, (s0.selectExit exit).startCol) n) ∧
          root ∈ t.nodes)
        (fun _ _ => True) (sp.pop front rest) front.getRow front.getCol
        ⟨rfl, hpopn, hpopr⟩ ?_ ?_ ?_ hfin.1 hfin.2
      · exact ⟨hind.1.2.1, root, hind.1.2.2, hrootp⟩
      · intro t r c ⟨hcl, hn, hr2⟩ _ _ _
        refine ⟨⟨?_, ?_, Search.tryCell_nodes_mono hfl t r c _ _ hr2⟩, trivial⟩
        · rw [(Search.tryCell_frame hfl t r c _ _).2.1, hcl]
        · rw [h3, h4]
          have hfront : front ∈ t.nodes := by
            apply Search.mem_nodes.2
            left
            rw [hcl]
            simp [Search.pop]
          rcases Search.tryCell_cases hfl t r c (front.getDepth + 1) (some front) with
            ⟨_, h⟩ | ⟨_, f, l1, l2, hl, h⟩
          · rw [h]; exact hn
          · rw [h]
            intro n hmem
            have hmem2 : n ∈ t.closedDeque ++
                (l1 ++ Coord.mk r c (front.getDepth + 1) f (some front) :: l2) := hmem
            simp only [List.mem_append, List.mem_cons] at hmem2
            rcases hmem2 with h5 | h5 | h5 | h5
            · exact hn n (Search.mem_nodes.2 (Or.inl h5))
            · exact hn n (Search.mem_nodes.2 (Or.inr (by rw [hl]; simp [h5])))
            · rw [h5]
              exact ⟨hn front hfront, rfl⟩
            · exact hn n (Search.mem_nodes.2 (Or.inr (by rw [hl]; simp [h5])))
      · intros; trivial
      · intro t m ht
        exact ⟨ht, fun _ _ => trivial⟩

/-- C17 (depth and path length).  In every state of a run from a reset state,
for every layout and strategy: the start node, at the start position with
depth 0 and no parent, is in the deques; every node without parent is at the
start position and has depth 0; every other node is one deeper than its
parent; so the depths along the chain from the root down to a node `n` are
`0, 1, ..., depth n`, the root of the chain is at the start position, and the
path that `Print` builds from `n` has exactly `depth n + 1` nodes. -/
theorem depth_and_path_length (fl : Flags) (hfl : fl.Strategy) (exit : Int)
    (hexit : exit = E1 ∨ exit = E2 ∨ exit = CORNER) (s0 : Search) (hs : ResetState s0)
    (s : Search) (w : Bool) (h : Search.Reached fl exit s0 s w) :
    (∃ root ∈ s.nodes,
      root.pos = ((s0.selectExit exit).startRow, (s0.selectExit exit).startCol) ∧
      root.getDepth = 0 ∧ root.getParent = none) ∧
    ∀ n ∈ s.nodes,
      (n.getParent = none →
        n.pos = ((s0.selectExit exit).startRow, (s0.selectExit exit).startCol) ∧
        n.getDepth = 0) ∧
      (∀ p, n.getParent = some p → n.getDepth = p.getDepth + 1) ∧
      (Coord.chainList n).map Coord.getDepth = List.range (n.getDepth + 1) ∧
      (∃ root, (Coord.chainList n).head? = some root ∧
        root.pos = ((s0.selectExit exit).startRow, (s0.selectExit exit).startCol) ∧
        root.getDepth = 0 ∧ root.getParent = none) ∧
      Coord.climb n [] = Coord.chainList n ∧
      (Coord.climb n []).length = n.getDepth + 1 := by
  obtain ⟨h1, h2⟩ := Search.Reached.depthChain hfl hexit hs h
  refine ⟨h2, fun n hn => ?_⟩
  have hd := h1 n hn
  have hdep := DepthChain.depths n hd
  have hcl : Coord.climb n [] = Coord.chainList n := by rw [Coord.climb_eq]; simp
  refine ⟨(DepthChain.parent n hd).1, fun p hp => ((DepthChain.parent n hd).2 p hp).1, hdep,
    DepthChain.root n hd, hcl, ?_⟩
  rw [hcl]
  have := congrArg List.length hdep
  simpa using this

/-- Witness for C17: the state `detourDfsDeep` of the depth first run for `E1`
on `detourMap`, six passes into the loop.  It holds ten nodes: the start node
at `(5, 1)` with depth 0 and no parent, and nine nodes with a parent, each one
deeper than its parent; the path that `Print` would build from the front node
of `openDeque`, at `(0, 2)` with depth 6, has seven positions. -/
theorem depth_and_path_length_witness :
    (detourDfsDeep.nodes.map (fun n => (n.pos, n.getDepth, n.getParent.map Coord.pos)) =
        [((5, 1), 0, none), ((5, 2), 1, some (5, 1)), ((4, 2), 2, some (5, 2)),
         ((3, 2), 3, some (4, 2)), ((2, 2), 4, some (3, 2)), ((1, 2), 5, some (2, 2)),
         ((0, 2), 6, some (1, 2)), ((1, 1), 6, some (1, 2)), ((3, 1), 4, some (3, 2)),
         ((5, 0), 1, some (5, 1))] ∧
      detourDfsDeep.openDeque.head?.map (fun n => (Coord.climb n []).map Coord.pos) =
        some [(5, 1), (5, 2), (4, 2), (3, 2), (2, 2), (1, 2), (0, 2)]) ∧
    ((∃ root ∈ detourDfsDeep.nodes,
      root.pos = (((Search.new blankMemory detourMap).selectExit E1).startRow,
        ((Search.new blankMemory detourMap).selectExit E1).startCol) ∧
      root.getDepth = 0 ∧ root.getParent = none) ∧
    ∀ n ∈ detourDfsDeep.nodes,
      (n.getParent = none →
        n.pos = (((Search.new blankMemory detourMap).selectExit E1).startRow,
          ((Search.new blankMemory detourMap).selectExit E1).startCol) ∧
        n.getDepth = 0) ∧
      (∀ p, n.getParent = some p → n.getDepth = p.getDepth + 1) ∧
      (Coord.chainList n).map Coord.getDepth = List.range (n.getDepth + 1) ∧
      (∃ root, (Coord.chainList n).head? = some root ∧
        root.pos = (((Search.new blankMemory detourMap).selectExit E1).startRow,
          ((Search.new blankMemory detourMap).selectExit E1).startCol) ∧
        root.getDepth = 0 ∧ root.getParent = none) ∧
      Coord.climb n [] = Coord.chainList n ∧
      (Coord.climb n []).length = n.getDepth + 1) :=
  ⟨by decide!,
    (Search.afterPasses_reached dfsFlags_strategy (Or.inl rfl) detour_reset 6).elim
      (fun w hr => depth_and_path_length dfsFlags dfsFlags_strategy E1 (Or.inl rfl)
        (Search.new blankMemory detourMap) detour_reset detourDfsDeep w hr)⟩

/-! ## Counter and overlay against the deques -/

theorem Grid.get_outside (g : Grid) {r c : Nat} (h : ¬ (r < BOARDSIZE ∧ c < BOARDSIZE)) :
    g.get r c = 0 := by
  unfold Grid.get
  split
  · split
    · exact absurd ⟨by assumption, by assumption⟩ h
    · rfl
  · rfl

/-- Invariant `Track` holds in every state of a run from a reset state on a
layout of `FREE`, `START`, `BLOCK`, `E1`, `E2` cells, the final state
included. -/
theorem Track.reached_track {fl : Flags} (hfl : fl.Strategy) {exit : Int}
    (hexit : exit = E1 ∨ exit = E2 ∨ exit = CORNER) {s0 : Search} (hs : ResetState s0)
    (hl : LayoutOK s0.mazeMap) {s : Search} {w : Bool}
    (h : Search.Reached fl exit s0 s w) :
    Track s0.mazeMap ((s0.selectExit exit).startRow, (s0.selectExit exit).startCol) s := by
  cases h with
  | seed => exact (Inv.seed_inv hfl hexit hs).track
  | step hr ho =>
    rename_i sp front rest
    have hi := Inv.reached_inv hfl hexit hs hl hr rfl
    by_cases hw : (Search.loopBody fl exit sp front rest).2 = true
    · rw [(Search.loopBody_win fl exit sp front rest).2 hw]
      exact hi.track.pop_track ho
    · have hw2 : (Search.loopBody fl exit sp front rest).2 = false := by simpa using hw
      exact (hi.loopBody_inv hfl hl ho hw2).track

/-- The cells marked `OPEN` are the positions of `openDeque`, the cells marked
`CLOSED` are the positions of `closedDeque`. -/
theorem Search.marks_iff {M : Grid} (hl : LayoutOK M) {start : Nat × Nat} {s : Search}
    (hc : Core s) (ht : Track M start s) (r c : Nat) :
    (s.mazeRoute.get r c = OPEN ↔ (r, c) ∈ s.openDeque.map Coord.pos) ∧
    (s.mazeRoute.get r c = CLOSED ↔ (r, c) ∈ s.closedDeque.map Coord.pos) := by
  have hfresh : (∀ n ∈ s.nodes, n.pos ≠ (r, c)) →
      s.mazeRoute.get r c ≠ OPEN ∧ s.mazeRoute.get r c ≠ CLOSED := by
    intro hno
    by_cases hin : r < BOARDSIZE ∧ c < BOARDSIZE
    · rw [ht.fresh r c hin.1 hin.2 hno]
      exact hl.get_ne r c
    · rw [Grid.get_outside _ hin]
      exact ⟨by decide, by decide⟩
  have hopen : ∀ n ∈ s.openDeque, n.pos = (r, c) → s.mazeRoute.get r c = OPEN := by
    intro n hn hp
    have := hc.openMark n hn
    rw [show n.getRow = r from congrArg Prod.fst hp,
      show n.getCol = c from congrArg Prod.snd hp] at this
    exact this
  have hclosed : ∀ n ∈ s.closedDeque, n.pos = (r, c) → s.mazeRoute.get r c = CLOSED := by
    intro n hn hp
    have := hc.closedMark n hn
    rw [show n.getRow = r from congrArg Prod.fst hp,
      show n.getCol = c from congrArg Prod.snd hp] at this
    exact this
  constructor
  · constructor
    · intro h
      by_contra hno
      have hno2 : ∀ n ∈ s.openDeque, n.pos ≠ (r, c) :=
        fun n hn hp => hno (List.mem_map.2 ⟨n, hn, hp⟩)
      by_cases hcl : ∃ n ∈ s.closedDeque, n.pos = (r, c)
      · obtain ⟨n, hn, hp⟩ := hcl
        exact OPEN_ne_CLOSED (h.symm.trans (hclosed n hn hp))
      · apply (hfresh ?_).1 h
        intro n hn hp
        rcases Search.mem_nodes.1 hn with h1 | h1
        · exact hcl ⟨n, h1, hp⟩
        · exact hno2 n h1 hp
    · intro h
      obtain ⟨n, hn, hp⟩ := List.mem_map.1 h
      exact hopen n hn hp
  · constructor
    · intro h
      by_contra hno
      have hno2 : ∀ n ∈ s.closedDeque, n.pos ≠ (r, c) :=
        fun n hn hp => hno (List.mem_map.2 ⟨n, hn, hp⟩)
      by_cases hop : ∃ n ∈ s.openDeque, n.pos = (r, c)
      · obtain ⟨n, hn, hp⟩ := hop
        exact OPEN_ne_CLOSED ((hopen n hn hp).symm.trans h)
      · apply (hfresh ?_).2 h
        intro n hn hp
        rcases Search.mem_nodes.1 hn with h1 | h1
        · exact hno2 n h1 hp
        · exact hop ⟨n, h1, hp⟩
    · intro h
      obtain ⟨n, hn, hp⟩ := List.mem_map.1 h
      exact hclosed n hn hp

/-- C19 (counter and overlay consistency).  In every state at the head of the
search loop, and in the final state, of a `SearchTemplate` run started from a
reset state on a layout whose cells are all `FREE`, `START`, `BLOCK`, `E1` or
`E2`: `cost` is the size of `closedDeque`, the cells with overlay status `OPEN`
are exactly the positions of `openDeque`, the cells with status `CLOSED` are
exactly the positions of `closedDeque`, and no position occurs twice.  Hence
the total cost that `Print` reports is the size of `closedDeque` minus one, and
the reported number of explored states is the number of cells that are `OPEN`
or `CLOSED`, the cells discovered. -/
theorem counter_overlay_consistent (fl : Flags) (hfl : fl.Strategy) (exit : Int)
    (hexit : exit = E1 ∨ exit = E2 ∨ exit = CORNER) (s0 : Search) (hs : ResetState s0)
    (hl : LayoutOK s0.mazeMap) :
    (∀ s w, Search.Reached fl exit s0 s w →
      s.cost = s.closedDeque.length ∧
      (∀ r c, s.mazeRoute.get r c = OPEN ↔ (r, c) ∈ s.openDeque.map Coord.pos) ∧
      (∀ r c, s.mazeRoute.get r c = CLOSED ↔ (r, c) ∈ s.closedDeque.map Coord.pos) ∧
      (s.nodes.map Coord.pos).Nodup) ∧
    (∀ fuel, BOARDSIZE * BOARDSIZE < fuel →
      ∃ o, Search.SearchTemplate fl exit fuel s0 = some o ∧
        o.report.totalCost = (o.state.closedDeque.length : Int) - 1 ∧
        o.report.finalClosed = o.state.closedDeque.length ∧
        o.report.totalExplored = (o.state.nodes.map Coord.pos).toFinset.card ∧
        ∀ r c, (r, c) ∈ (o.state.nodes.map Coord.pos).toFinset ↔
          (o.state.mazeRoute.get r c = OPEN ∨ o.state.mazeRoute.get r c = CLOSED)) := by
  have hall : ∀ s w, Search.Reached fl exit s0 s w →
      s.cost = s.closedDeque.length ∧
      (∀ r c, s.mazeRoute.get r c = OPEN ↔ (r, c) ∈ s.openDeque.map Coord.pos) ∧
      (∀ r c, s.mazeRoute.get r c = CLOSED ↔ (r, c) ∈ s.closedDeque.map Coord.pos) ∧
      (s.nodes.map Coord.pos).Nodup := by
    intro s w h
    have hc := Core.reached_core hfl hexit hs h
    have ht := Track.reached_track hfl hexit hs hl h
    exact ⟨hc.costEq, fun r c => (Search.marks_iff hl hc ht r c).1,
      fun r c => (Search.marks_iff hl hc ht r c).2, hc.nodup⟩
  refine ⟨hall, fun fuel hfuel => ?_⟩
  obtain ⟨o, last, h1, h2, h3, h4, h5⟩ := Search.SearchTemplate_some hfl hexit hs hfuel
  obtain ⟨c1, c2, c3, c4⟩ := hall o.state o.win h3
  have hp := Search.Print_eq o.state h4
  rw [h5] at hp
  have hrep := Option.some.inj hp
  refine ⟨o, h1, ?_, ?_, ?_, ?_⟩
  · rw [hrep]
    show (o.state.cost : Int) - 1 = _
    rw [c1]
  · rw [hrep]
  · rw [List.toFinset_card_of_nodup c4, hrep]
    show o.state.openDeque.length + o.state.closedDeque.length = _
    simp only [Search.nodes, List.map_append, List.length_append, List.length_map]
    omega
  · intro r c
    rw [List.mem_toFinset, c2 r c, c3 r c]
    simp only [Search.nodes, List.map_append, List.mem_append]
    tauto

/-- Witness for C19: the A* run for `E1` on `detourMap`. -/
theorem counter_overlay_consistent_witness :
    ∃ o, Search.SearchTemplate asFlags E1 626 (Search.new blankMemory detourMap) = some o ∧
      o.report.totalCost = (o.state.closedDeque.length : Int) - 1 ∧
      o.report.finalClosed = o.state.closedDeque.length ∧
      o.report.totalExplored = (o.state.nodes.map Coord.pos).toFinset.card ∧
      ∀ r c, (r, c) ∈ (o.state.nodes.map Coord.pos).toFinset ↔
        (o.state.mazeRoute.get r c = OPEN ∨ o.state.mazeRoute.get r c = CLOSED) :=
  (counter_overlay_consistent asFlags asFlags_strategy E1 (Or.inl rfl)
    (Search.new blankMemory detourMap) detour_reset detour_layout).2 626 (by decide)

/-! ## Runs for `CORNER` and exhausted runs -/

/-- No cell of a layout of `FREE`, `START`, `BLOCK`, `E1`, `E2` cells reads as
`CORNER` at a position on the board. -/
theorem LayoutOK.get_ne_corner {M : Grid} (hl : LayoutOK M) {r c : Nat}
    (hr : r < BOARDSIZE) (hc : c < BOARDSIZE) : M.get r c ≠ CORNER := by
  unfold Grid.get
  rw [dif_pos hr, dif_pos hc]
  rcases hl ⟨r, hr⟩ ⟨c, hc⟩ with h | h | h | h | h <;> rw [h] <;> decide

/-- C20 (a `CORNER` run is never solved).  On a layout whose cells are all
`FREE`, `START`, `BLOCK`, `E1` or `E2`, the run of `SearchTemplate` for `CORNER`
from a reset state, under any of the three strategies, returns with
`win = false` and an empty `openDeque`; the cells of `closedDeque` are exactly
the cells that can be reached from the start cell `(BOARDSIZE - 1, 0)` by moves
into cells on the board that are not `BLOCK`, so every such cell has been
expanded, the target `(0, BOARDSIZE - 1)` included when it is reachable; and
the path that `Print` reports is the chain of parents of the last node of
`closedDeque`, the last node expanded, from the root down to it. -/
theorem corner_never_solved (fl : Flags) (hfl : fl.Strategy) (s : Search)
    (hs : ResetState s) (hl : LayoutOK s.mazeMap) (fuel : Nat)
    (hfuel : BOARDSIZE * BOARDSIZE < fuel) :
    ∃ o last, Search.SearchTemplate fl CORNER fuel s = some o ∧
      o.win = false ∧ o.state.openDeque = [] ∧
      (∀ p, p ∈ o.state.closedDeque.map Coord.pos ↔
        ∃ k, Reach s.mazeMap (BOARDSIZE - 1, 0) k p) ∧
      ((∃ k, Reach s.mazeMap (BOARDSIZE - 1, 0) k (0, BOARDSIZE - 1)) →
        (0, BOARDSIZE - 1) ∈ o.state.closedDeque.map Coord.pos) ∧
      o.state.closedDeque.getLast? = some last ∧
      o.report.path = Coord.chainList last ∧
      o.report.pathCost = last.getDepth + 1 := by
  have hexit : CORNER = E1 ∨ CORNER = E2 ∨ CORNER = CORNER := Or.inr (Or.inr rfl)
  obtain ⟨o, h1, h2, h3⟩ := Search.SearchTemplate_run hfl hexit hs hl hfuel
  obtain ⟨o2, last, g1, _, _, g4, g5⟩ := Search.SearchTemplate_some hfl hexit hs hfuel
  have ho : o2 = o := Option.some.inj (g1.symm.trans h1)
  subst ho
  have hstart := (Search.selectExit_start CORNER s).2 rfl
  rw [hstart.1, hstart.2] at h3
  rcases h3 with ⟨hw, hop, hi⟩ | ⟨_, sp, front, rest, hi, _, hsp, hg, _⟩
  · have hp := Search.Print_eq o2.state g4
    rw [g5] at hp
    have hrep := Option.some.inj hp
    have hcl : ∀ p, p ∈ o2.state.closedDeque.map Coord.pos ↔
        ∃ k, Reach s.mazeMap (BOARDSIZE - 1, 0) k p := by
      intro p
      constructor
      · intro h
        obtain ⟨n, hn, hnp⟩ := List.mem_map.1 h
        have hgc := hi.track.chain n (Search.mem_nodes.2 (Or.inl hn))
        exact ⟨n.getDepth, hnp ▸ GoodChain.reach n hgc⟩
      · rintro ⟨k, hk⟩
        obtain ⟨n, hn, hnp⟩ := hi.closed_of_reach_inv hop hk
        exact List.mem_map.2 ⟨n, hn, hnp⟩
    have hgl := hi.track.chain last
      (Search.mem_nodes.2 (Or.inl (List.mem_of_mem_getLast? g4)))
    refine ⟨o2, last, h1, hw, hop, hcl, fun h => (hcl _).2 h, g4, ?_, ?_⟩
    · rw [hrep]
      show Coord.climb last [] = _
      rw [Coord.climb_eq, List.append_nil]
    · rw [hrep]
      show (Coord.climb last []).length = _
      rw [Coord.climb_eq, List.append_nil, GoodChain.length last hgl]
  · exfalso
    have hin := hi.core.inb front (Search.mem_nodes.2 (Or.inr (by rw [hsp]; simp)))
    exact LayoutOK.get_ne_corner hl hin.1 hin.2 hg

/-- Witness for C20: the depth first run for `CORNER` on `cornerMap`, whose
corridor leads from the start `(24, 0)` to the target `(0, 24)`; the target is
the position of the last node expanded and the run still ends unsolved. -/
theorem corner_never_solved_witness :
    (∃ o last, Search.SearchTemplate dfsFlags CORNER 626 (Search.new blankMemory cornerMap)
        = some o ∧
      o.win = false ∧ o.state.openDeque = [] ∧
      (∀ p, p ∈ o.state.closedDeque.map Coord.pos ↔
        ∃ k, Reach (Search.new blankMemory cornerMap).mazeMap (BOARDSIZE - 1, 0) k p) ∧
      ((∃ k, Reach (Search.new blankMemory cornerMap).mazeMap (BOARDSIZE - 1, 0) k
          (0, BOARDSIZE - 1)) →
        (0, BOARDSIZE - 1) ∈ o.state.closedDeque.map Coord.pos) ∧
      o.state.closedDeque.getLast? = some last ∧
      o.report.path = Coord.chainList last ∧
      o.report.pathCost = last.getDepth + 1) ∧
    (Search.SearchTemplate dfsFlags CORNER 626 (Search.new blankMemory cornerMap)).map
      (fun o => (o.win, o.state.closedDeque.getLast?.map Coord.pos, o.report.pathCost))
      = some (false, some (0, 24), 49) :=
  ⟨corner_never_solved dfsFlags dfsFlags_strategy (Search.new blankMemory cornerMap)
    corner_reset corner_layout 626 (by decide), by decide!⟩

/-- C11 (exhausted runs report no path), failing input.  On `sealedMap` the
breadth first run for `E1` empties `openDeque` without a solution
(`win = false`, three nodes expanded), and the report of `Print`, which
`SearchTemplate` calls whether or not the run was solved, still holds a path:
the chain of the last node expanded, `(0, 0)` then `(1, 0)`, with path cost 2.
The cell `(1, 0)` holds `E2`, not the requested `E1`. -/
theorem exhausted_run_reports_path :
    (Search.SearchTemplate bfsFlags E1 626 (Search.new blankMemory sealedMap)).map
      (fun o => (o.win, o.state.openDeque.length, o.state.closedDeque.map Coord.pos))
      = some (false, 0, [(0, 0), (0, 1), (1, 0)]) ∧
    (Search.SearchTemplate bfsFlags E1 626 (Search.new blankMemory sealedMap)).map
      (fun o => (o.report.path.map Coord.pos, o.report.pathCost))
      = some ([(0, 0), (1, 0)], 2) ∧
    sealedMap ⟨0, by decide⟩ ⟨3, by decide⟩ = E1 ∧
    sealedMap ⟨1, by decide⟩ ⟨0, by decide⟩ = E2 ∧
    LayoutOK sealedMap := by
  refine ⟨by decide!, by decide!, by decide, by decide, by decide!⟩


end MazeBot
